import Mathlib

/-!
# go-multiaddr: the text/binary codec of `codec.go`

A shallow embedding of `stringToBytes`, `bytesToString`, `bytesSplit`,
`addressStringToBytes` and `addressBytesToString`, together with the helpers
they call, followed by theorems about them.

Conventions of the embedding:

* a Go `string` is a `List Char` (`Str`), a Go `[]byte` is a `List Byte` with
  `Byte = Fin 256`;
* a `[]byte` argument comes with the bytes that lie between its length and its
  capacity (`spare`), because Go checks `b[:k]` against the capacity and
  `b[k:]` against the length;
* a Go call that returns `(ret, err)` is an `Outcome`: it returns a pair, or a
  panic leaves it, or the model ran out of fuel (shown never to happen).
-/

namespace Multiaddr

/-! ## Data -/

/-- A byte. -/
abbrev Byte := Fin 256

/-- A Go string, as its sequence of characters. -/
abbrev Str := List Char

/-- The conversion `byte(n)` of Go: the low eight bits. -/
def byte (n : Nat) : Byte := ⟨n % 256, Nat.mod_lt n (by decide)⟩

/-- Why `strconv.Atoi` refuses a text. -/
inductive NumError where
  | invalid
  | outOfRange
  deriving DecidableEq, Repr

/-- The errors `addressStringToBytes` builds. -/
inductive AddrError where
  | ip4 (s : Str)
  | ip6 (s : Str)
  | port (name : Str) (cause : NumError)
  | portTooLarge (name : Str)
  | unknown (name : Str)
  deriving DecidableEq, Repr

/-- The error values of the codec: the `fmt.Errorf` results of `codec.go`, the
run-time error of a slice expression out of range, and the two varint faults. -/
inductive Error where
  | mustBeginWithSlash
  | noProtocolWithName (name : Str)
  | requiresAddress (sp : List Str)
  | failedToParse (name : Str) (tok : Str) (cause : AddrError)
  | noProtocolWithCode (code : Nat)
  | sliceBounds (k : Nat) (limit : Nat)
  | truncatedVarint
  | overflowVarint
  deriving DecidableEq, Repr

/-- The value a panic carries: one that implements `error` (a run-time error
does), or any other value. -/
inductive PanicValue where
  | error (e : Error)
  | other (msg : Str)
  deriving DecidableEq, Repr

/-- How a call of one of the three entry points ends. -/
inductive Outcome (α : Type) where
  | ret (v : α) (err : Option Error)
  | panic (v : PanicValue)
  | outOfFuel
  deriving DecidableEq, Repr

/-- The call returned with a nil error. -/
def Outcome.succeeds {α : Type} : Outcome α → Bool
  | .ret _ none => true
  | _ => false

/-- The call returned with a non-nil error. -/
def Outcome.fails {α : Type} : Outcome α → Bool
  | .ret _ (some _) => true
  | _ => false

/-! ## Go slice expressions -/

/-- The slice expression `b[:k]`: allowed up to the capacity of `b`. -/
def sliceTo (b spare : List Byte) (k : Nat) : Except Error (List Byte) :=
  if k ≤ b.length + spare.length then .ok ((b ++ spare).take k)
  else .error (.sliceBounds k (b.length + spare.length))

/-- The slice expression `b[k:]`: allowed up to the length of `b`. -/
def sliceFrom (b : List Byte) (k : Nat) : Except Error (List Byte) :=
  if k ≤ b.length then .ok (b.drop k)
  else .error (.sliceBounds k b.length)

/-! ## Package strings -/

/-- Go `strings.TrimRight(s, cutset)`: all trailing characters that are in
`cutset` removed. -/
def TrimRight (s : Str) (cutset : Str) : Str :=
  s.rdropWhile (fun c => cutset.elem c)

/-- Go `strings.Split(s, sep)` for a separator of one character: the pieces
between the separators, one more than there are separators. -/
def Split : Str → Char → List Str
  | [], _ => [[]]
  | c :: cs, sep =>
    if c = sep then [] :: Split cs sep
    else
      match Split cs sep with
      | [] => [[c]]
      | t :: ts => (c :: t) :: ts

/-- Go `strings.Join(elems, sep)`. -/
def Join (elems : List Str) (sep : Str) : Str :=
  sep.intercalate elems

/-! ## Package strconv -/

/-- The value of a decimal digit, if the character is one. -/
def digitVal (c : Char) : Option Nat :=
  if '0' ≤ c ∧ c ≤ '9' then some (c.toNat - 48) else none

/-- The value of a text of decimal digits, continuing from `acc`. -/
def parseDigits : Str → Nat → Option Nat
  | [], acc => some acc
  | c :: cs, acc =>
    match digitVal c with
    | none => none
    | some d => parseDigits cs (acc * 10 + d)

/-- Go `strconv.Atoi` on a 64-bit platform: an optional sign, then at least one
decimal digit and nothing else; the value has to fit an `int`. -/
def Atoi (s : Str) : Except NumError Int :=
  match s with
  | [] => .error .invalid
  | c :: cs =>
    let neg := decide (c = '-')
    let ds := if c = '-' ∨ c = '+' then cs else s
    if ds = [] then .error .invalid
    else
      match parseDigits ds 0 with
      | none => .error .invalid
      | some n =>
        if neg then
          if n > 2 ^ 63 then .error .outOfRange else .ok (-(n : Int))
        else
          if n ≥ 2 ^ 63 then .error .outOfRange else .ok (n : Int)

/-- The character of a decimal digit. -/
def digitChar (d : Nat) : Char := Char.ofNat (48 + d)

/-- The decimal digits of `n` in front of `acc`. -/
def uitoaAux : Nat → Nat → Str → Str
  | 0, _, acc => acc
  | fuel + 1, n, acc =>
    if n < 10 then digitChar n :: acc
    else uitoaAux fuel (n / 10) (digitChar (n % 10) :: acc)

/-- The decimal text of a natural number, without padding. -/
def uitoa (n : Nat) : Str := uitoaAux (n + 1) n []

/-- Go `strconv.Itoa`. -/
def Itoa (i : Int) : Str :=
  if i < 0 then '-' :: uitoa i.natAbs else uitoa i.toNat

/-! ## Package encoding/binary -/

/-- The conversion `uint16(i)` of an `int`. -/
def toUint16 (i : Int) : Nat := (i % 65536).toNat

/-- Go `binary.BigEndian.PutUint16` on a fresh slice of two bytes. -/
def putUint16 (v : Nat) : List Byte := [byte (v / 256), byte v]

/-- Go `binary.BigEndian.Uint16`; the source calls it on two bytes. -/
def getUint16 (b : List Byte) : Nat :=
  match b with
  | hi :: lo :: _ => hi.val * 256 + lo.val
  | _ => 0

/-! ## Package net (the parser and printer of IP addresses, as of Go 1.17) -/

/-- The constant `big` of package net. -/
def big : Nat := 0xFFFFFF

/-- The loop of `dtoi`: `n` is the value so far, `i` the characters consumed. -/
def dtoiLoop : Str → Nat → Nat → Nat × Nat × Bool
  | [], n, i => if i = 0 then (0, 0, false) else (n, i, true)
  | c :: cs, n, i =>
    if '0' ≤ c ∧ c ≤ '9' then
      let n1 := n * 10 + (c.toNat - 48)
      if n1 ≥ big then (big, i, false) else dtoiLoop cs n1 (i + 1)
    else if i = 0 then (0, 0, false) else (n, i, true)

/-- Go `dtoi`: decimal to integer; the number, the characters consumed,
success. -/
def dtoi (s : Str) : Nat × Nat × Bool := dtoiLoop s 0 0

/-- The value of a hexadecimal digit, if the character is one. -/
def hexVal (c : Char) : Option Nat :=
  if '0' ≤ c ∧ c ≤ '9' then some (c.toNat - 48)
  else if 'a' ≤ c ∧ c ≤ 'f' then some (c.toNat - 97 + 10)
  else if 'A' ≤ c ∧ c ≤ 'F' then some (c.toNat - 65 + 10)
  else none

/-- The loop of `xtoi`. -/
def xtoiLoop : Str → Nat → Nat → Nat × Nat × Bool
  | [], n, i => if i = 0 then (0, i, false) else (n, i, true)
  | c :: cs, n, i =>
    match hexVal c with
    | some d =>
      let n1 := n * 16 + d
      if n1 ≥ big then (0, i, false) else xtoiLoop cs n1 (i + 1)
    | none => if i = 0 then (0, i, false) else (n, i, true)

/-- Go `xtoi`: hexadecimal to integer; the number, the characters consumed,
success. -/
def xtoi (s : Str) : Nat × Nat × Bool := xtoiLoop s 0 0

/-- The twelve bytes in front of an IPv4 address inside sixteen bytes. -/
def v4InV6Prefix : List Byte := [0, 0, 0, 0, 0, 0, 0, 0, 0, 0, 0xff, 0xff]

/-- Go `net.IPv4(a, b, c, d)`: the address in its form of sixteen bytes. -/
def IPv4 (a b c d : Byte) : List Byte := v4InV6Prefix ++ [a, b, c, d]

/-- The loop of `parseIPv4`: `k` octets are still to read, `i` is the index of
the next one, `p` the octets read. -/
def parseIPv4Loop : Nat → Nat → Str → List Byte → Option (List Byte)
  | 0, _, s, p =>
    if s.length ≠ 0 then none
    else some (IPv4 (p.getD 0 0) (p.getD 1 0) (p.getD 2 0) (p.getD 3 0))
  | k + 1, i, s, p =>
    if s.length = 0 then none
    else
      match (if i > 0 then (if s.head? ≠ some '.' then none else some (s.drop 1))
             else some s) with
      | none => none
      | some s1 =>
        match dtoi s1 with
        | (n, c, ok) =>
          if !ok || n > 0xFF then none
          else if c > 1 && s1.head? = some '0' then none
          else parseIPv4Loop k (i + 1) (s1.drop c) (p ++ [byte n])

/-- Go `parseIPv4`: four decimal octets with dots between them, none with a
leading zero. -/
def parseIPv4 (s : Str) : Option (List Byte) := parseIPv4Loop 4 0 s []

/-- The loop of `parseIPv6`. The bytes stored so far are `w`, so the index `i`
of the source is `w.length`; `k` counts the groups that still fit, so `k = 0`
is `i = IPv6len`; `ell` is the position of the ellipsis, `none` for `-1`. The
result is the state in which the loop ends, or `none` where the source
returns nil. -/
def parseIPv6Loop : Nat → Str → List Byte → Option Nat →
    Option (Str × List Byte × Option Nat)
  | 0, s, w, ell => some (s, w, ell)
  | k + 1, s, w, ell =>
    match xtoi s with
    | (n, c, ok) =>
      if !ok || n > 0xFFFF then none
      else if c < s.length && s.getD c ' ' = '.' then
        if ell.isNone && w.length ≠ 12 then none
        else if w.length + 4 > 16 then none
        else
          match parseIPv4 s with
          | none => none
          | some ip4 => some ([], w ++ ip4.drop 12, ell)
      else
        let w1 := w ++ [byte (n / 256), byte n]
        let s1 := s.drop c
        if s1.length = 0 then some (s1, w1, ell)
        else if s1.head? ≠ some ':' || s1.length = 1 then none
        else
          let s2 := s1.drop 1
          if s2.head? = some ':' then
            if ell.isSome then none
            else
              let s3 := s2.drop 1
              if s3.length = 0 then some (s3, w1, some w1.length)
              else parseIPv6Loop k s3 w1 (some w1.length)
          else parseIPv6Loop k s2 w1 ell

/-- The end of `parseIPv6`: the whole text has to be used; an ellipsis is
expanded to the zero bytes that are missing, and has to stand for some. -/
def parseIPv6Finish : Str × List Byte × Option Nat → Option (List Byte)
  | (s, w, ell) =>
    if s.length ≠ 0 then none
    else if w.length < 16 then
      match ell with
      | none => none
      | some e => some (w.take e ++ List.replicate (16 - w.length) 0 ++ w.drop e)
    else
      match ell with
      | some _ => none
      | none => some w

/-- Go `parseIPv6` (no zone allowed). -/
def parseIPv6 (s : Str) : Option (List Byte) :=
  match (if s.length ≥ 2 && s.head? = some ':' && (s.drop 1).head? = some ':'
         then (s.drop 2, some 0) else (s, none)) with
  | (s1, ell) =>
    if ell.isSome && s1.length = 0 then some (List.replicate 16 0)
    else (parseIPv6Loop 8 s1 [] ell).bind parseIPv6Finish

/-- The scan of `ParseIP` over the text `s` for its first dot or colon. -/
def parseIPScan : Str → Str → Option (List Byte)
  | [], _ => none
  | c :: cs, s =>
    if c = '.' then parseIPv4 s
    else if c = ':' then parseIPv6 s
    else parseIPScan cs s

/-- Go `net.ParseIP`: the first dot or colon decides between the two forms;
`none` is the nil address. -/
def ParseIP (s : Str) : Option (List Byte) := parseIPScan s s

/-- Go `IP.To4` of the result of `ParseIP`. -/
def To4 (ip : Option (List Byte)) : Option (List Byte) :=
  match ip with
  | none => none
  | some p =>
    if p.length = 4 then some p
    else if p.length = 16 && (p.take 10).all (fun x => x = 0)
        && p.getD 10 0 = 0xff && p.getD 11 0 = 0xff then some (p.drop 12)
    else none

/-- Go `IP.To16` of the result of `ParseIP`. -/
def To16 (ip : Option (List Byte)) : Option (List Byte) :=
  match ip with
  | none => none
  | some p =>
    if p.length = 4 then some (IPv4 (p.getD 0 0) (p.getD 1 0) (p.getD 2 0) (p.getD 3 0))
    else if p.length = 16 then some p
    else none

/-- The table `hexDigit` of package net. -/
def hexDigit (v : Nat) : Char := "0123456789abcdef".toList.getD v '0'

/-- Go `appendHex`: the hexadecimal digits of `i` without leading zeros. -/
def appendHex (dst : Str) (i : Nat) : Str :=
  if i = 0 then dst ++ ['0']
  else
    dst ++ [7, 6, 5, 4, 3, 2, 1, 0].filterMap (fun j =>
      let v := i / 2 ^ (j * 4)
      if v > 0 then some (hexDigit (v % 16)) else none)

/-- Go `hexString`: two hexadecimal digits for every byte. -/
def hexString (b : List Byte) : Str :=
  b.flatMap (fun x => [hexDigit (x.val / 16), hexDigit (x.val % 16)])

/-- The inner loop of `IP.String`: the end of the run of zero groups that
starts at `j`. -/
def zeroRunEnd (p : List Byte) : Nat → Nat → Nat
  | 0, j => j
  | fuel + 1, j =>
    if j < 16 && p.getD j 0 = 0 && p.getD (j + 1) 0 = 0 then zeroRunEnd p fuel (j + 2)
    else j

/-- The outer loop of `IP.String` that finds the longest run of zero groups,
the first one among equals: `(e0, e1)`, or `(-1, -1)` when there is none. -/
def longestRun (p : List Byte) : Nat → Nat → Int → Int → Int × Int
  | 0, _, e0, e1 => (e0, e1)
  | fuel + 1, i, e0, e1 =>
    if i < 16 then
      let j := zeroRunEnd p 8 i
      if j > i && (j : Int) - (i : Int) > e1 - e0 then longestRun p fuel (j + 2) i j
      else longestRun p fuel (i + 2) e0 e1
    else (e0, e1)

/-- The 16-bit group of `p` at index `i`. -/
def group16 (p : List Byte) (i : Nat) : Nat :=
  (p.getD i 0).val * 256 + (p.getD (i + 1) 0).val

/-- The printing loop of `IP.String`, with `::` in place of the run. -/
def printIPv6Loop (p : List Byte) (e0 e1 : Int) : Nat → Nat → Str → Str
  | 0, _, b => b
  | fuel + 1, i, b =>
    if i < 16 then
      if (i : Int) = e0 then
        let b1 := b ++ [':', ':']
        let i1 := e1.toNat
        if i1 ≥ 16 then b1
        else printIPv6Loop p e0 e1 fuel (i1 + 2) (appendHex b1 (group16 p i1))
      else
        let b1 := if i > 0 then b ++ [':'] else b
        printIPv6Loop p e0 e1 fuel (i + 2) (appendHex b1 (group16 p i))
    else b

/-- Go `IP.String`: dotted decimal for an IPv4 address (also one held in
sixteen bytes), otherwise the hexadecimal groups with the longest run of zero
groups, if longer than one, written `::`. -/
def IPString (ip : List Byte) : Str :=
  if ip.length = 0 then "<nil>".toList
  else
    match To4 (some ip) with
    | some p4 =>
      uitoa (p4.getD 0 0).val ++ ['.'] ++ uitoa (p4.getD 1 0).val ++ ['.'] ++
        uitoa (p4.getD 2 0).val ++ ['.'] ++ uitoa (p4.getD 3 0).val
    | none =>
      if ip.length ≠ 16 then '?' :: hexString ip
      else
        match longestRun ip 8 0 (-1) (-1) with
        | (e0, e1) =>
          if e1 - e0 ≤ 2 then printIPv6Loop ip (-1) (-1) 8 0 []
          else printIPv6Loop ip e0 e1 8 0 []

/-! ## The registry and the varint codec -/

/-- Modelled from the spec: the protocol descriptor (section 3), whose
declaration is not in `codec.go`. -/
structure Protocol where
  Code : Nat
  Size : Nat
  Name : Str
  deriving DecidableEq, Repr

/-- Modelled from the spec: the code of ip4 (section 3). -/
def P_IP4 : Nat := 4
/-- Modelled from the spec: the code of tcp (section 3). -/
def P_TCP : Nat := 6
/-- Modelled from the spec: the code of udp (section 3). -/
def P_UDP : Nat := 17
/-- Modelled from the spec: the code of dccp (section 3). -/
def P_DCCP : Nat := 33
/-- Modelled from the spec: the code of ip6 (section 3). -/
def P_IP6 : Nat := 41
/-- Modelled from the spec: the code of sctp (section 3). -/
def P_SCTP : Nat := 132

/-- Modelled from the spec: the initial registry (section 3), name, code and
size in bits of each protocol. -/
def Protocols : List Protocol :=
  [ ⟨P_IP4, 32, "ip4".toList⟩,
    ⟨P_TCP, 16, "tcp".toList⟩,
    ⟨P_UDP, 16, "udp".toList⟩,
    ⟨P_DCCP, 16, "dccp".toList⟩,
    ⟨P_IP6, 128, "ip6".toList⟩,
    ⟨P_SCTP, 16, "sctp".toList⟩ ]

/-- Modelled from the spec: the sentinel of a failed lookup, with code 0
(section 4.3). -/
def noProtocol : Protocol := ⟨0, 0, []⟩

/-- Modelled from the spec: `ProtocolWithName` (section 4.3), the descriptor
with exactly this name, or the sentinel. -/
def ProtocolWithName (name : Str) : Protocol :=
  (Protocols.find? (fun p => p.Name = name)).getD noProtocol

/-- Modelled from the spec: `ProtocolWithCode` (section 4.3), the descriptor
with this code, or the sentinel, also for code 0. -/
def ProtocolWithCode (code : Nat) : Protocol :=
  if code = 0 then noProtocol
  else (Protocols.find? (fun p => p.Code = code)).getD noProtocol

/-- Modelled from the spec: the groups of seven bits of `u` (section 4.1),
lowest first, with the high bit set on all but the last. -/
def CodeToVarintAux : Nat → Nat → List Byte
  | 0, u => [byte u]
  | fuel + 1, u =>
    if u < 128 then [byte u]
    else byte (u % 128 + 128) :: CodeToVarintAux fuel (u / 128)

/-- Modelled from the spec: `CodeToVarint` (section 4.1), the minimal unsigned
LEB128 encoding; ten bytes hold every code of 64 bits. -/
def CodeToVarint (u : Nat) : List Byte := CodeToVarintAux 9 u

/-- Modelled from the spec: the loop of the varint decoder (section 4.1);
`shift` is the weight of the next group, `acc` the value so far, `cnt` the
bytes consumed. -/
def readVarintAux : List Byte → Nat → Nat → Nat → Except Error (Nat × Nat)
  | [], _, _, _ => .error .truncatedVarint
  | x :: xs, shift, acc, cnt =>
    let acc1 := acc + (x.val % 128) * 2 ^ shift
    if acc1 ≥ 2 ^ 32 then .error .overflowVarint
    else if x.val < 128 then .ok (acc1, cnt + 1)
    else readVarintAux xs (shift + 7) acc1 (cnt + 1)

/-- Modelled from the spec: `ReadVarintCode` (section 4.1), the value and the
number of bytes consumed; it fails when the buffer ends before a byte with the
high bit clear, and when the value does not fit 32 bits. -/
def ReadVarintCode (buf : List Byte) : Except Error (Nat × Nat) :=
  readVarintAux buf 0 0 0

/-! ## codec.go -/

/-- The function `addressStringToBytes`: the value bytes of the text `s` for
the protocol `p`. On an error the source returns nil or an empty slice with
it, and the caller drops that slice. -/
def addressStringToBytes (p : Protocol) (s : Str) : Except AddrError (List Byte) :=
  if p.Code = P_IP4 then
    match To4 (ParseIP s) with
    | none => .error (.ip4 s)
    | some i => .ok i
  else if p.Code = P_IP6 then
    match To16 (ParseIP s) with
    | none => .error (.ip6 s)
    | some i => .ok i
  else if p.Code = P_TCP ∨ p.Code = P_UDP ∨ p.Code = P_DCCP ∨ p.Code = P_SCTP then
    match Atoi s with
    | .error err => .error (.port p.Name err)
    | .ok i =>
      if i ≥ 65536 then .error (.portTooLarge p.Name)
      else .ok (putUint16 (toUint16 i))
  else .error (.unknown p.Name)

/-- The function `addressBytesToString`: the text of the value bytes `b` for
the protocol `p`. -/
def addressBytesToString (p : Protocol) (b : List Byte) : Str :=
  if p.Code = P_IP4 ∨ p.Code = P_IP6 then IPString b
  else if p.Code = P_TCP ∨ p.Code = P_UDP ∨ p.Code = P_DCCP ∨ p.Code = P_SCTP then
    Itoa (getUint16 b)
  else []

/-- The loop of `stringToBytes` over the tokens `sp`, with the bytes `b`
gathered so far. -/
def stringToBytesLoop : List Str → List Byte → Outcome (List Byte)
  | [], b => .ret b none
  | name :: sp1, b =>
    let p := ProtocolWithName name
    if p.Code = 0 then .ret [] (some (.noProtocolWithName name))
    else
      let b1 := b ++ CodeToVarint p.Code
      if p.Size > 0 then
        match sp1 with
        | [] => .ret [] (some (.requiresAddress sp1))
        | tok :: sp2 =>
          match addressStringToBytes p tok with
          | .error err => .ret [] (some (.failedToParse p.Name tok err))
          | .ok a => stringToBytesLoop sp2 (b1 ++ a)
      else stringToBytesLoop sp1 b1

/-- The function `stringToBytes`. It has no deferred function; `strings.Split`
never returns an empty slice, so the index `sp[0]` is always in range (the
first branch stands for that panic). -/
def stringToBytes (s : Str) : Outcome (List Byte) :=
  let s1 := TrimRight s ['/']
  match Split s1 '/' with
  | [] => .panic (.error (.sliceBounds 0 0))
  | first :: sp =>
    if first ≠ [] then .ret [] (some .mustBeginWithSlash)
    else stringToBytesLoop sp []

/-- The deferred function of `bytesToString` and `bytesSplit`: a panic whose
value is an error becomes the returned error, next to the value `zero`; on any
other value the assertion `e.(error)` panics in turn, and that leaves the
call. -/
def recovered {α : Type} (zero : α) : Outcome α → Outcome α
  | .panic (.error e) => .ret zero (some e)
  | o => o

/-- The loop of `bytesToString`: `b` is what is left of the buffer, `s` the
text so far. A failure of `ReadVarintCode`, which returns no error value, is a
panic with an error value, as section 4.4.2 of the spec has it. -/
def bytesToStringLoop (spare : List Byte) : Nat → List Byte → Str → Outcome Str
  | 0, b, s => if b.length > 0 then .outOfFuel else .ret s none
  | fuel + 1, b, s =>
    if b.length > 0 then
      match ReadVarintCode b with
      | .error e => .panic (.error e)
      | .ok (code, n) =>
        match sliceFrom b n with
        | .error e => .panic (.error e)
        | .ok b1 =>
          let p := ProtocolWithCode code
          if p.Code = 0 then .ret [] (some (.noProtocolWithCode code))
          else
            let s1 := Join [s, ['/'], p.Name] []
            if p.Size > 0 then
              match sliceTo b1 spare (p.Size / 8) with
              | .error e => .panic (.error e)
              | .ok v =>
                let a := addressBytesToString p v
                let s2 := if a.length > 0 then Join [s1, ['/'], a] [] else s1
                match sliceFrom b1 (p.Size / 8) with
                | .error e => .panic (.error e)
                | .ok b2 => bytesToStringLoop spare fuel b2 s2
            else bytesToStringLoop spare fuel b1 s1
    else .ret s none

/-- The function `bytesToString`, on the buffer `b` whose backing array goes on
with `spare`. Every turn of the loop takes at least one byte, so `b.length`
turns are enough. -/
def bytesToString (b spare : List Byte) : Outcome Str :=
  recovered [] (bytesToStringLoop spare b.length b [])

/-- The loop of `bytesSplit`: `b` is what is left of the buffer, `ret` the
segments so far. -/
def bytesSplitLoop (spare : List Byte) : Nat → List Byte → List (List Byte) →
    Outcome (List (List Byte))
  | 0, b, ret => if b.length > 0 then .outOfFuel else .ret ret none
  | fuel + 1, b, ret =>
    if b.length > 0 then
      match ReadVarintCode b with
      | .error e => .panic (.error e)
      | .ok (code, n) =>
        let p := ProtocolWithCode code
        if p.Code = 0 then .ret [] (some (.noProtocolWithCode (b.getD 0 0).val))
        else
          let length := n + p.Size / 8
          match sliceTo b spare length with
          | .error e => .panic (.error e)
          | .ok seg =>
            match sliceFrom b length with
            | .error e => .panic (.error e)
            | .ok b1 => bytesSplitLoop spare fuel b1 (ret ++ [seg])
    else .ret ret none

/-- The function `bytesSplit`, on the buffer `b` whose backing array goes on
with `spare`. -/
def bytesSplit (b spare : List Byte) : Outcome (List (List Byte)) :=
  recovered [] (bytesSplitLoop spare b.length b [])

/-! ## Valid binary addresses -/

/-- A valid binary address (section 3 of the spec): segments one after the
other, each the varint of a registry code followed by exactly `size/8` bytes
of value. -/
inductive ValidAddress : List Byte → Prop where
  | nil : ValidAddress []
  | cons (p : Protocol) (v rest : List Byte) (hp : p ∈ Protocols)
      (hv : v.length = p.Size / 8) (hrest : ValidAddress rest) :
      ValidAddress (CodeToVarint p.Code ++ v ++ rest)

/-! ## Canonical text -/

/-- The text does not end with a slash. -/
def noTrailingSlash (t : Str) : Bool := t.getLast? ≠ some '/'

/-- The text has no two slashes in a row. -/
def noDoubleSlash : Str → Bool
  | [] => true
  | c :: cs => !(c = '/' && cs.head? = some '/') && noDoubleSlash cs

/-- Every value token among the tokens `sp` (taken as `stringToBytes` takes
them: a name, then its value) comes back unchanged from `addressStringToBytes`
followed by `addressBytesToString`. This is what `valuesSpelled` is shown to
imply; no claim assumes it. -/
def valuesCanonical : List Str → Bool
  | [] => true
  | name :: sp1 =>
    if (ProtocolWithName name).Size > 0 then
      match sp1 with
      | [] => true
      | tok :: sp2 =>
        (match addressStringToBytes (ProtocolWithName name) tok with
          | .ok a => decide (addressBytesToString (ProtocolWithName name) a = tok)
          | .error _ => true) && valuesCanonical sp2
    else valuesCanonical sp1

/-! ## The groups of an address of sixteen bytes -/

/-- The hexadecimal text of group `j` (bytes `2j` and `2j+1`) of `ip`. -/
def hexGroup (ip : List Byte) (j : Nat) : Str := appendHex [] (group16 ip (2 * j))

/-- The text of the `n` groups of `ip` from group `m` on, each after a colon. -/
def groupsText (ip : List Byte) (m n : Nat) : Str :=
  (List.range' m n).flatMap (fun j => ':' :: hexGroup ip j)

/-- The bytes the parser stores for the `n` groups of `ip` from group `m` on. -/
def groupBytes (ip : List Byte) (m n : Nat) : List Byte :=
  (List.range' m n).flatMap (fun j =>
    [byte (group16 ip (2 * j) / 256), byte (group16 ip (2 * j))])

/-- What `IP.String` prints after the ellipsis that ends before group `c`. -/
def afterEllipsis (ip : List Byte) (c : Nat) : Str :=
  if c ≥ 8 then [] else hexGroup ip c ++ groupsText ip (c + 1) (7 - c)

/-- The pair `(e0, e1)` of `IP.String` is `(-1, -1)`, or it bounds a run of
zero bytes from group `a` up to group `c` of `ip`. -/
def ZeroRun (ip : List Byte) (e0 e1 : Int) : Prop :=
  (e0 = -1 ∧ e1 = -1) ∨
    ∃ a c : Nat, e0 = ((2 * a : Nat) : Int) ∧ e1 = ((2 * c : Nat) : Int) ∧ a < c ∧ c ≤ 8 ∧
      ∀ j, 2 * a ≤ j → j < 2 * c → ip.getD j 0 = 0

/-! ## The tokens of a text address -/

/-- The tokens `stringToBytes` works on: the pieces of the text between
slashes, trailing slashes removed, without the first piece. -/
def tokens (t : Str) : List Str := (Split (TrimRight t ['/']) '/').tail

/-- The tokens in protocol-name position: the first token, and the token after
each name and, where the protocol of that name has a value, its value token. -/
def nameTokens : List Str → List Str
  | [] => []
  | name :: sp1 =>
    if (ProtocolWithName name).Size > 0 then
      match sp1 with
      | [] => [name]
      | _ :: sp2 => name :: nameTokens sp2
    else name :: nameTokens sp1

/-- The text `bytesToString` adds for one segment of protocol `p` with the
value bytes `v`: the name and, when it is not empty, the rendering of the
value, each after a slash. -/
def segmentText (p : Protocol) (v : List Byte) : Str :=
  let a := addressBytesToString p v
  if a.length > 0 then '/' :: p.Name ++ '/' :: a else '/' :: p.Name

/-- The spelling of a value of protocol `p` in decoded text: for ip4 and ip6
the text `net.IP.String` prints for some address of `size/8` bytes, for a port
the unpadded unsigned decimal of some number (as `Nat.toDigits` writes it), and
the empty text for a code that has no rendering. -/
def canonicalSpelling (p : Protocol) (tok : Str) : Prop :=
  if p.Code = P_IP4 ∨ p.Code = P_IP6 then
    ∃ v : List Byte, v.length = p.Size / 8 ∧ tok = IPString v
  else if p.Code = P_TCP ∨ p.Code = P_UDP ∨ p.Code = P_DCCP ∨ p.Code = P_SCTP then
    ∃ n : Nat, tok = Nat.toDigits 10 n
  else tok = []

/-- Every value token among the tokens `sp` (taken as `stringToBytes` takes
them: a name, then its value) has the canonical spelling of its protocol. -/
def valuesSpelled : List Str → Prop
  | [] => True
  | name :: sp1 =>
    if (ProtocolWithName name).Size > 0 then
      match sp1 with
      | [] => True
      | tok :: sp2 => canonicalSpelling (ProtocolWithName name) tok ∧ valuesSpelled sp2
    else valuesSpelled sp1

/-! ## Theorems -/

/-! ### Slices and varints -/

theorem sliceFrom_ok {b b1 : List Byte} {k : Nat} (h : sliceFrom b k = .ok b1) :
    k ≤ b.length ∧ b1 = b.drop k := by
  unfold sliceFrom at h
  split at h
  · exact ⟨by assumption, by cases h; rfl⟩
  · cases h

theorem sliceTo_of_le (b spare : List Byte) {k : Nat} (hk : k ≤ b.length) :
    sliceTo b spare k = .ok (b.take k) := by
  unfold sliceTo
  rw [if_pos (by omega), List.take_append_of_le_length hk]

theorem readVarintAux_bounds : ∀ (xs : List Byte) (sh acc cnt c n : Nat),
    readVarintAux xs sh acc cnt = .ok (c, n) → cnt < n ∧ n ≤ cnt + xs.length := by
  intro xs
  induction xs with
  | nil => intro sh acc cnt c n h; simp [readVarintAux] at h
  | cons x xs ih =>
    intro sh acc cnt c n h
    simp only [readVarintAux] at h
    split at h
    · cases h
    · split at h
      · simp only [Except.ok.injEq, Prod.mk.injEq] at h
        simp only [List.length_cons]
        omega
      · have := ih _ _ _ _ _ h
        simp only [List.length_cons]
        omega

theorem ReadVarintCode_bounds {b : List Byte} {c n : Nat}
    (h : ReadVarintCode b = .ok (c, n)) : 0 < n ∧ n ≤ b.length := by
  have := readVarintAux_bounds b 0 0 0 c n h
  omega

/-! ### The loop of bytesSplit -/

theorem bytesSplitLoop_concat (spare : List Byte) : ∀ (fuel : Nat) (b : List Byte)
    (ret segs : List (List Byte)),
    bytesSplitLoop spare fuel b ret = .ret segs none → segs.flatten = ret.flatten ++ b := by
  intro fuel
  induction fuel with
  | zero =>
    intro b ret segs h
    simp only [bytesSplitLoop] at h
    split at h
    · cases h
    · have hb : b = [] := List.length_eq_zero.mp (by omega)
      cases h
      simp [hb]
  | succ fuel ih =>
    intro b ret segs h
    simp only [bytesSplitLoop] at h
    split at h
    · split at h
      · cases h
      · split at h
        · cases h
        · split at h
          · cases h
          · rename_i seg hseg
            split at h
            · cases h
            · rename_i b1 hb1
              obtain ⟨hle, rfl⟩ := sliceFrom_ok hb1
              rw [sliceTo_of_le b spare hle] at hseg
              cases hseg
              rw [ih _ _ _ h]
              simp
    · have hb : b = [] := List.length_eq_zero.mp (by omega)
      cases h
      simp [hb]

theorem recovered_ret_none {α : Type} {zero v : α} {o : Outcome α}
    (h : recovered zero o = .ret v none) : o = .ret v none := by
  unfold recovered at h
  split at h
  · cases h
  · exact h

/-! ### The registry -/

theorem ProtocolWithCode_cases (c : Nat) :
    ProtocolWithCode c = noProtocol ∨
      (ProtocolWithCode c ∈ Protocols ∧ (ProtocolWithCode c).Code = c) := by
  unfold ProtocolWithCode
  split
  · exact Or.inl rfl
  · cases hf : Protocols.find? (fun p => p.Code = c) with
    | none => exact Or.inl rfl
    | some q =>
      refine Or.inr ⟨List.mem_of_find?_eq_some hf, ?_⟩
      have := List.find?_some hf
      simpa using this

theorem size_of_mem {p : Protocol} (hp : p ∈ Protocols) :
    0 < p.Size / 8 ∧ 0 < p.Size ∧ p.Code ≠ 0 := by
  simp only [Protocols, List.mem_cons, List.mem_singleton, List.not_mem_nil, or_false] at hp
  rcases hp with rfl | rfl | rfl | rfl | rfl | rfl <;> decide

theorem ProtocolWithCode_of_ne {c : Nat} (h : (ProtocolWithCode c).Code ≠ 0) :
    ProtocolWithCode c ∈ Protocols ∧ (ProtocolWithCode c).Code = c := by
  rcases ProtocolWithCode_cases c with h0 | h1
  · rw [h0] at h; exact absurd rfl h
  · exact h1

theorem ProtocolWithCode_of_mem {p : Protocol} (hp : p ∈ Protocols) :
    ProtocolWithCode p.Code = p := by
  simp only [Protocols, List.mem_cons, List.mem_singleton, List.not_mem_nil, or_false] at hp
  rcases hp with rfl | rfl | rfl | rfl | rfl | rfl <;> decide

/-! ### One turn of the loops -/

theorem Join_three (a b c : Str) : Join [a, b, c] [] = a ++ (b ++ c) := by
  simp [Join, List.intercalate, List.intersperse]

theorem bytesToStringLoop_nil (spare : List Byte) (fuel : Nat) (s : Str) :
    bytesToStringLoop spare fuel [] s = .ret s none := by
  cases fuel <;> simp [bytesToStringLoop]

theorem bytesToStringLoop_varint_error (spare : List Byte) (fuel : Nat) {b : List Byte}
    (s : Str) {e : Error} (hb : b ≠ []) (hr : ReadVarintCode b = .error e) :
    bytesToStringLoop spare (fuel + 1) b s = .panic (.error e) := by
  have hl : b.length > 0 := List.length_pos.mpr hb
  simp only [bytesToStringLoop, hl, if_true, hr]

theorem bytesToStringLoop_unknown (spare : List Byte) (fuel : Nat) {b : List Byte}
    (s : Str) {code n : Nat} (hr : ReadVarintCode b = .ok (code, n))
    (hp : (ProtocolWithCode code).Code = 0) :
    bytesToStringLoop spare (fuel + 1) b s = .ret [] (some (.noProtocolWithCode code)) := by
  have hn := ReadVarintCode_bounds hr
  have hl : b.length > 0 := by omega
  have hs : sliceFrom b n = .ok (b.drop n) := by simp [sliceFrom, hn.2]
  simp only [bytesToStringLoop, hl, if_true, hr, hs, hp]

theorem bytesToStringLoop_short (spare : List Byte) {b : List Byte}
    (s : Str) {code n : Nat} (hr : ReadVarintCode b = .ok (code, n))
    (hp : (ProtocolWithCode code).Code ≠ 0)
    (hlen : b.length < n + (ProtocolWithCode code).Size / 8) :
    ∃ e, ∀ fuel, bytesToStringLoop spare (fuel + 1) b s = .panic (.error e) := by
  have hn := ReadVarintCode_bounds hr
  have hl : b.length > 0 := by omega
  have hs : sliceFrom b n = .ok (b.drop n) := by simp [sliceFrom, hn.2]
  have hsz := (size_of_mem (ProtocolWithCode_of_ne hp).1).2.1
  have hs2 : sliceFrom (b.drop n) ((ProtocolWithCode code).Size / 8) =
      .error (.sliceBounds ((ProtocolWithCode code).Size / 8) (b.drop n).length) := by
    simp only [sliceFrom, List.length_drop]
    rw [if_neg (by omega)]
  cases h1 : sliceTo (b.drop n) spare ((ProtocolWithCode code).Size / 8) with
  | error e =>
    refine ⟨e, fun fuel => ?_⟩
    simp only [bytesToStringLoop, hl, if_true, hr, hs, hp, if_false, hsz, h1]
  | ok v =>
    refine ⟨.sliceBounds ((ProtocolWithCode code).Size / 8) (b.drop n).length, fun fuel => ?_⟩
    simp only [bytesToStringLoop, hl, if_true, hr, hs, hp, if_false, hsz, h1, hs2]

/-- The text one segment adds: the name and, when it is not empty, the
rendering of the value. -/
theorem bytesToStringLoop_step (spare : List Byte) (fuel : Nat) {b : List Byte}
    (s : Str) {code n : Nat} (hr : ReadVarintCode b = .ok (code, n))
    (hp : (ProtocolWithCode code).Code ≠ 0)
    (hlen : n + (ProtocolWithCode code).Size / 8 ≤ b.length) :
    bytesToStringLoop spare (fuel + 1) b s =
      bytesToStringLoop spare fuel (b.drop (n + (ProtocolWithCode code).Size / 8))
        (let a := addressBytesToString (ProtocolWithCode code)
            ((b.drop n).take ((ProtocolWithCode code).Size / 8))
         if a.length > 0 then s ++ '/' :: (ProtocolWithCode code).Name ++ '/' :: a
         else s ++ '/' :: (ProtocolWithCode code).Name) := by
  have hn := ReadVarintCode_bounds hr
  have hl : b.length > 0 := by omega
  have hs : sliceFrom b n = .ok (b.drop n) := by simp [sliceFrom, hn.2]
  have hsz := (size_of_mem (ProtocolWithCode_of_ne hp).1).2.1
  have hk : (ProtocolWithCode code).Size / 8 ≤ (b.drop n).length := by
    simp only [List.length_drop]; omega
  have hs1 := sliceTo_of_le (b.drop n) spare hk
  have hs2 : sliceFrom (b.drop n) ((ProtocolWithCode code).Size / 8) =
      .ok (b.drop (n + (ProtocolWithCode code).Size / 8)) := by
    simp only [sliceFrom, hk, if_true, List.drop_drop]
  simp only [bytesToStringLoop, hl, if_true, hr, hs, hp, if_false, hsz, hs1, hs2, Join_three]
  congr 1

theorem bytesSplitLoop_nil (spare : List Byte) (fuel : Nat) (ret : List (List Byte)) :
    bytesSplitLoop spare fuel [] ret = .ret ret none := by
  cases fuel <;> simp [bytesSplitLoop]

theorem bytesSplitLoop_varint_error (spare : List Byte) (fuel : Nat) {b : List Byte}
    (ret : List (List Byte)) {e : Error} (hb : b ≠ []) (hr : ReadVarintCode b = .error e) :
    bytesSplitLoop spare (fuel + 1) b ret = .panic (.error e) := by
  have hl : b.length > 0 := List.length_pos.mpr hb
  simp only [bytesSplitLoop, hl, if_true, hr]

theorem bytesSplitLoop_unknown (spare : List Byte) (fuel : Nat) {b : List Byte}
    (ret : List (List Byte)) {code n : Nat} (hr : ReadVarintCode b = .ok (code, n))
    (hp : (ProtocolWithCode code).Code = 0) :
    bytesSplitLoop spare (fuel + 1) b ret =
      .ret [] (some (.noProtocolWithCode (b.getD 0 0).val)) := by
  have hn := ReadVarintCode_bounds hr
  have hl : b.length > 0 := by omega
  simp only [bytesSplitLoop, hl, if_true, hr, hp]

theorem bytesSplitLoop_short (spare : List Byte) {b : List Byte}
    (ret : List (List Byte)) {code n : Nat} (hr : ReadVarintCode b = .ok (code, n))
    (hp : (ProtocolWithCode code).Code ≠ 0)
    (hlen : b.length < n + (ProtocolWithCode code).Size / 8) :
    ∃ e, ∀ fuel, bytesSplitLoop spare (fuel + 1) b ret = .panic (.error e) := by
  have hn := ReadVarintCode_bounds hr
  have hl : b.length > 0 := by omega
  have hs2 : sliceFrom b (n + (ProtocolWithCode code).Size / 8) =
      .error (.sliceBounds (n + (ProtocolWithCode code).Size / 8) b.length) := by
    simp only [sliceFrom]
    rw [if_neg (by omega)]
  cases h1 : sliceTo b spare (n + (ProtocolWithCode code).Size / 8) with
  | error e =>
    refine ⟨e, fun fuel => ?_⟩
    simp only [bytesSplitLoop, hl, if_true, hr, hp, if_false, h1]
  | ok v =>
    refine ⟨.sliceBounds (n + (ProtocolWithCode code).Size / 8) b.length, fun fuel => ?_⟩
    simp only [bytesSplitLoop, hl, if_true, hr, hp, if_false, h1, hs2]

theorem bytesSplitLoop_step (spare : List Byte) (fuel : Nat) {b : List Byte}
    (ret : List (List Byte)) {code n : Nat} (hr : ReadVarintCode b = .ok (code, n))
    (hp : (ProtocolWithCode code).Code ≠ 0)
    (hlen : n + (ProtocolWithCode code).Size / 8 ≤ b.length) :
    bytesSplitLoop spare (fuel + 1) b ret =
      bytesSplitLoop spare fuel (b.drop (n + (ProtocolWithCode code).Size / 8))
        (ret ++ [b.take (n + (ProtocolWithCode code).Size / 8)]) := by
  have hn := ReadVarintCode_bounds hr
  have hl : b.length > 0 := by omega
  have hs1 := sliceTo_of_le b spare hlen
  have hs2 : sliceFrom b (n + (ProtocolWithCode code).Size / 8) =
      .ok (b.drop (n + (ProtocolWithCode code).Size / 8)) := by
    simp only [sliceFrom, hlen, if_true]
  simp only [bytesSplitLoop, hl, if_true, hr, hp, if_false, hs1, hs2]

/-! ### Enough fuel -/

theorem bytesToStringLoop_fuel (spare : List Byte) : ∀ (f1 f2 : Nat) (b : List Byte) (s : Str),
    b.length ≤ f1 → b.length ≤ f2 →
    bytesToStringLoop spare f1 b s = bytesToStringLoop spare f2 b s := by
  intro f1
  induction f1 with
  | zero =>
    intro f2 b s h1 _
    have hb : b = [] := List.length_eq_zero.mp (by omega)
    subst hb
    rw [bytesToStringLoop_nil, bytesToStringLoop_nil]
  | succ f1 ih =>
    intro f2 b s h1 h2
    by_cases hb : b = []
    · subst hb
      rw [bytesToStringLoop_nil, bytesToStringLoop_nil]
    · have hl : 0 < b.length := List.length_pos.mpr hb
      obtain ⟨g, rfl⟩ : ∃ g, f2 = g + 1 := ⟨f2 - 1, by omega⟩
      cases hr : ReadVarintCode b with
      | error e =>
        rw [bytesToStringLoop_varint_error spare f1 s hb hr,
          bytesToStringLoop_varint_error spare g s hb hr]
      | ok cn =>
        obtain ⟨code, n⟩ := cn
        have hn := ReadVarintCode_bounds hr
        by_cases hp : (ProtocolWithCode code).Code = 0
        · rw [bytesToStringLoop_unknown spare f1 s hr hp,
            bytesToStringLoop_unknown spare g s hr hp]
        · by_cases hlen : n + (ProtocolWithCode code).Size / 8 ≤ b.length
          · rw [bytesToStringLoop_step spare f1 s hr hp hlen,
              bytesToStringLoop_step spare g s hr hp hlen]
            apply ih <;> simp only [List.length_drop] <;> omega
          · obtain ⟨e, he⟩ := bytesToStringLoop_short spare s hr hp (by omega)
            rw [he f1, he g]

theorem bytesSplitLoop_fuel (spare : List Byte) : ∀ (f1 f2 : Nat) (b : List Byte)
    (ret : List (List Byte)), b.length ≤ f1 → b.length ≤ f2 →
    bytesSplitLoop spare f1 b ret = bytesSplitLoop spare f2 b ret := by
  intro f1
  induction f1 with
  | zero =>
    intro f2 b ret h1 _
    have hb : b = [] := List.length_eq_zero.mp (by omega)
    subst hb
    rw [bytesSplitLoop_nil, bytesSplitLoop_nil]
  | succ f1 ih =>
    intro f2 b ret h1 h2
    by_cases hb : b = []
    · subst hb
      rw [bytesSplitLoop_nil, bytesSplitLoop_nil]
    · have hl : 0 < b.length := List.length_pos.mpr hb
      obtain ⟨g, rfl⟩ : ∃ g, f2 = g + 1 := ⟨f2 - 1, by omega⟩
      cases hr : ReadVarintCode b with
      | error e =>
        rw [bytesSplitLoop_varint_error spare f1 ret hb hr,
          bytesSplitLoop_varint_error spare g ret hb hr]
      | ok cn =>
        obtain ⟨code, n⟩ := cn
        have hn := ReadVarintCode_bounds hr
        by_cases hp : (ProtocolWithCode code).Code = 0
        · rw [bytesSplitLoop_unknown spare f1 ret hr hp,
            bytesSplitLoop_unknown spare g ret hr hp]
        · by_cases hlen : n + (ProtocolWithCode code).Size / 8 ≤ b.length
          · rw [bytesSplitLoop_step spare f1 ret hr hp hlen,
              bytesSplitLoop_step spare g ret hr hp hlen]
            apply ih <;> simp only [List.length_drop] <;> omega
          · obtain ⟨e, he⟩ := bytesSplitLoop_short spare ret hr hp (by omega)
            rw [he f1, he g]

/-- With enough fuel the loop of `bytesToString` returns, or panics with an
error value. -/
theorem bytesToStringLoop_total (spare : List Byte) : ∀ (fuel : Nat) (b : List Byte) (s : Str),
    b.length ≤ fuel →
    (∃ v err, bytesToStringLoop spare fuel b s = .ret v err) ∨
      (∃ e, bytesToStringLoop spare fuel b s = .panic (.error e)) := by
  intro fuel
  induction fuel with
  | zero =>
    intro b s h
    have hb : b = [] := List.length_eq_zero.mp (by omega)
    subst hb
    exact Or.inl ⟨s, none, bytesToStringLoop_nil spare 0 s⟩
  | succ fuel ih =>
    intro b s h
    by_cases hb : b = []
    · subst hb
      exact Or.inl ⟨s, none, bytesToStringLoop_nil spare _ s⟩
    · cases hr : ReadVarintCode b with
      | error e => exact Or.inr ⟨e, bytesToStringLoop_varint_error spare fuel s hb hr⟩
      | ok cn =>
        obtain ⟨code, n⟩ := cn
        have hn := ReadVarintCode_bounds hr
        by_cases hp : (ProtocolWithCode code).Code = 0
        · exact Or.inl ⟨_, _, bytesToStringLoop_unknown spare fuel s hr hp⟩
        · by_cases hlen : n + (ProtocolWithCode code).Size / 8 ≤ b.length
          · rw [bytesToStringLoop_step spare fuel s hr hp hlen]
            apply ih
            simp only [List.length_drop]; omega
          · obtain ⟨e, he⟩ := bytesToStringLoop_short spare s hr hp (by omega)
            exact Or.inr ⟨e, he fuel⟩

/-- With enough fuel the loop of `bytesSplit` returns, or panics with an error
value. -/
theorem bytesSplitLoop_total (spare : List Byte) : ∀ (fuel : Nat) (b : List Byte)
    (ret : List (List Byte)), b.length ≤ fuel →
    (∃ v err, bytesSplitLoop spare fuel b ret = .ret v err) ∨
      (∃ e, bytesSplitLoop spare fuel b ret = .panic (.error e)) := by
  intro fuel
  induction fuel with
  | zero =>
    intro b ret h
    have hb : b = [] := List.length_eq_zero.mp (by omega)
    subst hb
    exact Or.inl ⟨ret, none, bytesSplitLoop_nil spare 0 ret⟩
  | succ fuel ih =>
    intro b ret h
    by_cases hb : b = []
    · subst hb
      exact Or.inl ⟨ret, none, bytesSplitLoop_nil spare _ ret⟩
    · cases hr : ReadVarintCode b with
      | error e => exact Or.inr ⟨e, bytesSplitLoop_varint_error spare fuel ret hb hr⟩
      | ok cn =>
        obtain ⟨code, n⟩ := cn
        have hn := ReadVarintCode_bounds hr
        by_cases hp : (ProtocolWithCode code).Code = 0
        · exact Or.inl ⟨_, _, bytesSplitLoop_unknown spare fuel ret hr hp⟩
        · by_cases hlen : n + (ProtocolWithCode code).Size / 8 ≤ b.length
          · rw [bytesSplitLoop_step spare fuel ret hr hp hlen]
            apply ih
            simp only [List.length_drop]; omega
          · obtain ⟨e, he⟩ := bytesSplitLoop_short spare ret hr hp (by omega)
            exact Or.inr ⟨e, he fuel⟩

/-! ### A valid segment in front of the buffer -/

theorem ReadVarintCode_CodeToVarint {p : Protocol} (hp : p ∈ Protocols) (rest : List Byte) :
    ReadVarintCode (CodeToVarint p.Code ++ rest) = .ok (p.Code, (CodeToVarint p.Code).length) := by
  simp only [Protocols, List.mem_cons, List.mem_singleton, List.not_mem_nil, or_false] at hp
  rcases hp with rfl | rfl | rfl | rfl | rfl | rfl <;> rfl

theorem bytesToStringLoop_front (spare : List Byte) {p : Protocol} (hp : p ∈ Protocols)
    (v rest : List Byte) (hv : v.length = p.Size / 8) (s : Str) (fuel : Nat) :
    bytesToStringLoop spare (fuel + 1) (CodeToVarint p.Code ++ v ++ rest) s =
      bytesToStringLoop spare fuel rest
        (let a := addressBytesToString p v
         if a.length > 0 then s ++ '/' :: p.Name ++ '/' :: a else s ++ '/' :: p.Name) := by
  have hr : ReadVarintCode (CodeToVarint p.Code ++ v ++ rest) =
      .ok (p.Code, (CodeToVarint p.Code).length) := by
    rw [List.append_assoc]; exact ReadVarintCode_CodeToVarint hp _
  have hq := ProtocolWithCode_of_mem hp
  have hne : (ProtocolWithCode p.Code).Code ≠ 0 := by rw [hq]; exact (size_of_mem hp).2.2
  have hlen : (CodeToVarint p.Code).length + (ProtocolWithCode p.Code).Size / 8 ≤
      (CodeToVarint p.Code ++ v ++ rest).length := by
    rw [hq]; simp only [List.length_append]; omega
  rw [bytesToStringLoop_step spare fuel s hr hne hlen, hq]
  have h1 : (CodeToVarint p.Code ++ v ++ rest).drop ((CodeToVarint p.Code).length + p.Size / 8)
      = rest := by
    apply List.drop_left'
    simp only [List.length_append]; omega
  have h2 : ((CodeToVarint p.Code ++ v ++ rest).drop (CodeToVarint p.Code).length).take
      (p.Size / 8) = v := by
    rw [List.append_assoc, List.drop_left, ← hv, List.take_left]
  rw [h1, h2]

theorem bytesSplitLoop_front (spare : List Byte) {p : Protocol} (hp : p ∈ Protocols)
    (v rest : List Byte) (hv : v.length = p.Size / 8) (ret : List (List Byte)) (fuel : Nat) :
    bytesSplitLoop spare (fuel + 1) (CodeToVarint p.Code ++ v ++ rest) ret =
      bytesSplitLoop spare fuel rest (ret ++ [CodeToVarint p.Code ++ v]) := by
  have hr : ReadVarintCode (CodeToVarint p.Code ++ v ++ rest) =
      .ok (p.Code, (CodeToVarint p.Code).length) := by
    rw [List.append_assoc]; exact ReadVarintCode_CodeToVarint hp _
  have hq := ProtocolWithCode_of_mem hp
  have hne : (ProtocolWithCode p.Code).Code ≠ 0 := by rw [hq]; exact (size_of_mem hp).2.2
  have hlen : (CodeToVarint p.Code).length + (ProtocolWithCode p.Code).Size / 8 ≤
      (CodeToVarint p.Code ++ v ++ rest).length := by
    rw [hq]; simp only [List.length_append]; omega
  rw [bytesSplitLoop_step spare fuel ret hr hne hlen, hq]
  have h1 : (CodeToVarint p.Code ++ v ++ rest).drop ((CodeToVarint p.Code).length + p.Size / 8)
      = rest := by
    apply List.drop_left'
    simp only [List.length_append]; omega
  have h2 : (CodeToVarint p.Code ++ v ++ rest).take ((CodeToVarint p.Code).length + p.Size / 8)
      = CodeToVarint p.Code ++ v := by
    apply List.take_left'
    simp only [List.length_append]; omega
  rw [h1, h2]

/-- The loop of `bytesToString` gets past a valid address in front of the
buffer. -/
theorem bytesToStringLoop_valid_front (spare : List Byte) {a : List Byte}
    (ha : ValidAddress a) : ∀ (r : List Byte) (s : Str) (fuel : Nat),
    (a ++ r).length ≤ fuel →
    ∃ s1, bytesToStringLoop spare fuel (a ++ r) s = bytesToStringLoop spare fuel r s1 := by
  induction ha with
  | nil => intro r s fuel _; exact ⟨s, rfl⟩
  | cons p v rest hp hv _ ih =>
    intro r s fuel hf
    have hpos : 0 < (CodeToVarint p.Code ++ v ++ rest ++ r).length := by
      have := (ReadVarintCode_bounds (ReadVarintCode_CodeToVarint hp [])).1
      simp only [List.length_append]; omega
    obtain ⟨g, rfl⟩ : ∃ g, fuel = g + 1 := ⟨fuel - 1, by omega⟩
    have hle : (rest ++ r).length ≤ g + 1 := by
      simp only [List.length_append] at hf ⊢; omega
    have hle2 : (rest ++ r).length ≤ g := by
      have := (ReadVarintCode_bounds (ReadVarintCode_CodeToVarint hp [])).1
      simp only [List.length_append, List.length_nil] at hf this ⊢; omega
    rw [List.append_assoc (CodeToVarint p.Code ++ v) rest r,
      bytesToStringLoop_front spare hp v (rest ++ r) hv s g,
      bytesToStringLoop_fuel spare g (g + 1) _ _ hle2 hle]
    obtain ⟨s1, hs1⟩ := ih r _ (g + 1) hle
    refine ⟨s1, ?_⟩
    rw [hs1]

/-- The loop of `bytesSplit` gets past a valid address in front of the
buffer. -/
theorem bytesSplitLoop_valid_front (spare : List Byte) {a : List Byte}
    (ha : ValidAddress a) : ∀ (r : List Byte) (ret : List (List Byte)) (fuel : Nat),
    (a ++ r).length ≤ fuel →
    ∃ ret1, bytesSplitLoop spare fuel (a ++ r) ret = bytesSplitLoop spare fuel r ret1 := by
  induction ha with
  | nil => intro r ret fuel _; exact ⟨ret, rfl⟩
  | cons p v rest hp hv _ ih =>
    intro r ret fuel hf
    have hpos : 0 < (CodeToVarint p.Code ++ v ++ rest ++ r).length := by
      have := (ReadVarintCode_bounds (ReadVarintCode_CodeToVarint hp [])).1
      simp only [List.length_append]; omega
    obtain ⟨g, rfl⟩ : ∃ g, fuel = g + 1 := ⟨fuel - 1, by omega⟩
    have hle : (rest ++ r).length ≤ g + 1 := by
      simp only [List.length_append] at hf ⊢; omega
    have hle2 : (rest ++ r).length ≤ g := by
      have := (ReadVarintCode_bounds (ReadVarintCode_CodeToVarint hp [])).1
      simp only [List.length_append, List.length_nil] at hf this ⊢; omega
    rw [List.append_assoc (CodeToVarint p.Code ++ v) rest r,
      bytesSplitLoop_front spare hp v (rest ++ r) hv ret g,
      bytesSplitLoop_fuel spare g (g + 1) _ _ hle2 hle]
    obtain ⟨s1, hs1⟩ := ih r _ (g + 1) hle
    refine ⟨s1, ?_⟩
    rw [hs1]

/-! ### Claims about the binary side -/

/-- C3. Split reassembly: when `bytesSplit` succeeds on `b`, the segments it
returns, put one after the other in order, are exactly `b`. -/
theorem bytesSplit_reassembles (b spare : List Byte) (segs : List (List Byte))
    (h : bytesSplit b spare = .ret segs none) : segs.flatten = b := by
  have h1 := bytesSplitLoop_concat spare _ _ _ _ (recovered_ret_none h)
  simpa using h1

theorem bytesSplit_reassembles_witness :
    bytesSplit [4, 127, 0, 0, 1, 6, 0, 80] [] = .ret [[4, 127, 0, 0, 1], [6, 0, 80]] none ∧
      [[4, 127, 0, 0, 1], [6, 0, 80]].flatten = ([4, 127, 0, 0, 1, 6, 0, 80] : List Byte) :=
  ⟨by decide, bytesSplit_reassembles [4, 127, 0, 0, 1, 6, 0, 80] [] _ (by decide)⟩

/-- C8. No crash: on every buffer, whatever lies behind it in its backing
array, `bytesToString` and `bytesSplit` each return a value and an error or
nil; no panic leaves the call and the loop ends. -/
theorem decode_and_split_always_return (b spare : List Byte) :
    (∃ v err, bytesToString b spare = .ret v err) ∧
      (∃ segs err, bytesSplit b spare = .ret segs err) := by
  constructor
  · rcases bytesToStringLoop_total spare b.length b [] le_rfl with ⟨v, err, h⟩ | ⟨e, h⟩
    · exact ⟨v, err, by simp [bytesToString, h, recovered]⟩
    · exact ⟨[], some e, by simp [bytesToString, h, recovered]⟩
  · rcases bytesSplitLoop_total spare b.length b [] le_rfl with ⟨v, err, h⟩ | ⟨e, h⟩
    · exact ⟨v, err, by simp [bytesSplit, h, recovered]⟩
    · exact ⟨[], some e, by simp [bytesSplit, h, recovered]⟩

/-- C9. A truncated value is an error: after a valid address `a`, the varint
of a registry protocol with a value followed by fewer than `size/8` bytes makes
both `bytesToString` and `bytesSplit` fail. -/
theorem truncated_value_fails (a : List Byte) (ha : ValidAddress a) (p : Protocol)
    (hp : p ∈ Protocols) (_hsz : 0 < p.Size) (v : List Byte) (hv : v.length < p.Size / 8)
    (spare : List Byte) :
    (bytesToString (a ++ CodeToVarint p.Code ++ v) spare).fails = true ∧
      (bytesSplit (a ++ CodeToVarint p.Code ++ v) spare).fails = true := by
  have hr := ReadVarintCode_CodeToVarint hp v
  have hq := ProtocolWithCode_of_mem hp
  have hne : (ProtocolWithCode p.Code).Code ≠ 0 := by rw [hq]; exact (size_of_mem hp).2.2
  have hshort : (CodeToVarint p.Code ++ v).length <
      (CodeToVarint p.Code).length + (ProtocolWithCode p.Code).Size / 8 := by
    rw [hq, List.length_append]; omega
  have hn := (ReadVarintCode_bounds hr).1
  obtain ⟨g, hg⟩ : ∃ g, (a ++ (CodeToVarint p.Code ++ v)).length = g + 1 :=
    ⟨(a ++ (CodeToVarint p.Code ++ v)).length - 1, by
      simp only [List.length_append] at hn ⊢; omega⟩
  rw [List.append_assoc]
  constructor
  · obtain ⟨s1, h1⟩ := bytesToStringLoop_valid_front spare ha (CodeToVarint p.Code ++ v) []
      _ le_rfl
    obtain ⟨e, he⟩ := bytesToStringLoop_short spare s1 hr hne hshort
    rw [bytesToString, h1, hg, he g]
    rfl
  · obtain ⟨r1, h1⟩ := bytesSplitLoop_valid_front spare ha (CodeToVarint p.Code ++ v) []
      _ le_rfl
    obtain ⟨e, he⟩ := bytesSplitLoop_short spare r1 hr hne hshort
    rw [bytesSplit, h1, hg, he g]
    rfl

theorem truncated_value_fails_witness :
    ValidAddress [] ∧ (⟨4, 32, "ip4".toList⟩ : Protocol) ∈ Protocols ∧
      (bytesToString [4, 1, 2, 3] []).fails = true ∧
      (bytesSplit [4, 1, 2, 3] []).fails = true :=
  ⟨.nil, by decide,
    truncated_value_fails [] .nil ⟨4, 32, "ip4".toList⟩ (by decide) (by decide) [1, 2, 3]
      (by decide) []⟩

/-- C10. An unknown code is an error: after a valid address `a`, a rest whose
leading varint decodes to a code that no registry protocol has (code 0
included) makes both `bytesToString` and `bytesSplit` fail. -/
theorem unknown_code_fails (a : List Byte) (ha : ValidAddress a) (r : List Byte)
    (code n : Nat) (hr : ReadVarintCode r = .ok (code, n))
    (hcode : ∀ p ∈ Protocols, p.Code ≠ code) (spare : List Byte) :
    (bytesToString (a ++ r) spare).fails = true ∧ (bytesSplit (a ++ r) spare).fails = true := by
  have hz : (ProtocolWithCode code).Code = 0 := by
    rcases ProtocolWithCode_cases code with h0 | ⟨h1, h2⟩
    · rw [h0]; rfl
    · exact absurd h2 (hcode _ h1)
  have hn := ReadVarintCode_bounds hr
  obtain ⟨g, hg⟩ : ∃ g, (a ++ r).length = g + 1 :=
    ⟨(a ++ r).length - 1, by simp only [List.length_append]; omega⟩
  constructor
  · obtain ⟨s1, h1⟩ := bytesToStringLoop_valid_front spare ha r [] _ le_rfl
    rw [bytesToString, h1, hg, bytesToStringLoop_unknown spare g s1 hr hz]
    rfl
  · obtain ⟨r1, h1⟩ := bytesSplitLoop_valid_front spare ha r [] _ le_rfl
    rw [bytesSplit, h1, hg, bytesSplitLoop_unknown spare g r1 hr hz]
    rfl

theorem unknown_code_fails_witness :
    ValidAddress [4, 127, 0, 0, 1] ∧ ReadVarintCode [5, 1, 2] = .ok (5, 1) ∧
      (bytesToString ([4, 127, 0, 0, 1] ++ [5, 1, 2]) []).fails = true ∧
      (bytesSplit ([4, 127, 0, 0, 1] ++ [5, 1, 2]) []).fails = true :=
  ⟨ValidAddress.cons ⟨4, 32, "ip4".toList⟩ [127, 0, 0, 1] [] (by decide) (by decide) .nil,
    rfl,
    unknown_code_fails [4, 127, 0, 0, 1]
      (ValidAddress.cons ⟨4, 32, "ip4".toList⟩ [127, 0, 0, 1] [] (by decide) (by decide) .nil)
      [5, 1, 2] 5 1 rfl (by decide) []⟩

/-! ### Trailing slashes -/

theorem TrimRight_slashes (t : Str) (k : Nat) :
    TrimRight (t ++ List.replicate k '/') ['/'] = TrimRight t ['/'] := by
  induction k with
  | zero => simp
  | succ k ih =>
    rw [List.replicate_succ', ← List.append_assoc]
    unfold TrimRight at ih ⊢
    rw [List.rdropWhile_concat_pos _ _ _ (by decide), ih]

/-- C5. Trailing-slash tolerance: `stringToBytes` gives the same result, bytes
or error, on `t` and on `t` followed by any number of `/` characters, and so on
`t` followed by one `/`. -/
theorem trailing_slash_tolerance (t : Str) (k : Nat) :
    stringToBytes (t ++ List.replicate k '/') = stringToBytes t ∧
      stringToBytes (t ++ ['/']) = stringToBytes t := by
  have h : ∀ k, stringToBytes (t ++ List.replicate k '/') = stringToBytes t := by
    intro k
    unfold stringToBytes
    simp only [TrimRight_slashes]
  exact ⟨h k, h 1⟩

/-! ### Decimal digits -/

theorem digitVal_digitChar (d : Nat) (h : d < 10) : digitVal (digitChar d) = some d := by
  interval_cases d <;> decide

theorem uitoaAux_eq : ∀ (n f : Nat) (acc : Str), n < f →
    uitoaAux f n acc = uitoaAux (n + 1) n [] ++ acc := by
  intro n
  induction n using Nat.strong_induction_on with
  | _ n ih =>
    intro f acc hf
    obtain ⟨g, rfl⟩ : ∃ g, f = g + 1 := ⟨f - 1, by omega⟩
    by_cases h10 : n < 10
    · simp [uitoaAux, h10]
    · simp only [uitoaAux, h10, if_false]
      rw [ih (n / 10) (by omega) g _ (by omega), ih (n / 10) (by omega) n _ (by omega)]
      simp

theorem uitoa_small {n : Nat} (h : n < 10) : uitoa n = [digitChar n] := by
  simp [uitoa, uitoaAux, h]

theorem uitoa_large {n : Nat} (h : 10 ≤ n) :
    uitoa n = uitoa (n / 10) ++ [digitChar (n % 10)] := by
  have h10 : ¬ n < 10 := by omega
  rw [uitoa]
  simp only [uitoaAux, h10, if_false]
  rw [uitoaAux_eq (n / 10) n _ (by omega)]
  rfl

theorem parseDigits_append_one (s : Str) (c : Char) (a : Nat) :
    parseDigits (s ++ [c]) a =
      (parseDigits s a).bind (fun x => (digitVal c).map (fun d => x * 10 + d)) := by
  induction s generalizing a with
  | nil =>
    simp only [List.nil_append, parseDigits, Option.some_bind]
    cases digitVal c <;> rfl
  | cons x xs ih =>
    simp only [List.cons_append, parseDigits]
    cases digitVal x with
    | none => rfl
    | some d => exact ih _

theorem parseDigits_uitoa (n : Nat) : parseDigits (uitoa n) 0 = some n := by
  induction n using Nat.strong_induction_on with
  | _ n ih =>
    by_cases h10 : n < 10
    · rw [uitoa_small h10]
      simp [parseDigits, digitVal_digitChar n h10]
    · rw [uitoa_large (by omega), parseDigits_append_one, ih (n / 10) (by omega),
        digitVal_digitChar _ (Nat.mod_lt n (by decide))]
      simp only [Option.some_bind, Option.map_some']
      congr 1
      omega

theorem uitoa_ne_nil (n : Nat) : uitoa n ≠ [] := by
  by_cases h10 : n < 10
  · rw [uitoa_small h10]; simp
  · rw [uitoa_large (by omega)]; simp

/-- The digits of `uitoa` are those of the decimal notation of Lean. -/
theorem toDigitsCore_eq : ∀ (n f : Nat) (acc : Str), n < f →
    Nat.toDigitsCore 10 f n acc = uitoa n ++ acc := by
  intro n
  induction n using Nat.strong_induction_on with
  | _ n ih =>
    intro f acc hf
    obtain ⟨g, rfl⟩ : ∃ g, f = g + 1 := ⟨f - 1, by omega⟩
    have hd : Nat.digitChar (n % 10) = digitChar (n % 10) := by
      have : n % 10 < 10 := Nat.mod_lt n (by decide)
      interval_cases (n % 10) <;> decide
    by_cases h10 : n < 10
    · have h0 : n / 10 = 0 := by omega
      have hm : n % 10 = n := by omega
      rw [uitoa_small h10]
      rw [hm] at hd
      simp only [Nat.toDigitsCore, h0, if_true, hd, hm, List.singleton_append]
    · have h0 : n / 10 ≠ 0 := by omega
      rw [uitoa_large (by omega)]
      simp only [Nat.toDigitsCore, h0, if_false, hd]
      rw [ih (n / 10) (by omega) g _ (by omega)]
      simp

theorem uitoa_eq_toDigits (n : Nat) : uitoa n = Nat.toDigits 10 n :=
  (by simpa [Nat.toDigits] using (toDigitsCore_eq n (n + 1) [] (by omega)).symm)

theorem uitoa_digits (n : Nat) : ∀ c ∈ uitoa n, ∃ d, d < 10 ∧ c = digitChar d := by
  induction n using Nat.strong_induction_on with
  | _ n ih =>
    intro c hc
    by_cases h10 : n < 10
    · rw [uitoa_small h10] at hc
      exact ⟨n, h10, by simpa using hc⟩
    · rw [uitoa_large (by omega)] at hc
      rcases List.mem_append.mp hc with h | h
      · exact ih (n / 10) (by omega) c h
      · exact ⟨n % 10, Nat.mod_lt n (by decide), by simpa using h⟩

theorem digitChar_ne {d : Nat} (h : d < 10) :
    digitChar d ≠ '/' ∧ digitChar d ≠ '-' ∧ digitChar d ≠ '+' ∧ digitChar d ≠ '.' ∧
      digitChar d ≠ ':' := by
  interval_cases d <;> decide

theorem uitoa_no_slash (n : Nat) : ∀ c ∈ uitoa n, c ≠ '/' := by
  intro c hc
  obtain ⟨d, hd, rfl⟩ := uitoa_digits n c hc
  exact (digitChar_ne hd).1

theorem Atoi_uitoa (n : Nat) (h : n < 2 ^ 63) : Atoi (uitoa n) = .ok (n : Int) := by
  cases hs : uitoa n with
  | nil => exact absurd hs (uitoa_ne_nil n)
  | cons c cs =>
    obtain ⟨d, hd, hc⟩ := uitoa_digits n c (by rw [hs]; exact List.mem_cons_self _ _)
    have h1 : c ≠ '-' := by rw [hc]; exact (digitChar_ne hd).2.1
    have h2 : c ≠ '+' := by rw [hc]; exact (digitChar_ne hd).2.2.1
    have hp := parseDigits_uitoa n
    rw [hs] at hp
    have hlt : ¬ n ≥ 2 ^ 63 := by omega
    simp only [Atoi, h1, h2, or_self, if_false, hp, decide_False, Bool.false_eq_true,
      reduceCtorEq, hlt]

/-! ### Tokens -/

theorem Split_ne_nil (s : Str) (sep : Char) : Split s sep ≠ [] := by
  induction s with
  | nil => simp [Split]
  | cons c cs ih =>
    simp only [Split]
    split
    · simp
    · split <;> simp

theorem Split_no_sep {a : Str} {sep : Char} (h : ∀ c ∈ a, c ≠ sep) : Split a sep = [a] := by
  induction a with
  | nil => rfl
  | cons c cs ih =>
    have hc : c ≠ sep := h c (List.mem_cons_self _ _)
    simp only [Split, hc, if_false, ih (fun x hx => h x (List.mem_cons_of_mem _ hx))]

theorem Split_append_sep {a : Str} {sep : Char} (h : ∀ c ∈ a, c ≠ sep) (rest : Str) :
    Split (a ++ sep :: rest) sep = a :: Split rest sep := by
  induction a with
  | nil => simp [Split]
  | cons c cs ih =>
    have hc : c ≠ sep := h c (List.mem_cons_self _ _)
    have ih1 := ih (fun x hx => h x (List.mem_cons_of_mem _ hx))
    rw [List.cons_append]
    simp only [Split, hc, if_false, ih1]

theorem TrimRight_eq_self {s : Str} (h : ∀ hs : s ≠ [], s.getLast hs ≠ '/') :
    TrimRight s ['/'] = s := by
  unfold TrimRight
  rw [List.rdropWhile_eq_self_iff]
  intro hs
  have := h hs
  simpa using this

/-! ### The loop of stringToBytes -/

theorem ProtocolWithName_of_mem {p : Protocol} (hp : p ∈ Protocols) :
    ProtocolWithName p.Name = p := by
  simp only [Protocols, List.mem_cons, List.mem_singleton, List.not_mem_nil, or_false] at hp
  rcases hp with rfl | rfl | rfl | rfl | rfl | rfl <;> decide

theorem stringToBytesLoop_front {p : Protocol} (hp : p ∈ Protocols) {tok : Str}
    {a : List Byte} (ha : addressStringToBytes p tok = .ok a) (sp : List Str) (b : List Byte) :
    stringToBytesLoop (p.Name :: tok :: sp) b =
      stringToBytesLoop sp (b ++ CodeToVarint p.Code ++ a) := by
  have h1 := ProtocolWithName_of_mem hp
  have h2 := size_of_mem hp
  simp only [stringToBytesLoop, h1, h2.2.2, if_false, h2.2.1, if_true, ha]

theorem TrimRight_append_of_no_slash (x : Str) {ds : Str} (hne : ds ≠ [])
    (h : ∀ c ∈ ds, c ≠ '/') : TrimRight (x ++ ds) ['/'] = x ++ ds := by
  apply TrimRight_eq_self
  intro hs
  rw [List.getLast_append_right hne]
  exact h _ (List.getLast_mem hne)

theorem name_no_slash {p : Protocol} (hp : p ∈ Protocols) : ∀ c ∈ p.Name, c ≠ '/' := by
  simp only [Protocols, List.mem_cons, List.mem_singleton, List.not_mem_nil, or_false] at hp
  rcases hp with rfl | rfl | rfl | rfl | rfl | rfl <;> decide

theorem byte_mod (n : Nat) : byte (n % 256) = byte n := by
  simp [byte]

theorem getUint16_putUint16 {n : Nat} (h : n < 65536) : getUint16 (putUint16 n) = n := by
  simp only [getUint16, putUint16, byte]
  omega

theorem Itoa_natCast (n : Nat) : Itoa (n : Int) = uitoa n := by
  simp [Itoa]

/-! ### Ports -/

theorem addressStringToBytes_port {p : Protocol}
    (hport : p.Code = P_TCP ∨ p.Code = P_UDP ∨ p.Code = P_DCCP ∨ p.Code = P_SCTP)
    {n : Nat} (hn : n < 65536) :
    addressStringToBytes p (uitoa n) = .ok (putUint16 n) := by
  have h4 : p.Code ≠ P_IP4 := by
    rcases hport with h | h | h | h <;> rw [h] <;> decide
  have h6 : p.Code ≠ P_IP6 := by
    rcases hport with h | h | h | h <;> rw [h] <;> decide
  have hlt : ¬ ((n : Int) ≥ 65536) := by omega
  have hu : toUint16 (n : Int) = n := by
    simp only [toUint16]; omega
  simp only [addressStringToBytes, h4, h6, if_false, hport, if_true,
    Atoi_uitoa n (by omega), hlt, hu]

theorem addressBytesToString_port {p : Protocol}
    (hport : p.Code = P_TCP ∨ p.Code = P_UDP ∨ p.Code = P_DCCP ∨ p.Code = P_SCTP)
    {n : Nat} (hn : n < 65536) :
    addressBytesToString p (putUint16 n) = uitoa n := by
  have h4 : ¬ (p.Code = P_IP4 ∨ p.Code = P_IP6) := by
    rcases hport with h | h | h | h <;> rw [h] <;> decide
  simp only [addressBytesToString, h4, if_false, hport, if_true, getUint16_putUint16 hn,
    Itoa_natCast]

/-- C6. Port encoding: for `n` in `[0, 65535]` and a port protocol `p` (tcp,
udp, dccp, sctp), the text `/name/decimal(n)` encodes to the varint of the code
followed by the two bytes `n / 256`, `n mod 256`, and those bytes decode to the
same text, with the value as the unpadded decimal of `n`. -/
theorem port_encoding (n : Nat) (hn : n ≤ 65535) (p : Protocol) (hp : p ∈ Protocols)
    (hport : p.Code = P_TCP ∨ p.Code = P_UDP ∨ p.Code = P_DCCP ∨ p.Code = P_SCTP)
    (spare : List Byte) :
    stringToBytes ('/' :: p.Name ++ '/' :: Nat.toDigits 10 n) =
        .ret (CodeToVarint p.Code ++ [byte (n / 256), byte (n % 256)]) none ∧
      bytesToString (CodeToVarint p.Code ++ [byte (n / 256), byte (n % 256)]) spare =
        .ret ('/' :: p.Name ++ '/' :: Nat.toDigits 10 n) none := by
  have hlt : n < 65536 := by omega
  have hput : [byte (n / 256), byte (n % 256)] = putUint16 n := by
    rw [byte_mod]; rfl
  rw [← uitoa_eq_toDigits, hput]
  constructor
  · have htrim : TrimRight ('/' :: p.Name ++ '/' :: uitoa n) ['/'] =
        '/' :: p.Name ++ '/' :: uitoa n := by
      have := TrimRight_append_of_no_slash ('/' :: p.Name ++ ['/']) (uitoa_ne_nil n)
        (uitoa_no_slash n)
      simpa using this
    have hsplit : Split ('/' :: p.Name ++ '/' :: uitoa n) '/' = [[], p.Name, uitoa n] := by
      have h0 : Split ([] ++ '/' :: (p.Name ++ '/' :: uitoa n)) '/' =
          [] :: Split (p.Name ++ '/' :: uitoa n) '/' :=
        Split_append_sep (fun c hc => absurd hc (List.not_mem_nil c)) _
      rw [List.nil_append] at h0
      rw [List.cons_append, h0, Split_append_sep (name_no_slash hp),
        Split_no_sep (uitoa_no_slash n)]
    simp only [stringToBytes, htrim, hsplit, ne_eq, not_true_eq_false, if_false]
    rw [stringToBytesLoop_front hp (addressStringToBytes_port hport hlt)]
    simp [stringToBytesLoop]
  · have hlen : (CodeToVarint p.Code ++ putUint16 n).length =
        ((CodeToVarint p.Code).length + 1) + 1 := by
      simp [putUint16]
    have hv : (putUint16 n).length = p.Size / 8 := by
      simp only [Protocols, List.mem_cons, List.mem_singleton, List.not_mem_nil, or_false] at hp
      rcases hp with rfl | rfl | rfl | rfl | rfl | rfl <;>
        first | (exfalso; revert hport; decide) | simp [putUint16]
    have hfront := bytesToStringLoop_front spare hp (putUint16 n) [] hv []
      ((CodeToVarint p.Code).length + 1)
    rw [List.append_nil] at hfront
    have hpos : (uitoa n).length > 0 := List.length_pos.mpr (uitoa_ne_nil n)
    rw [bytesToString, hlen, hfront, bytesToStringLoop_nil, addressBytesToString_port hport hlt]
    simp only [hpos, if_true, List.nil_append, recovered]

theorem port_encoding_witness :
    (⟨6, 16, "tcp".toList⟩ : Protocol) ∈ Protocols ∧
      stringToBytes "/tcp/8080".toList = .ret [6, 31, 144] none ∧
      bytesToString [6, 31, 144] [] = .ret "/tcp/8080".toList none :=
  ⟨by decide,
    port_encoding 8080 (by decide) ⟨6, 16, "tcp".toList⟩ (by decide) (by decide) []⟩

/-- C7. The code at the failing input: the tcp port written as minus one is
accepted and encoded as port 65535, because only the upper bound of the port is
checked. -/
theorem negative_port_accepted :
    stringToBytes "/tcp/-1".toList = .ret [6, 255, 255] none ∧
      bytesToString [6, 255, 255] [] = .ret "/tcp/65535".toList none := by
  constructor <;> decide

/-! ### The elements of a split -/

theorem readVarintAux_take : ∀ (xs : List Byte) (sh acc cnt c n m : Nat),
    readVarintAux xs sh acc cnt = .ok (c, n) → n ≤ cnt + m →
    readVarintAux (xs.take m) sh acc cnt = .ok (c, n) := by
  intro xs
  induction xs with
  | nil => intro sh acc cnt c n m h; simp [readVarintAux] at h
  | cons x xs ih =>
    intro sh acc cnt c n m h hm
    have hb := readVarintAux_bounds _ _ _ _ _ _ h
    obtain ⟨k, rfl⟩ : ∃ k, m = k + 1 := ⟨m - 1, by omega⟩
    simp only [readVarintAux] at h
    simp only [List.take_succ_cons, readVarintAux]
    split at h
    · cases h
    · rename_i h32
      rw [if_neg h32]
      split at h
      · rename_i h128
        rw [if_pos h128]
        exact h
      · rename_i h128
        rw [if_neg h128]
        exact ih _ _ _ _ _ _ h (by omega)

theorem ReadVarintCode_take {b : List Byte} {c n : Nat} (h : ReadVarintCode b = .ok (c, n))
    {m : Nat} (hm : n ≤ m) : ReadVarintCode (b.take m) = .ok (c, n) :=
  readVarintAux_take b 0 0 0 c n m h (by omega)

/-- Every segment the loop of `bytesSplit` adds is a varint of a registry code
followed by exactly `size/8` bytes. -/
theorem bytesSplitLoop_segments (spare : List Byte) : ∀ (fuel : Nat) (b : List Byte)
    (ret segs : List (List Byte)), bytesSplitLoop spare fuel b ret = .ret segs none →
    (∀ x ∈ ret, ∃ code n, ReadVarintCode x = .ok (code, n) ∧ (ProtocolWithCode code).Code ≠ 0 ∧
      x.length = n + (ProtocolWithCode code).Size / 8) →
    ∀ x ∈ segs, ∃ code n, ReadVarintCode x = .ok (code, n) ∧ (ProtocolWithCode code).Code ≠ 0 ∧
      x.length = n + (ProtocolWithCode code).Size / 8 := by
  intro fuel
  induction fuel with
  | zero =>
    intro b ret segs h hret
    simp only [bytesSplitLoop] at h
    split at h
    · cases h
    · cases h; exact hret
  | succ fuel ih =>
    intro b ret segs h hret
    by_cases hb : b = []
    · subst hb
      rw [bytesSplitLoop_nil] at h
      cases h; exact hret
    · cases hr : ReadVarintCode b with
      | error e =>
        rw [bytesSplitLoop_varint_error spare fuel ret hb hr] at h
        cases h
      | ok cn =>
        obtain ⟨code, n⟩ := cn
        by_cases hp : (ProtocolWithCode code).Code = 0
        · rw [bytesSplitLoop_unknown spare fuel ret hr hp] at h
          cases h
        · by_cases hlen : n + (ProtocolWithCode code).Size / 8 ≤ b.length
          · rw [bytesSplitLoop_step spare fuel ret hr hp hlen] at h
            apply ih _ _ _ h
            intro x hx
            rcases List.mem_append.mp hx with hx | hx
            · exact hret x hx
            · rw [List.mem_singleton] at hx
              subst hx
              exact ⟨code, n, ReadVarintCode_take hr (by omega), hp,
                by rw [List.length_take]; omega⟩
          · obtain ⟨e, he⟩ := bytesSplitLoop_short spare ret hr hp (by omega)
            rw [he fuel] at h
            cases h

/-- C4. Every element `x` of a successful split is a valid single-segment
address: it is not empty, its length is that of its leading varint plus
`size/8` for the registry protocol of the decoded code, `bytesSplit` of `x`
returns `x` alone, and `bytesToString` of `x` succeeds. -/
theorem split_elements_valid (b spare : List Byte) (segs : List (List Byte))
    (h : bytesSplit b spare = .ret segs none) (x : List Byte) (hx : x ∈ segs) :
    x ≠ [] ∧
      (∃ code n, ReadVarintCode x = .ok (code, n) ∧ ProtocolWithCode code ∈ Protocols ∧
        x.length = n + (ProtocolWithCode code).Size / 8) ∧
      (∀ spare1, bytesSplit x spare1 = .ret [x] none) ∧
      (∀ spare1, (bytesToString x spare1).succeeds = true) := by
  obtain ⟨code, n, hr, hp, hlen⟩ := bytesSplitLoop_segments spare _ _ _ _
    (recovered_ret_none h) (fun y hy => absurd hy (List.not_mem_nil y)) x hx
  have hn := ReadVarintCode_bounds hr
  have hne : x ≠ [] := by
    intro h0; rw [h0] at hn; simp at hn; omega
  obtain ⟨g, hg⟩ : ∃ g, x.length = g + 1 := ⟨x.length - 1, by omega⟩
  have hdrop : x.drop (n + (ProtocolWithCode code).Size / 8) = [] :=
    List.drop_eq_nil_of_le (by omega)
  have htake : x.take (n + (ProtocolWithCode code).Size / 8) = x :=
    List.take_of_length_le (by omega)
  refine ⟨hne, ⟨code, n, hr, (ProtocolWithCode_of_ne hp).1, hlen⟩, ?_, ?_⟩
  · intro spare1
    rw [bytesSplit, hg, bytesSplitLoop_step spare1 g [] hr hp (by omega), hdrop, htake,
      bytesSplitLoop_nil]
    rfl
  · intro spare1
    rw [bytesToString, hg, bytesToStringLoop_step spare1 g [] hr hp (by omega), hdrop,
      bytesToStringLoop_nil]
    rfl

theorem split_elements_valid_witness :
    bytesSplit [4, 127, 0, 0, 1, 6, 0, 80] [] = .ret [[4, 127, 0, 0, 1], [6, 0, 80]] none ∧
      ([6, 0, 80] : List Byte) ≠ [] ∧
      (∃ code n, ReadVarintCode [6, 0, 80] = .ok (code, n) ∧ ProtocolWithCode code ∈ Protocols ∧
        ([6, 0, 80] : List Byte).length = n + (ProtocolWithCode code).Size / 8) ∧
      (∀ spare1, bytesSplit [6, 0, 80] spare1 = .ret [[6, 0, 80]] none) ∧
      (∀ spare1, (bytesToString [6, 0, 80] spare1).succeeds = true) :=
  ⟨by decide,
    split_elements_valid [4, 127, 0, 0, 1, 6, 0, 80] [] [[4, 127, 0, 0, 1], [6, 0, 80]]
      (by decide) [6, 0, 80] (by decide)⟩

/-! ### Text to bytes to text -/

theorem ProtocolWithName_cases (name : Str) :
    ProtocolWithName name = noProtocol ∨
      (ProtocolWithName name ∈ Protocols ∧ (ProtocolWithName name).Name = name) := by
  unfold ProtocolWithName
  cases hf : Protocols.find? (fun p => p.Name = name) with
  | none => exact Or.inl rfl
  | some q =>
    refine Or.inr ⟨List.mem_of_find?_eq_some hf, ?_⟩
    have := List.find?_some hf
    simpa using this

theorem To4_length {ip : Option (List Byte)} {i : List Byte} (h : To4 ip = some i) :
    i.length = 4 := by
  unfold To4 at h
  split at h
  · cases h
  · rename_i q
    split at h
    · cases h; assumption
    · split at h
      · rename_i hc
        simp only [Bool.and_eq_true, decide_eq_true_eq] at hc
        cases h
        rw [List.length_drop, hc.1.1.1]
      · cases h

theorem To16_length {ip : Option (List Byte)} {i : List Byte} (h : To16 ip = some i) :
    i.length = 16 := by
  unfold To16 at h
  split at h
  · cases h
  · split at h
    · cases h; rfl
    · split at h
      · cases h; assumption
      · cases h

theorem addressStringToBytes_length {p : Protocol} (hp : p ∈ Protocols) {tok : Str}
    {a : List Byte} (h : addressStringToBytes p tok = .ok a) : a.length = p.Size / 8 := by
  unfold addressStringToBytes at h
  simp only [Protocols, List.mem_cons, List.mem_singleton, List.not_mem_nil, or_false] at hp
  rcases hp with rfl | rfl | rfl | rfl | rfl | rfl
  · simp only [if_true] at h
    split at h
    · cases h
    · rename_i i hi
      cases h
      exact To4_length hi
  all_goals first
    | (rw [if_neg (by decide), if_neg (by decide), if_pos (by decide)] at h
       split at h
       · cases h
       · split at h
         · cases h
         · cases h; simp [putUint16])
    | (rw [if_neg (by decide), if_pos (by decide)] at h
       split at h
       · cases h
       · rename_i i hi
         cases h
         exact To16_length hi)

theorem parseIPScan_nil_text (cs : Str) : parseIPScan cs [] = none := by
  induction cs with
  | nil => rfl
  | cons c cs ih =>
    simp only [parseIPScan]
    split
    · rfl
    · split
      · rfl
      · exact ih

theorem addressStringToBytes_nil (p : Protocol) : ∀ a, addressStringToBytes p [] ≠ .ok a := by
  intro a h
  unfold addressStringToBytes at h
  have hip : ParseIP [] = none := rfl
  simp only [hip, To4, To16, Atoi] at h
  split at h
  · cases h
  · split at h
    · cases h
    · split at h <;> cases h

theorem Split_flatMap (t : Str) (sep : Char) :
    (Split t sep).flatMap (fun tok => sep :: tok) = sep :: t := by
  induction t with
  | nil => rfl
  | cons c cs ih =>
    simp only [Split]
    split
    · rename_i hc
      rw [List.flatMap_cons, ih, hc]
      rfl
    · cases hs : Split cs sep with
      | nil => exact absurd hs (Split_ne_nil cs sep)
      | cons t0 ts =>
        rw [hs, List.flatMap_cons] at ih
        simp only [List.flatMap_cons, List.cons_append, List.cons.injEq, true_and] at ih ⊢
        rw [ih]

/-- What `stringToBytes` appends for tokens whose values are canonical decodes
to those tokens, each after a slash. -/
theorem stringToBytesLoop_decodes (spare : List Byte) : ∀ (m : Nat) (sp : List Str)
    (b0 b : List Byte), sp.length ≤ m → stringToBytesLoop sp b0 = .ret b none →
    valuesCanonical sp = true →
    ∃ b1, b = b0 ++ b1 ∧ ∀ (s : Str) (fuel : Nat), b1.length ≤ fuel →
      bytesToStringLoop spare fuel b1 s =
        .ret (s ++ sp.flatMap (fun tok => '/' :: tok)) none := by
  intro m
  induction m with
  | zero =>
    intro sp b0 b hm h _
    have hsp : sp = [] := List.length_eq_zero.mp (by omega)
    subst hsp
    simp only [stringToBytesLoop, Outcome.ret.injEq, and_true] at h
    refine ⟨[], by simp [h], fun s fuel _ => ?_⟩
    rw [bytesToStringLoop_nil]; simp
  | succ m ih =>
    intro sp b0 b hm h hc
    cases sp with
    | nil =>
      simp only [stringToBytesLoop, Outcome.ret.injEq, and_true] at h
      refine ⟨[], by simp [h], fun s fuel _ => ?_⟩
      rw [bytesToStringLoop_nil]; simp
    | cons name sp1 =>
      simp only [stringToBytesLoop] at h
      split at h
      · cases h
      · rename_i hcode
        rcases ProtocolWithName_cases name with h0 | ⟨hp, hname⟩
        · rw [h0] at hcode; exact absurd rfl hcode
        · have hsz := size_of_mem hp
          rw [if_pos hsz.2.1] at h
          cases sp1 with
          | nil => cases h
          | cons tok sp2 =>
            simp only at h
            cases ha : addressStringToBytes (ProtocolWithName name) tok with
            | error e => rw [ha] at h; cases h
            | ok a =>
              rw [ha] at h
              simp only at h
              simp only [valuesCanonical, hsz.2.1, if_true, ha, Bool.and_eq_true,
                decide_eq_true_eq] at hc
              obtain ⟨b2, hb2, hloop⟩ := ih sp2 _ b
                (by simp only [List.length_cons] at hm; omega) h hc.2
              have hlen := addressStringToBytes_length hp ha
              have htok : tok ≠ [] := by
                intro h0; subst h0
                exact addressStringToBytes_nil _ a ha
              refine ⟨CodeToVarint (ProtocolWithName name).Code ++ a ++ b2,
                by rw [hb2]; simp, fun s fuel hf => ?_⟩
              have hn := (ReadVarintCode_bounds (ReadVarintCode_CodeToVarint hp [])).1
              obtain ⟨g, rfl⟩ : ∃ g, fuel = g + 1 :=
                ⟨fuel - 1, by simp only [List.length_append, List.length_nil] at hf hn; omega⟩
              rw [bytesToStringLoop_front spare hp a b2 hlen s g, hloop _ g
                (by simp only [List.length_append, List.length_nil] at hf hn; omega)]
              have hpos : tok.length > 0 := List.length_pos.mpr htok
              simp only [hc.1, hpos, if_true, hname, List.flatMap_cons, List.append_assoc,
                List.cons_append]

/-- C2, as stated, fails: the text with the tcp port written `080` is accepted,
has no trailing slash and no double slash, and comes back as the text with the
port written `80`. -/
theorem text_round_trip_counterexample :
    stringToBytes "/tcp/080".toList = .ret [6, 0, 80] none ∧
      noTrailingSlash "/tcp/080".toList = true ∧ noDoubleSlash "/tcp/080".toList = true ∧
      bytesToString [6, 0, 80] [] = .ret "/tcp/80".toList none ∧
      bytesToString [6, 0, 80] [] ≠ .ret "/tcp/080".toList none := by
  refine ⟨by decide, by decide, by decide, by decide, by decide⟩

/-! ### Hexadecimal groups -/

theorem hexVal_hexDigit (d : Nat) (h : d < 16) : hexVal (hexDigit d) = some d := by
  interval_cases d <;> decide

theorem hexDigit_ne (d : Nat) (h : d < 16) :
    hexDigit d ≠ '/' ∧ hexDigit d ≠ ':' ∧ hexDigit d ≠ '.' := by
  interval_cases d <;> decide

theorem appendHex_eq (dst : Str) (n : Nat) : appendHex dst n = dst ++ appendHex [] n := by
  unfold appendHex
  split <;> simp

theorem appendHex_cases {n : Nat} (h : n < 65536) :
    appendHex [] n =
      if n < 16 then [hexDigit n]
      else if n < 256 then [hexDigit (n / 16), hexDigit (n % 16)]
      else if n < 4096 then [hexDigit (n / 256), hexDigit (n / 16 % 16), hexDigit (n % 16)]
      else [hexDigit (n / 4096), hexDigit (n / 256 % 16), hexDigit (n / 16 % 16),
        hexDigit (n % 16)] := by
  have h7 : n / 268435456 = 0 := by omega
  have h6 : n / 16777216 = 0 := by omega
  have h5 : n / 1048576 = 0 := by omega
  have h4 : n / 65536 = 0 := by omega
  by_cases h0 : n = 0
  · subst h0; decide
  · simp only [appendHex, h0, if_false, List.nil_append, List.filterMap_cons, Nat.reduceMul,
      Nat.reducePow, h7, h6, h5, h4, gt_iff_lt, Nat.lt_irrefl, if_false, Nat.pow_zero,
      Nat.div_one, List.filterMap_nil]
    by_cases a : n < 16
    · have e3 : n / 4096 = 0 := by omega
      have e2 : n / 256 = 0 := by omega
      have e1 : n / 16 = 0 := by omega
      have e0 : 0 < n := by omega
      have em : n % 16 = n := by omega
      simp [a, e3, e2, e1, e0, em]
    · by_cases b : n < 256
      · have e3 : n / 4096 = 0 := by omega
        have e2 : n / 256 = 0 := by omega
        have e1 : 0 < n / 16 := by omega
        have e0 : 0 < n := by omega
        have em : n / 16 % 16 = n / 16 := by omega
        simp [a, b, e3, e2, e1, e0, em]
      · by_cases c : n < 4096
        · have e3 : n / 4096 = 0 := by omega
          have e2 : 0 < n / 256 := by omega
          have e1 : 0 < n / 16 := by omega
          have e0 : 0 < n := by omega
          have em : n / 256 % 16 = n / 256 := by omega
          simp [a, b, c, e3, e2, e1, e0, em]
        · have e3 : 0 < n / 4096 := by omega
          have e2 : 0 < n / 256 := by omega
          have e1 : 0 < n / 16 := by omega
          have e0 : 0 < n := by omega
          have em : n / 4096 % 16 = n / 4096 := by omega
          simp [a, b, c, e3, e2, e1, e0, em]

theorem xtoiLoop_stop {rest : Str} (h : ∀ c, rest.head? = some c → hexVal c = none)
    (n : Nat) {i : Nat} (hi : i ≠ 0) : xtoiLoop rest n i = (n, i, true) := by
  cases rest with
  | nil => simp [xtoiLoop, hi]
  | cons c cs =>
    have := h c rfl
    simp [xtoiLoop, this, hi]

theorem xtoi_hex {g : Nat} (hg : g < 65536) {rest : Str}
    (h : ∀ c, rest.head? = some c → hexVal c = none) :
    xtoi (appendHex [] g ++ rest) = (g, (appendHex [] g).length, true) := by
  have hb : big = 16777215 := rfl
  rw [appendHex_cases hg]
  by_cases a : g < 16
  · simp only [a, if_true, xtoi, List.cons_append, List.nil_append, xtoiLoop,
      hexVal_hexDigit g a, hb]
    rw [if_neg (by omega), xtoiLoop_stop h _ (by omega)]
    simp
  · by_cases b : g < 256
    · simp only [a, b, if_true, if_false, xtoi, List.cons_append, List.nil_append, xtoiLoop,
        hexVal_hexDigit (g / 16) (by omega), hexVal_hexDigit (g % 16) (by omega), hb]
      rw [if_neg (by omega), if_neg (by omega), xtoiLoop_stop h _ (by omega)]
      simp; omega
    · by_cases c : g < 4096
      · simp only [a, b, c, if_true, if_false, xtoi, List.cons_append, List.nil_append, xtoiLoop,
          hexVal_hexDigit (g / 256) (by omega), hexVal_hexDigit (g / 16 % 16) (by omega),
          hexVal_hexDigit (g % 16) (by omega), hb]
        rw [if_neg (by omega), if_neg (by omega), if_neg (by omega),
          xtoiLoop_stop h _ (by omega)]
        simp; omega
      · simp only [a, b, c, if_false, xtoi, List.cons_append, List.nil_append, xtoiLoop,
          hexVal_hexDigit (g / 4096) (by omega), hexVal_hexDigit (g / 256 % 16) (by omega),
          hexVal_hexDigit (g / 16 % 16) (by omega), hexVal_hexDigit (g % 16) (by omega), hb]
        rw [if_neg (by omega), if_neg (by omega), if_neg (by omega), if_neg (by omega),
          xtoiLoop_stop h _ (by omega)]
        simp; omega

theorem appendHex_chars {g : Nat} (hg : g < 65536) :
    ∀ c ∈ appendHex [] g, ∃ d, d < 16 ∧ c = hexDigit d := by
  intro c hc
  rw [appendHex_cases hg] at hc
  split at hc
  · simp only [List.mem_singleton] at hc; exact ⟨_, by omega, hc⟩
  · split at hc
    · simp only [List.mem_cons, List.mem_singleton, List.not_mem_nil, or_false] at hc
      rcases hc with h | h
      · exact ⟨_, by omega, h⟩
      · exact ⟨_, by omega, h⟩
    · split at hc
      · simp only [List.mem_cons, List.mem_singleton, List.not_mem_nil, or_false] at hc
        rcases hc with h | h | h
        · exact ⟨_, by omega, h⟩
        · exact ⟨_, by omega, h⟩
        · exact ⟨_, by omega, h⟩
      · simp only [List.mem_cons, List.mem_singleton, List.not_mem_nil, or_false] at hc
        rcases hc with h | h | h | h
        · exact ⟨_, by omega, h⟩
        · exact ⟨_, by omega, h⟩
        · exact ⟨_, by omega, h⟩
        · exact ⟨_, by omega, h⟩

theorem appendHex_ne_nil {g : Nat} (hg : g < 65536) : appendHex [] g ≠ [] := by
  rw [appendHex_cases hg]
  split
  · simp
  · split
    · simp
    · split <;> simp

/-! ### Decimal octets -/

theorem parseDigits_mono : ∀ (ds : Str) (a v : Nat), parseDigits ds a = some v → a ≤ v := by
  intro ds
  induction ds with
  | nil => intro a v h; simp [parseDigits] at h; omega
  | cons c cs ih =>
    intro a v h
    simp only [parseDigits] at h
    split at h
    · cases h
    · have := ih _ _ h
      omega

theorem dtoiLoop_stop {rest : Str} (h : ∀ c, rest.head? = some c → digitVal c = none)
    (n : Nat) {i : Nat} (hi : i ≠ 0) : dtoiLoop rest n i = (n, i, true) := by
  cases rest with
  | nil => simp [dtoiLoop, hi]
  | cons c cs =>
    have h1 := h c rfl
    have h2 : ¬ ('0' ≤ c ∧ c ≤ '9') := by
      intro hc
      simp [digitVal, hc] at h1
    simp [dtoiLoop, h2, hi]

theorem dtoiLoop_digits : ∀ (ds : Str) (n0 i0 v : Nat) (rest : Str),
    parseDigits ds n0 = some v → v < big →
    (∀ c, rest.head? = some c → digitVal c = none) → (ds ≠ [] ∨ i0 ≠ 0) →
    dtoiLoop (ds ++ rest) n0 i0 = (v, i0 + ds.length, true) := by
  intro ds
  induction ds with
  | nil =>
    intro n0 i0 v rest hp _ hr hne
    simp only [parseDigits, Option.some.injEq] at hp
    subst hp
    have hi : i0 ≠ 0 := by
      rcases hne with h | h
      · exact absurd rfl h
      · exact h
    simpa using dtoiLoop_stop hr n0 hi
  | cons c cs ih =>
    intro n0 i0 v rest hp hv hr _
    simp only [parseDigits] at hp
    cases hd : digitVal c with
    | none => rw [hd] at hp; cases hp
    | some d =>
      rw [hd] at hp
      simp only at hp
      have hc : '0' ≤ c ∧ c ≤ '9' := by
        by_contra hc
        simp [digitVal, hc] at hd
      have hd2 : c.toNat - 48 = d := by
        simpa [digitVal, hc] using hd
      have hm := parseDigits_mono _ _ _ hp
      have hlt : ¬ (n0 * 10 + (c.toNat - 48) ≥ big) := by rw [hd2]; omega
      have key := ih (n0 * 10 + d) (i0 + 1) v rest hp hv hr (Or.inr (by omega))
      rw [List.cons_append]
      simp only [dtoiLoop, hc, and_self, if_true, hlt, if_false]
      rw [hd2, key]
      simp only [List.length_cons, Prod.mk.injEq, and_true, true_and]
      omega

theorem dtoi_uitoa {n : Nat} (hn : n < big) {rest : Str}
    (hr : ∀ c, rest.head? = some c → digitVal c = none) :
    dtoi (uitoa n ++ rest) = (n, (uitoa n).length, true) := by
  have := dtoiLoop_digits (uitoa n) 0 0 n rest (parseDigits_uitoa n) hn hr
    (Or.inl (uitoa_ne_nil n))
  simpa [dtoi] using this

theorem uitoa_head (n : Nat) (h : n ≠ 0) : (uitoa n).head? ≠ some '0' := by
  induction n using Nat.strong_induction_on with
  | _ n ih =>
    by_cases h10 : n < 10
    · rw [uitoa_small h10]
      simp only [List.head?_cons, ne_eq, Option.some.injEq]
      interval_cases n <;> first | (exfalso; exact h rfl) | decide
    · rw [uitoa_large (by omega)]
      have hne := uitoa_ne_nil (n / 10)
      cases hs : uitoa (n / 10) with
      | nil => exact absurd hs hne
      | cons c cs =>
        have := ih (n / 10) (by omega) (by omega)
        rw [hs] at this
        simpa using this

theorem uitoa_zero : uitoa 0 = ['0'] := rfl

/-! ### Dotted decimal -/

theorem not_digit_dot : ∀ c, (['.'] : Str).head? = some c → digitVal c = none := by
  intro c h
  simp only [List.head?_cons, Option.some.injEq] at h
  subst h; decide

theorem head_cond_cons_dot (rest : Str) :
    ∀ c, ('.' :: rest).head? = some c → digitVal c = none := by
  intro c h
  simp only [List.head?_cons, Option.some.injEq] at h
  subst h; decide

theorem head_cond_nil : ∀ c, ([] : Str).head? = some c → digitVal c = none := by
  intro c h; cases h

theorem leading_zero_check (n : Nat) (rest : Str) :
    (decide ((uitoa n).length > 1) && decide ((uitoa n ++ rest).head? = some '0')) = false := by
  by_cases h0 : n = 0
  · subst h0; simp [uitoa_zero]
  · have h1 := uitoa_head n h0
    have h2 : (uitoa n ++ rest).head? = (uitoa n).head? := by
      cases hs : uitoa n with
      | nil => exact absurd hs (uitoa_ne_nil n)
      | cons c cs => rfl
    rw [h2]
    simp [h1]

theorem parseIPv4Loop_first {n : Nat} (hn : n < 256) {rest : Str}
    (hr : ∀ c, rest.head? = some c → digitVal c = none) (k : Nat) (p : List Byte) :
    parseIPv4Loop (k + 1) 0 (uitoa n ++ rest) p = parseIPv4Loop k 1 rest (p ++ [byte n]) := by
  have hlen : (uitoa n ++ rest).length ≠ 0 := by
    have := List.length_pos.mpr (uitoa_ne_nil n)
    simp only [List.length_append]; omega
  have hd := dtoi_uitoa (n := n) (by simp only [big]; omega) hr
  have hz := leading_zero_check n rest
  have h255 : ¬ n > 255 := by omega
  simp only [parseIPv4Loop, hlen, if_false, Nat.lt_irrefl, hd, Bool.not_true, Bool.false_or,
    decide_eq_true_eq, h255, hz, Bool.false_eq_true, List.drop_left]

theorem parseIPv4Loop_next {n : Nat} (hn : n < 256) {rest : Str}
    (hr : ∀ c, rest.head? = some c → digitVal c = none) (k i : Nat) (hi : i > 0)
    (p : List Byte) :
    parseIPv4Loop (k + 1) i ('.' :: (uitoa n ++ rest)) p =
      parseIPv4Loop k (i + 1) rest (p ++ [byte n]) := by
  have hd := dtoi_uitoa (n := n) (by simp only [big]; omega) hr
  have hz := leading_zero_check n rest
  have h255 : ¬ n > 255 := by omega
  simp only [parseIPv4Loop, List.length_cons, Nat.add_one_ne_zero, if_false, hi, if_true,
    List.head?_cons, ne_eq, not_true_eq_false, List.drop_succ_cons, List.drop_zero, hd,
    Bool.not_true, Bool.false_or, decide_eq_true_eq, h255, hz, Bool.false_eq_true,
    List.drop_left]

/-- The dotted decimal text of four octets. -/
theorem parseIPv4_dotted (a b c d : Byte) :
    parseIPv4 (uitoa a.val ++ ['.'] ++ uitoa b.val ++ ['.'] ++ uitoa c.val ++ ['.'] ++
      uitoa d.val) = some (IPv4 a b c d) := by
  have e : uitoa a.val ++ ['.'] ++ uitoa b.val ++ ['.'] ++ uitoa c.val ++ ['.'] ++ uitoa d.val
      = uitoa a.val ++ ('.' :: (uitoa b.val ++ ('.' :: (uitoa c.val ++
          ('.' :: (uitoa d.val ++ [])))))) := by simp
  rw [e, parseIPv4, parseIPv4Loop_first a.isLt (head_cond_cons_dot _),
    parseIPv4Loop_next b.isLt (head_cond_cons_dot _) _ _ (by omega),
    parseIPv4Loop_next c.isLt (head_cond_cons_dot _) _ _ (by omega),
    parseIPv4Loop_next d.isLt head_cond_nil _ _ (by omega)]
  simp [parseIPv4Loop, byte, Nat.mod_eq_of_lt]

theorem parseIPScan_dot {ds : Str} (h : ∀ c ∈ ds, c ≠ '.' ∧ c ≠ ':') (rest s : Str) :
    parseIPScan (ds ++ '.' :: rest) s = parseIPv4 s := by
  induction ds with
  | nil => simp [parseIPScan]
  | cons c cs ih =>
    have hc := h c (List.mem_cons_self _ _)
    rw [List.cons_append]
    simp only [parseIPScan, hc.1, hc.2, if_false]
    exact ih (fun x hx => h x (List.mem_cons_of_mem _ hx))

theorem parseIPScan_colon {ds : Str} (h : ∀ c ∈ ds, c ≠ '.' ∧ c ≠ ':') (rest s : Str) :
    parseIPScan (ds ++ ':' :: rest) s = parseIPv6 s := by
  induction ds with
  | nil => simp [parseIPScan]
  | cons c cs ih =>
    have hc := h c (List.mem_cons_self _ _)
    rw [List.cons_append]
    simp only [parseIPScan, hc.1, hc.2, if_false]
    exact ih (fun x hx => h x (List.mem_cons_of_mem _ hx))

theorem uitoa_no_dot_colon (n : Nat) : ∀ c ∈ uitoa n, c ≠ '.' ∧ c ≠ ':' := by
  intro c hc
  obtain ⟨d, hd, rfl⟩ := uitoa_digits n c hc
  exact ⟨(digitChar_ne hd).2.2.2.1, (digitChar_ne hd).2.2.2.2⟩

theorem ParseIP_dotted (a b c d : Byte) :
    ParseIP (uitoa a.val ++ ['.'] ++ uitoa b.val ++ ['.'] ++ uitoa c.val ++ ['.'] ++
      uitoa d.val) = some (IPv4 a b c d) := by
  rw [ParseIP]
  have e : uitoa a.val ++ ['.'] ++ uitoa b.val ++ ['.'] ++ uitoa c.val ++ ['.'] ++ uitoa d.val
      = uitoa a.val ++ '.' :: (uitoa b.val ++ ['.'] ++ uitoa c.val ++ ['.'] ++ uitoa d.val) := by
    simp
  conv => lhs; arg 1; rw [e]
  rw [parseIPScan_dot (uitoa_no_dot_colon _)]
  exact parseIPv4_dotted a b c d

/-! ### Values of four and of sixteen bytes -/

theorem length_succ {l : List Byte} {n : Nat} (h : l.length = n + 1) :
    ∃ x t, l = x :: t ∧ t.length = n := by
  cases l with
  | nil => cases h
  | cons x t => exact ⟨x, t, rfl, by simpa using h⟩

theorem length_four {v : List Byte} (h : v.length = 4) :
    ∃ x0 x1 x2 x3 : Byte, v = [x0, x1, x2, x3] := by
  obtain ⟨x0, t0, rfl, h0⟩ := length_succ (l := v) (n := 3) h
  obtain ⟨x1, t1, rfl, h1⟩ := length_succ (l := t0) (n := 2) h0
  obtain ⟨x2, t2, rfl, h2⟩ := length_succ (l := t1) (n := 1) h1
  obtain ⟨x3, t3, rfl, h3⟩ := length_succ (l := t2) (n := 0) h2
  have hn : t3 = [] := List.length_eq_zero.mp h3
  subst hn
  exact ⟨x0, x1, x2, x3, rfl⟩

theorem length_sixteen {v : List Byte} (h : v.length = 16) :
    ∃ x0 x1 x2 x3 x4 x5 x6 x7 x8 x9 x10 x11 x12 x13 x14 x15 : Byte, v = [x0, x1, x2, x3, x4, x5, x6, x7, x8, x9, x10, x11, x12, x13, x14, x15] := by
  obtain ⟨x0, t0, rfl, h0⟩ := length_succ (l := v) (n := 15) h
  obtain ⟨x1, t1, rfl, h1⟩ := length_succ (l := t0) (n := 14) h0
  obtain ⟨x2, t2, rfl, h2⟩ := length_succ (l := t1) (n := 13) h1
  obtain ⟨x3, t3, rfl, h3⟩ := length_succ (l := t2) (n := 12) h2
  obtain ⟨x4, t4, rfl, h4⟩ := length_succ (l := t3) (n := 11) h3
  obtain ⟨x5, t5, rfl, h5⟩ := length_succ (l := t4) (n := 10) h4
  obtain ⟨x6, t6, rfl, h6⟩ := length_succ (l := t5) (n := 9) h5
  obtain ⟨x7, t7, rfl, h7⟩ := length_succ (l := t6) (n := 8) h6
  obtain ⟨x8, t8, rfl, h8⟩ := length_succ (l := t7) (n := 7) h7
  obtain ⟨x9, t9, rfl, h9⟩ := length_succ (l := t8) (n := 6) h8
  obtain ⟨x10, t10, rfl, h10⟩ := length_succ (l := t9) (n := 5) h9
  obtain ⟨x11, t11, rfl, h11⟩ := length_succ (l := t10) (n := 4) h10
  obtain ⟨x12, t12, rfl, h12⟩ := length_succ (l := t11) (n := 3) h11
  obtain ⟨x13, t13, rfl, h13⟩ := length_succ (l := t12) (n := 2) h12
  obtain ⟨x14, t14, rfl, h14⟩ := length_succ (l := t13) (n := 1) h13
  obtain ⟨x15, t15, rfl, h15⟩ := length_succ (l := t14) (n := 0) h14
  have hn : t15 = [] := List.length_eq_zero.mp h15
  subst hn
  exact ⟨x0, x1, x2, x3, x4, x5, x6, x7, x8, x9, x10, x11, x12, x13, x14, x15, rfl⟩

theorem IPString_four (a b c d : Byte) :
    IPString [a, b, c, d] = uitoa a.val ++ ['.'] ++ uitoa b.val ++ ['.'] ++ uitoa c.val ++ ['.'] ++
      uitoa d.val := by
  simp [IPString, To4]

theorem To4_IPv4 (a b c d : Byte) : To4 (some (IPv4 a b c d)) = some [a, b, c, d] := by
  rfl

theorem To16_IPv4 (a b c d : Byte) : To16 (some (IPv4 a b c d)) = some (IPv4 a b c d) := by
  rfl

theorem IPString_IPv4 (a b c d : Byte) :
    IPString (IPv4 a b c d) = uitoa a.val ++ ['.'] ++ uitoa b.val ++ ['.'] ++ uitoa c.val ++
      ['.'] ++ uitoa d.val := by
  have h : To4 (some (IPv4 a b c d)) = some [a, b, c, d] := rfl
  have hl : (IPv4 a b c d).length ≠ 0 := by simp [IPv4, v4InV6Prefix]
  simp only [IPString, hl, if_false, h]
  rfl

/-- A value of sixteen bytes that `To4` accepts is an IPv4 address behind the
twelve bytes of the prefix. -/
theorem To4_sixteen {v p4 : List Byte} (hv : v.length = 16) (h : To4 (some v) = some p4) :
    ∃ a b c d, v = IPv4 a b c d := by
  obtain ⟨x0, x1, x2, x3, x4, x5, x6, x7, x8, x9, x10, x11, x12, x13, x14, x15, rfl⟩ :=
    length_sixteen hv
  simp only [To4, List.length_cons, List.length_nil] at h
  rw [if_neg (by decide)] at h
  split at h
  · rename_i hc
    simp only [Bool.and_eq_true, decide_eq_true_eq, List.take, List.all_cons, List.all_nil,
      Bool.and_true, List.getD_cons_succ, List.getD_cons_zero] at hc
    obtain ⟨⟨⟨_, h0, h1, h2, h3, h4, h5, h6, h7, h8, h9⟩, h10⟩, h11⟩ := hc
    subst h0 h1 h2 h3 h4 h5 h6 h7 h8 h9 h10 h11
    exact ⟨x12, x13, x14, x15, rfl⟩
  · cases h

theorem dotted_no_slash (a b c d : Byte) :
    ∀ x ∈ uitoa a.val ++ ['.'] ++ uitoa b.val ++ ['.'] ++ uitoa c.val ++ ['.'] ++ uitoa d.val,
      x ≠ '/' := by
  intro x hx
  simp only [List.mem_append, List.mem_singleton] at hx
  rcases hx with ((((((h | h) | h) | h) | h) | h) | h)
  all_goals first
    | exact uitoa_no_slash _ x h
    | (rw [h]; decide)

/-! ### The IPv6 parser on printed groups -/

theorem group16_lt (ip : List Byte) (i : Nat) : group16 ip i < 65536 := by
  unfold group16
  have h1 := (ip.getD i 0).isLt
  have h2 := (ip.getD (i + 1) 0).isLt
  omega

theorem head_cond_colon (r : Str) : ∀ c, (':' :: r).head? = some c → hexVal c = none := by
  intro c h
  simp only [List.head?_cons, Option.some.injEq] at h
  subst h; decide

theorem head_cond_hex_nil : ∀ c, ([] : Str).head? = some c → hexVal c = none := by
  intro c h; cases h

/-- The last group of the text: the loop ends at the end of the text. -/
theorem parseIPv6Loop_last {g : Nat} (hg : g < 65536) (k : Nat) (w : List Byte)
    (ell : Option Nat) :
    parseIPv6Loop (k + 1) (appendHex [] g) w ell =
      some ([], w ++ [byte (g / 256), byte g], ell) := by
  have hx := xtoi_hex hg head_cond_hex_nil
  rw [List.append_nil] at hx
  have h1 : ¬ g > 0xFFFF := by omega
  simp only [parseIPv6Loop, hx, Bool.not_true, Bool.false_or, decide_eq_true_eq, h1, if_false,
    Nat.lt_irrefl, decide_False, Bool.false_and, Bool.false_eq_true, List.drop_length,
    List.length_nil, if_true]

/-- A group with a colon and more text after it. -/
theorem parseIPv6Loop_colon {g : Nat} (hg : g < 65536) {r : Str} (hr : r ≠ [])
    (hh : r.head? ≠ some ':') (k : Nat) (w : List Byte) (ell : Option Nat) :
    parseIPv6Loop (k + 1) (appendHex [] g ++ ':' :: r) w ell =
      parseIPv6Loop k r (w ++ [byte (g / 256), byte g]) ell := by
  have hx := xtoi_hex hg (head_cond_colon r)
  have h1 : ¬ g > 0xFFFF := by omega
  have hget : (appendHex [] g ++ ':' :: r).getD (appendHex [] g).length ' ' = ':' := by
    rw [List.getD_append_right _ _ _ _ (Nat.le_refl _)]
    simp
  have hlen : (':' :: r).length ≠ 1 := by
    have := List.length_pos.mpr hr
    simp only [List.length_cons]; omega
  simp only [parseIPv6Loop, hx, Bool.not_true, Bool.false_or, decide_eq_true_eq, h1, if_false,
    hget, List.drop_left, List.length_cons, Nat.add_one_ne_zero, List.head?_cons, ne_eq,
    not_true_eq_false, decide_False, Bool.false_or, List.drop_succ_cons, List.drop_zero, hh,
    Bool.and_false, Bool.false_eq_true]
  simp only [List.length_cons] at hlen
  simp [hlen]

/-- A group with the ellipsis at the end of the text after it. -/
theorem parseIPv6Loop_ellipsis_end {g : Nat} (hg : g < 65536) (k : Nat) (w : List Byte) :
    parseIPv6Loop (k + 1) (appendHex [] g ++ [':', ':']) w none =
      some ([], w ++ [byte (g / 256), byte g], some (w.length + 2)) := by
  have hx := xtoi_hex hg (head_cond_colon [':'])
  have h1 : ¬ g > 0xFFFF := by omega
  have hget : (appendHex [] g ++ [':', ':']).getD (appendHex [] g).length ' ' = ':' := by
    rw [List.getD_append_right _ _ _ _ (Nat.le_refl _)]
    simp
  simp only [parseIPv6Loop, hx, Bool.not_true, Bool.false_or, decide_eq_true_eq, h1, if_false,
    hget, List.drop_left, List.length_cons, Nat.add_one_ne_zero, List.head?_cons, ne_eq,
    not_true_eq_false, decide_False, Bool.false_or, List.drop_succ_cons, List.drop_zero,
    Bool.and_false, Bool.false_eq_true, List.length_nil, Nat.zero_add, Nat.reduceAdd,
    OfNat.ofNat_ne_one, if_true, Option.isSome_none, List.length_append]
  simp

/-- A group with the ellipsis and more text after it. -/
theorem parseIPv6Loop_ellipsis {g : Nat} (hg : g < 65536) {r : Str} (hr : r ≠ [])
    (k : Nat) (w : List Byte) :
    parseIPv6Loop (k + 1) (appendHex [] g ++ ':' :: ':' :: r) w none =
      parseIPv6Loop k r (w ++ [byte (g / 256), byte g]) (some (w.length + 2)) := by
  have hx := xtoi_hex hg (head_cond_colon (':' :: r))
  have h1 : ¬ g > 0xFFFF := by omega
  have hget : (appendHex [] g ++ ':' :: ':' :: r).getD (appendHex [] g).length ' ' = ':' := by
    rw [List.getD_append_right _ _ _ _ (Nat.le_refl _)]
    simp
  have hlen : r.length ≠ 0 := by
    have := List.length_pos.mpr hr; omega
  simp only [parseIPv6Loop, hx, Bool.not_true, Bool.false_or, decide_eq_true_eq, h1, if_false,
    hget, List.drop_left, List.length_cons, Nat.add_one_ne_zero, List.head?_cons, ne_eq,
    not_true_eq_false, decide_False, Bool.false_or, List.drop_succ_cons, List.drop_zero,
    Bool.and_false, Bool.false_eq_true, if_true, Option.isSome_none, List.length_append, hlen,
    List.length_nil]
  simp

theorem groupsText_zero (ip : List Byte) (m : Nat) : groupsText ip m 0 = [] := rfl

theorem groupsText_succ (ip : List Byte) (m n : Nat) :
    groupsText ip m (n + 1) = ':' :: (hexGroup ip m ++ groupsText ip (m + 1) n) := by
  simp [groupsText, List.range'_succ]

theorem groupBytes_zero (ip : List Byte) (m : Nat) : groupBytes ip m 0 = [] := rfl

theorem groupBytes_succ (ip : List Byte) (m n : Nat) :
    groupBytes ip m (n + 1) =
      [byte (group16 ip (2 * m) / 256), byte (group16 ip (2 * m))] ++
        groupBytes ip (m + 1) n := by
  simp [groupBytes, List.range'_succ]

theorem groupBytes_length (ip : List Byte) (m n : Nat) : (groupBytes ip m n).length = 2 * n := by
  induction n generalizing m with
  | zero => rfl
  | succ n ih => rw [groupBytes_succ, List.length_append, ih]; simp; omega

theorem hexGroup_ne_nil (ip : List Byte) (j : Nat) (x : Str) : hexGroup ip j ++ x ≠ [] := by
  have := appendHex_ne_nil (group16_lt ip (2 * j))
  unfold hexGroup
  simp [this]

theorem hexGroup_head (ip : List Byte) (j : Nat) (x : Str) :
    (hexGroup ip j ++ x).head? ≠ some ':' := by
  have hne := appendHex_ne_nil (group16_lt ip (2 * j))
  unfold hexGroup
  cases hs : appendHex [] (group16 ip (2 * j)) with
  | nil => exact absurd hs hne
  | cons c cs =>
    obtain ⟨d, hd, hc⟩ := appendHex_chars (group16_lt ip (2 * j)) c
      (by rw [hs]; exact List.mem_cons_self _ _)
    simp only [List.cons_append, List.head?_cons, ne_eq, Option.some.injEq]
    rw [hc]
    exact (hexDigit_ne d hd).2.1

/-- The parser on the text of `n + 1` groups up to the end of the text. -/
theorem parseIPv6Loop_groups (ip : List Byte) : ∀ (n j : Nat) (w : List Byte)
    (ell : Option Nat) (k : Nat), n < k →
    parseIPv6Loop k (hexGroup ip j ++ groupsText ip (j + 1) n) w ell =
      some ([], w ++ groupBytes ip j (n + 1), ell) := by
  intro n
  induction n with
  | zero =>
    intro j w ell k hk
    obtain ⟨k1, rfl⟩ : ∃ k1, k = k1 + 1 := ⟨k - 1, by omega⟩
    rw [groupsText_zero, List.append_nil, hexGroup,
      parseIPv6Loop_last (group16_lt ip _), groupBytes_succ, groupBytes_zero, List.append_nil]
  | succ n ih =>
    intro j w ell k hk
    obtain ⟨k1, rfl⟩ : ∃ k1, k = k1 + 1 := ⟨k - 1, by omega⟩
    rw [groupsText_succ]
    conv => lhs; arg 2; rw [hexGroup]
    rw [parseIPv6Loop_colon (group16_lt ip _) (hexGroup_ne_nil ip _ _) (hexGroup_head ip _ _),
      ih (j + 1) _ ell k1 (by omega), groupBytes_succ ip j (n + 1), List.append_assoc]

/-- The parser on the text of `n + 1` groups, the ellipsis and the groups from
`c` on. -/
theorem parseIPv6Loop_groups_ellipsis (ip : List Byte) (c : Nat) : ∀ (n j : Nat)
    (w : List Byte) (k : Nat), n + 1 + (8 - c) ≤ k →
    parseIPv6Loop k (hexGroup ip j ++ (groupsText ip (j + 1) n ++
        ':' :: ':' :: afterEllipsis ip c)) w none =
      some ([], w ++ (groupBytes ip j (n + 1) ++ groupBytes ip c (8 - c)),
        some (w.length + 2 * (n + 1))) := by
  intro n
  induction n with
  | zero =>
    intro j w k hk
    obtain ⟨k1, rfl⟩ : ∃ k1, k = k1 + 1 := ⟨k - 1, by omega⟩
    rw [groupsText_zero, List.nil_append, groupBytes_succ, groupBytes_zero, List.append_nil]
    by_cases hc : c ≥ 8
    · have h0 : 8 - c = 0 := by omega
      rw [afterEllipsis, if_pos hc, hexGroup, parseIPv6Loop_ellipsis_end (group16_lt ip _),
        h0, groupBytes_zero, List.append_nil]
    · have h1 : 8 - c = (7 - c) + 1 := by omega
      rw [afterEllipsis, if_neg hc, hexGroup,
        parseIPv6Loop_ellipsis (group16_lt ip _) (hexGroup_ne_nil ip _ _),
        parseIPv6Loop_groups ip (7 - c) c _ _ k1 (by omega), h1, List.append_assoc]
  | succ n ih =>
    intro j w k hk
    obtain ⟨k1, rfl⟩ : ∃ k1, k = k1 + 1 := ⟨k - 1, by omega⟩
    rw [groupsText_succ, List.cons_append, List.append_assoc]
    conv => lhs; arg 2; rw [hexGroup]
    rw [parseIPv6Loop_colon (group16_lt ip _) (hexGroup_ne_nil ip _ _) (hexGroup_head ip _ _),
      ih (j + 1) _ k1 (by omega), groupBytes_succ ip j (n + 1)]
    simp only [List.append_assoc, List.length_append, List.length_cons, List.length_nil,
      List.singleton_append, List.cons_append, List.nil_append]
    congr 3
    show some (w.length + (0 + 1 + 1) + 2 * (n + 1)) = some (w.length + 2 * (n + 1 + 1))
    congr 1
    omega

/-! ### The text `IP.String` prints -/

/-- The printing loop from group `m` on, when no ellipsis is still to come. -/
theorem printIPv6Loop_plain (ip : List Byte) (e0 e1 : Int) : ∀ (fuel m : Nat) (b : Str),
    1 ≤ m → m ≤ 8 → 8 - m ≤ fuel → (∀ m1, m ≤ m1 → ((2 * m1 : Nat) : Int) ≠ e0) →
    printIPv6Loop ip e0 e1 fuel (2 * m) b = b ++ groupsText ip m (8 - m) := by
  intro fuel
  induction fuel with
  | zero =>
    intro m b _ h8 hf _
    have hm : 8 - m = 0 := by omega
    simp [printIPv6Loop, hm, groupsText_zero]
  | succ f ih =>
    intro m b h1 h8 hf he
    by_cases hm : m = 8
    · subst hm
      simp [printIPv6Loop, groupsText_zero]
    · have hlt : 2 * m < 16 := by omega
      have hne : ((2 * m : Nat) : Int) ≠ e0 := he m (Nat.le_refl _)
      have hpos : 2 * m > 0 := by omega
      have hstep : 2 * m + 2 = 2 * (m + 1) := by omega
      have hcnt : 8 - m = (8 - (m + 1)) + 1 := by omega
      simp only [printIPv6Loop, hlt, if_true, hne, if_false, hpos]
      rw [hstep, ih (m + 1) _ (by omega) (by omega) (by omega)
        (fun m1 hm1 => he m1 (by omega)), appendHex_eq, hcnt, groupsText_succ, hexGroup]
      simp

/-- The printing loop from group `m` on, with the ellipsis for the groups `a`
to `c` still to come. -/
theorem printIPv6Loop_ellipsis (ip : List Byte) (a c : Nat) (hac : a < c) (hc : c ≤ 8) :
    ∀ (d fuel m : Nat) (b : Str), 1 ≤ m → m + d = a → 8 - m ≤ fuel →
    printIPv6Loop ip ((2 * a : Nat) : Int) ((2 * c : Nat) : Int) fuel (2 * m) b =
      b ++ (groupsText ip m d ++ ':' :: ':' :: afterEllipsis ip c) := by
  intro d
  induction d with
  | zero =>
    intro fuel m b h1 hma hf
    have hm : m = a := by omega
    subst hm
    obtain ⟨f, rfl⟩ : ∃ f, fuel = f + 1 := ⟨fuel - 1, by omega⟩
    have hlt : 2 * m < 16 := by omega
    simp only [printIPv6Loop, hlt, if_true, Int.toNat_ofNat, groupsText_zero, List.nil_append]
    by_cases h8 : c ≥ 8
    · have : 2 * c ≥ 16 := by omega
      simp [this, afterEllipsis, h8]
    · have hn : ¬ 2 * c ≥ 16 := by omega
      have hstep : 2 * c + 2 = 2 * (c + 1) := by omega
      have hcnt : 8 - (c + 1) = 7 - c := by omega
      simp only [hn, if_false, afterEllipsis, h8]
      rw [hstep, printIPv6Loop_plain ip _ _ f (c + 1) _ (by omega) (by omega) (by omega)
        (fun m1 hm1 => by omega), appendHex_eq, hcnt, hexGroup]
      simp
  | succ d ih =>
    intro fuel m b h1 hma hf
    obtain ⟨f, rfl⟩ : ∃ f, fuel = f + 1 := ⟨fuel - 1, by omega⟩
    have hlt : 2 * m < 16 := by omega
    have hne : ((2 * m : Nat) : Int) ≠ ((2 * a : Nat) : Int) := by omega
    have hpos : 2 * m > 0 := by omega
    have hstep : 2 * m + 2 = 2 * (m + 1) := by omega
    simp only [printIPv6Loop, hlt, if_true, hne, if_false, hpos]
    rw [hstep, ih f (m + 1) _ (by omega) (by omega) (by omega), appendHex_eq, groupsText_succ,
      hexGroup]
    simp

theorem printIPv6_plain_fuel (ip : List Byte) (e1 : Int) (f : Nat) (hf : 7 ≤ f) :
    printIPv6Loop ip (-1) e1 (f + 1) 0 [] = hexGroup ip 0 ++ groupsText ip 1 7 := by
  have h := printIPv6Loop_plain ip (-1) e1 f 1 (appendHex [] (group16 ip 0)) (by omega)
    (by omega) (by omega) (fun m1 _ => by omega)
  have hne : ¬ ((0 : Nat) : Int) = -1 := by omega
  simp only [printIPv6Loop, Nat.ofNat_pos, if_true, hne, if_false, Nat.lt_irrefl]
  simpa [hexGroup] using h

theorem printIPv6_plain (ip : List Byte) (e1 : Int) :
    printIPv6Loop ip (-1) e1 8 0 [] = hexGroup ip 0 ++ groupsText ip 1 7 :=
  printIPv6_plain_fuel ip e1 7 (Nat.le_refl _)

theorem printIPv6_ellipsis_zero_fuel (ip : List Byte) (c : Nat) (hc0 : 0 < c) (hc : c ≤ 8)
    (f : Nat) (hf : 7 ≤ f) :
    printIPv6Loop ip ((2 * 0 : Nat) : Int) ((2 * c : Nat) : Int) (f + 1) 0 [] =
      ':' :: ':' :: afterEllipsis ip c := by
  simp only [printIPv6Loop, Int.toNat_ofNat]
  by_cases h8 : c ≥ 8
  · have : 2 * c ≥ 16 := by omega
    simp [this, afterEllipsis, h8]
  · have hn : ¬ 2 * c ≥ 16 := by omega
    have hstep : 2 * c + 2 = 2 * (c + 1) := by omega
    have hcnt : 8 - (c + 1) = 7 - c := by omega
    simp only [Nat.mul_zero, Nat.cast_zero, Nat.ofNat_pos, if_true, hn, if_false, afterEllipsis,
      h8, List.nil_append]
    rw [hstep, printIPv6Loop_plain ip _ _ f (c + 1) _ (by omega) (by omega) (by omega)
      (fun m1 hm1 => by omega), appendHex_eq, hcnt, hexGroup]
    simp

theorem printIPv6_ellipsis_zero (ip : List Byte) (c : Nat) (hc0 : 0 < c) (hc : c ≤ 8) :
    printIPv6Loop ip ((2 * 0 : Nat) : Int) ((2 * c : Nat) : Int) 8 0 [] =
      ':' :: ':' :: afterEllipsis ip c :=
  printIPv6_ellipsis_zero_fuel ip c hc0 hc 7 (Nat.le_refl _)

theorem printIPv6_ellipsis_pos_fuel (ip : List Byte) (a c : Nat) (ha : 1 ≤ a) (hac : a < c)
    (hc : c ≤ 8) (f : Nat) (hf : 7 ≤ f) :
    printIPv6Loop ip ((2 * a : Nat) : Int) ((2 * c : Nat) : Int) (f + 1) 0 [] =
      hexGroup ip 0 ++ (groupsText ip 1 (a - 1) ++ ':' :: ':' :: afterEllipsis ip c) := by
  have h := printIPv6Loop_ellipsis ip a c hac hc (a - 1) f 1 (appendHex [] (group16 ip 0))
    (by omega) (by omega) (by omega)
  have hne : ¬ ((0 : Nat) : Int) = ((2 * a : Nat) : Int) := by omega
  simp only [printIPv6Loop, Nat.lt_irrefl, if_false, Nat.ofNat_pos, if_true, hne]
  simpa [hexGroup] using h

theorem printIPv6_ellipsis_pos (ip : List Byte) (a c : Nat) (ha : 1 ≤ a) (hac : a < c)
    (hc : c ≤ 8) :
    printIPv6Loop ip ((2 * a : Nat) : Int) ((2 * c : Nat) : Int) 8 0 [] =
      hexGroup ip 0 ++ (groupsText ip 1 (a - 1) ++ ':' :: ':' :: afterEllipsis ip c) :=
  printIPv6_ellipsis_pos_fuel ip a c ha hac hc 7 (Nat.le_refl _)

/-! ### The bytes of the groups -/

theorem byte_hi (x y : Byte) : byte ((x.val * 256 + y.val) / 256) = x := by
  apply Fin.ext
  simp only [byte]
  have := x.isLt
  have := y.isLt
  omega

theorem byte_lo (x y : Byte) : byte (x.val * 256 + y.val) = y := by
  apply Fin.ext
  simp only [byte]
  have := x.isLt
  have := y.isLt
  omega

theorem groupBytes_eq (ip : List Byte) : ∀ (n m : Nat), 2 * (m + n) ≤ ip.length →
    groupBytes ip m n = (ip.drop (2 * m)).take (2 * n) := by
  intro n
  induction n with
  | zero => intro m _; simp [groupBytes_zero]
  | succ n ih =>
    intro m h
    have h0 : 2 * m < ip.length := by omega
    have h1 : 2 * m + 1 < ip.length := by omega
    rw [groupBytes_succ, ih (m + 1) (by omega), List.drop_eq_getElem_cons h0,
      List.drop_eq_getElem_cons h1]
    have e : 2 * (n + 1) = (2 * n + 1) + 1 := by omega
    rw [e, List.take_succ_cons, List.take_succ_cons, group16, List.getD_eq_getElem _ _ h0,
      List.getD_eq_getElem _ _ h1, byte_hi, byte_lo]
    have e2 : 2 * (m + 1) = 2 * m + 1 + 1 := by omega
    rw [e2]
    rfl

theorem zeros_eq_replicate (ip : List Byte) (a c : Nat) (hac : a ≤ c) (hc : 2 * c ≤ ip.length)
    (hz : ∀ j, 2 * a ≤ j → j < 2 * c → ip.getD j 0 = 0) :
    (ip.drop (2 * a)).take (2 * (c - a)) = List.replicate (2 * (c - a)) 0 := by
  apply List.ext_getElem
  · simp only [List.length_take, List.length_drop, List.length_replicate]
    omega
  · intro i h1 h2
    simp only [List.length_take, List.length_drop] at h1
    simp only [List.getElem_take, List.getElem_drop, List.getElem_replicate]
    have := hz (2 * a + i) (by omega) (by omega)
    rwa [List.getD_eq_getElem _ _ (by omega)] at this

/-- An address of sixteen bytes with zero bytes from group `a` up to group `c`
is the bytes of the groups before `a`, the zero bytes, and the bytes of the
groups from `c` on. -/
theorem sixteen_split (ip : List Byte) (h16 : ip.length = 16) (a c : Nat) (hac : a ≤ c)
    (hc : c ≤ 8) (hz : ∀ j, 2 * a ≤ j → j < 2 * c → ip.getD j 0 = 0) :
    groupBytes ip 0 a ++ List.replicate (2 * (c - a)) 0 ++ groupBytes ip c (8 - c) = ip := by
  rw [groupBytes_eq ip a 0 (by omega), groupBytes_eq ip (8 - c) c (by omega),
    ← zeros_eq_replicate ip a c hac (by omega) hz]
  have e1 : (ip.drop (2 * c)).take (2 * (8 - c)) = ip.drop (2 * c) :=
    List.take_of_length_le (by rw [List.length_drop]; omega)
  have e2 : ip.drop (2 * c) = (ip.drop (2 * a)).drop (2 * (c - a)) := by
    rw [List.drop_drop]; congr 1; omega
  rw [e1, e2, List.append_assoc, List.take_append_drop]
  simp

theorem groupBytes_all (ip : List Byte) (h16 : ip.length = 16) : groupBytes ip 0 8 = ip := by
  rw [groupBytes_eq ip 8 0 (by omega)]
  simp only [Nat.mul_zero, List.drop_zero]
  exact List.take_of_length_le (by omega)

/-! ### The longest run of zero groups -/

theorem zeroRunEnd_spec (ip : List Byte) : ∀ (fuel m : Nat),
    ∃ c, zeroRunEnd ip fuel (2 * m) = 2 * c ∧ m ≤ c ∧ (m ≤ 8 → c ≤ 8) ∧
      ∀ j, 2 * m ≤ j → j < 2 * c → ip.getD j 0 = 0 := by
  intro fuel
  induction fuel with
  | zero => intro m; exact ⟨m, rfl, Nat.le_refl _, fun h => h, fun j h1 h2 => by omega⟩
  | succ f ih =>
    intro m
    simp only [zeroRunEnd]
    split
    · rename_i hc
      simp only [Bool.and_eq_true, decide_eq_true_eq] at hc
      obtain ⟨c, h1, h2, h3, h4⟩ := ih (m + 1)
      have e : 2 * m + 2 = 2 * (m + 1) := by omega
      refine ⟨c, by rw [e, h1], by omega, fun _ => h3 (by omega), fun j hj1 hj2 => ?_⟩
      by_cases hj : j = 2 * m
      · rw [hj]; exact hc.1.2
      · by_cases hj' : j = 2 * m + 1
        · rw [hj']; exact hc.2
        · exact h4 j (by omega) hj2
    · exact ⟨m, rfl, Nat.le_refl _, fun h => h, fun j h1 h2 => by omega⟩

theorem longestRun_spec (ip : List Byte) : ∀ (fuel m : Nat) (e0 e1 : Int),
    ZeroRun ip e0 e1 →
    ZeroRun ip (longestRun ip fuel (2 * m) e0 e1).1 (longestRun ip fuel (2 * m) e0 e1).2 := by
  intro fuel
  induction fuel with
  | zero => intro m e0 e1 h; exact h
  | succ f ih =>
    intro m e0 e1 h
    simp only [longestRun]
    split
    · rename_i hlt
      obtain ⟨c, h1, h2, h3, h4⟩ := zeroRunEnd_spec ip 8 m
      rw [h1]
      split
      · rename_i hc
        simp only [Bool.and_eq_true, decide_eq_true_eq] at hc
        have e : 2 * c + 2 = 2 * (c + 1) := by omega
        rw [e]
        exact ih (c + 1) _ _ (Or.inr ⟨m, c, rfl, rfl, by omega, h3 (by omega), h4⟩)
      · have e : 2 * m + 2 = 2 * (m + 1) := by omega
        rw [e]
        exact ih (m + 1) _ _ h
    · exact h

/-! ### IP.String and ParseIP on sixteen bytes -/

theorem hexGroup_chars (ip : List Byte) (j : Nat) :
    ∀ c ∈ hexGroup ip j, c ≠ '/' ∧ c ≠ ':' ∧ c ≠ '.' := by
  intro c hc
  obtain ⟨d, hd, rfl⟩ := appendHex_chars (group16_lt ip (2 * j)) c hc
  exact hexDigit_ne d hd

theorem groupsText_no_slash (ip : List Byte) : ∀ (n m : Nat), ∀ c ∈ groupsText ip m n,
    c ≠ '/' := by
  intro n
  induction n with
  | zero => intro m c hc; simp [groupsText_zero] at hc
  | succ n ih =>
    intro m c hc
    rw [groupsText_succ] at hc
    simp only [List.mem_cons, List.mem_append] at hc
    rcases hc with h | h | h
    · rw [h]; decide
    · exact (hexGroup_chars ip m c h).1
    · exact ih _ c h

theorem afterEllipsis_no_slash (ip : List Byte) (c : Nat) : ∀ x ∈ afterEllipsis ip c, x ≠ '/' := by
  intro x hx
  unfold afterEllipsis at hx
  split at hx
  · simp at hx
  · rcases List.mem_append.mp hx with h | h
    · exact (hexGroup_chars ip c x h).1
    · exact groupsText_no_slash ip _ _ x h

/-- The three shapes of the text of an address of sixteen bytes that is not an
IPv4 address: all eight groups, or an ellipsis for the zero groups `a` up to
`c`, at the start or after some groups. -/
theorem IPString_sixteen (ip : List Byte) (h16 : ip.length = 16) (h4 : To4 (some ip) = none) :
    IPString ip = hexGroup ip 0 ++ groupsText ip 1 7 ∨
      ∃ a c : Nat, a < c ∧ c ≤ 8 ∧ (∀ j, 2 * a ≤ j → j < 2 * c → ip.getD j 0 = 0) ∧
        ((a = 0 ∧ IPString ip = ':' :: ':' :: afterEllipsis ip c) ∨
          (1 ≤ a ∧ IPString ip =
            hexGroup ip 0 ++ (groupsText ip 1 (a - 1) ++ ':' :: ':' :: afterEllipsis ip c))) := by
  have hl : ip.length ≠ 0 := by omega
  have hrun := longestRun_spec ip 8 0 (-1) (-1) (Or.inl ⟨rfl, rfl⟩)
  rw [Nat.mul_zero] at hrun
  have hl16 : ¬ ip.length ≠ 16 := by omega
  rw [IPString, if_neg hl]
  simp only [h4]
  rw [if_neg hl16]
  cases hlr : longestRun ip 8 0 (-1) (-1) with
  | mk e0 e1 =>
    rw [hlr] at hrun
    simp only at hrun ⊢
    by_cases hgt : e1 - e0 ≤ 2
    · rw [if_pos hgt]
      exact Or.inl (printIPv6_plain ip _)
    · rw [if_neg hgt]
      rcases hrun with ⟨h0, h1⟩ | ⟨a, c, h0, h1, hac, hc, hz⟩
      · rw [h0, h1] at hgt; omega
      · subst h0 h1
        refine Or.inr ⟨a, c, hac, hc, hz, ?_⟩
        by_cases ha : a = 0
        · subst ha
          exact Or.inl ⟨rfl, printIPv6_ellipsis_zero ip c hac hc⟩
        · exact Or.inr ⟨by omega, printIPv6_ellipsis_pos ip a c (by omega) hac hc⟩

theorem parseIPv6_leading {r : Str} (hr : r ≠ []) :
    parseIPv6 (':' :: ':' :: r) = (parseIPv6Loop 8 r [] (some 0)).bind parseIPv6Finish := by
  have hlen : r.length ≠ 0 := fun h0 => hr (List.length_eq_zero.mp h0)
  simp only [parseIPv6, List.length_cons, List.head?_cons, List.drop_succ_cons, List.drop_zero,
    ge_iff_le, Nat.le_add_left, decide_True, Bool.and_self, if_true, Option.isSome_some,
    Bool.true_and, decide_eq_true_eq, hlen, if_false]

theorem parseIPv6_leading_only : parseIPv6 [':', ':'] = some (List.replicate 16 0) := by
  decide

theorem parseIPv6_not_leading {s : Str} (h : s.head? ≠ some ':') :
    parseIPv6 s = (parseIPv6Loop 8 s [] none).bind parseIPv6Finish := by
  simp only [parseIPv6, h, decide_False, Bool.and_false, Bool.false_and, Bool.false_eq_true,
    if_false, Option.isSome_none]

theorem parseIPv6Finish_full {w : List Byte} (h : w.length = 16) :
    parseIPv6Finish ([], w, none) = some w := by
  simp [parseIPv6Finish, h]

theorem parseIPv6Finish_ellipsis {w : List Byte} (h : w.length < 16) (e : Nat) :
    parseIPv6Finish ([], w, some e) =
      some (w.take e ++ List.replicate (16 - w.length) 0 ++ w.drop e) := by
  simp [parseIPv6Finish, h]

theorem parseIPv6_plain (ip : List Byte) (h16 : ip.length = 16) :
    parseIPv6 (hexGroup ip 0 ++ groupsText ip 1 7) = some ip := by
  rw [parseIPv6_not_leading (hexGroup_head ip 0 _),
    parseIPv6Loop_groups ip 7 0 [] none 8 (by omega), Option.some_bind, List.nil_append,
    parseIPv6Finish_full (groupBytes_length ip 0 8), groupBytes_all ip h16]

theorem parseIPv6_ellipsis_zero (ip : List Byte) (h16 : ip.length = 16) (c : Nat)
    (hc0 : 0 < c) (hc : c ≤ 8) (hz : ∀ j, 2 * 0 ≤ j → j < 2 * c → ip.getD j 0 = 0) :
    parseIPv6 (':' :: ':' :: afterEllipsis ip c) = some ip := by
  have hsplit := sixteen_split ip h16 0 c (by omega) hc hz
  rw [groupBytes_zero, List.nil_append, Nat.sub_zero] at hsplit
  by_cases h8 : c ≥ 8
  · have hc8 : c = 8 := by omega
    subst hc8
    rw [Nat.sub_self, groupBytes_zero, List.append_nil] at hsplit
    rw [afterEllipsis, if_pos h8, parseIPv6_leading_only, ← hsplit]
  · have hcnt : 7 - c + 1 = 8 - c := by omega
    have hwl : (groupBytes ip c (8 - c)).length < 16 := by
      rw [groupBytes_length]; omega
    have hrep : 16 - (groupBytes ip c (8 - c)).length = 2 * c := by
      rw [groupBytes_length]; omega
    rw [afterEllipsis, if_neg h8, parseIPv6_leading (hexGroup_ne_nil ip c _),
      parseIPv6Loop_groups ip (7 - c) c [] (some 0) 8 (by omega), Option.some_bind,
      List.nil_append, hcnt, parseIPv6Finish_ellipsis hwl, hrep, List.take_zero, List.drop_zero,
      List.nil_append, hsplit]

theorem parseIPv6_ellipsis_pos (ip : List Byte) (h16 : ip.length = 16) (a c : Nat)
    (ha : 1 ≤ a) (hac : a < c) (hc : c ≤ 8)
    (hz : ∀ j, 2 * a ≤ j → j < 2 * c → ip.getD j 0 = 0) :
    parseIPv6 (hexGroup ip 0 ++ (groupsText ip 1 (a - 1) ++ ':' :: ':' :: afterEllipsis ip c)) =
      some ip := by
  have hsplit := sixteen_split ip h16 a c (by omega) hc hz
  have hcnt : a - 1 + 1 = a := by omega
  have hwl : (groupBytes ip 0 a ++ groupBytes ip c (8 - c)).length < 16 := by
    rw [List.length_append, groupBytes_length, groupBytes_length]; omega
  have hrep : 16 - (groupBytes ip 0 a ++ groupBytes ip c (8 - c)).length = 2 * (c - a) := by
    rw [List.length_append, groupBytes_length, groupBytes_length]; omega
  have htake : (groupBytes ip 0 a ++ groupBytes ip c (8 - c)).take (2 * a) = groupBytes ip 0 a :=
    List.take_left' (groupBytes_length ip 0 a)
  have hdrop : (groupBytes ip 0 a ++ groupBytes ip c (8 - c)).drop (2 * a) =
      groupBytes ip c (8 - c) := List.drop_left' (groupBytes_length ip 0 a)
  rw [parseIPv6_not_leading (hexGroup_head ip 0 _),
    parseIPv6Loop_groups_ellipsis ip c (a - 1) 0 [] 8 (by omega), Option.some_bind,
    List.nil_append, hcnt, List.length_nil, Nat.zero_add, parseIPv6Finish_ellipsis hwl, hrep,
    htake, hdrop, hsplit]

/-- Text and back for an address of sixteen bytes that is not an IPv4
address. -/
theorem ParseIP_IPString_sixteen (ip : List Byte) (h16 : ip.length = 16)
    (h4 : To4 (some ip) = none) : ParseIP (IPString ip) = some ip := by
  rcases IPString_sixteen ip h16 h4 with h | ⟨a, c, hac, hc, hz, ⟨ha, h⟩ | ⟨ha, h⟩⟩
  · rw [h, ParseIP]
    conv => lhs; arg 1; rw [show groupsText ip 1 7 = groupsText ip 1 (6 + 1) from rfl,
      groupsText_succ]
    rw [parseIPScan_colon (fun x hx => ⟨(hexGroup_chars ip 0 x hx).2.2,
      (hexGroup_chars ip 0 x hx).2.1⟩)]
    exact parseIPv6_plain ip h16
  · subst ha
    rw [h, ParseIP]
    simp only [parseIPScan, Char.reduceEq, if_false, if_true]
    exact parseIPv6_ellipsis_zero ip h16 c hac hc hz
  · rw [h, ParseIP]
    have hrest : ∃ r, groupsText ip 1 (a - 1) ++ ':' :: ':' :: afterEllipsis ip c = ':' :: r := by
      cases hn : a - 1 with
      | zero => exact ⟨_, by rw [groupsText_zero]; rfl⟩
      | succ n => exact ⟨_, by rw [groupsText_succ]; rfl⟩
    obtain ⟨r, hr⟩ := hrest
    conv => lhs; arg 1; rw [hr]
    rw [parseIPScan_colon (fun x hx => ⟨(hexGroup_chars ip 0 x hx).2.2,
      (hexGroup_chars ip 0 x hx).2.1⟩)]
    exact parseIPv6_ellipsis_pos ip h16 a c ha hac hc hz

theorem IPString_sixteen_no_slash (ip : List Byte) (h16 : ip.length = 16)
    (h4 : To4 (some ip) = none) : IPString ip ≠ [] ∧ ∀ x ∈ IPString ip, x ≠ '/' := by
  rcases IPString_sixteen ip h16 h4 with h | ⟨a, c, _, _, _, ⟨_, h⟩ | ⟨_, h⟩⟩
  · rw [h]
    refine ⟨hexGroup_ne_nil ip 0 _, fun x hx => ?_⟩
    rcases List.mem_append.mp hx with h1 | h1
    · exact (hexGroup_chars ip 0 x h1).1
    · exact groupsText_no_slash ip _ _ x h1
  · rw [h]
    refine ⟨by simp, fun x hx => ?_⟩
    simp only [List.mem_cons] at hx
    rcases hx with h1 | h1 | h1
    · rw [h1]; decide
    · rw [h1]; decide
    · exact afterEllipsis_no_slash ip c x h1
  · rw [h]
    refine ⟨hexGroup_ne_nil ip 0 _, fun x hx => ?_⟩
    simp only [List.mem_cons, List.mem_append] at hx
    rcases hx with h1 | h1 | h1 | h1 | h1
    · exact (hexGroup_chars ip 0 x h1).1
    · exact groupsText_no_slash ip _ _ x h1
    · rw [h1]; decide
    · rw [h1]; decide
    · exact afterEllipsis_no_slash ip c x h1

/-! ### Values: bytes to text to bytes -/

theorem length_two {v : List Byte} (h : v.length = 2) : ∃ x0 x1 : Byte, v = [x0, x1] := by
  obtain ⟨x0, t0, rfl, h0⟩ := length_succ (l := v) (n := 1) h
  obtain ⟨x1, t1, rfl, h1⟩ := length_succ (l := t0) (n := 0) h0
  have hn : t1 = [] := List.length_eq_zero.mp h1
  subst hn
  exact ⟨x0, x1, rfl⟩

theorem value_ip4 {p : Protocol} (hc : p.Code = P_IP4) {v : List Byte} (hv : v.length = 4) :
    addressStringToBytes p (addressBytesToString p v) = .ok v ∧
      addressBytesToString p v ≠ [] ∧ ∀ c ∈ addressBytesToString p v, c ≠ '/' := by
  obtain ⟨a, b, c, d, rfl⟩ := length_four hv
  have h1 : addressBytesToString p [a, b, c, d] = uitoa a.val ++ ['.'] ++ uitoa b.val ++ ['.'] ++
      uitoa c.val ++ ['.'] ++ uitoa d.val := by
    simp only [addressBytesToString, hc, true_or, if_true, IPString_four]
  rw [h1]
  refine ⟨?_, ?_, dotted_no_slash a b c d⟩
  · simp only [addressStringToBytes, hc, if_true, ParseIP_dotted, To4_IPv4]
  · simp

theorem value_ip6 {p : Protocol} (hc : p.Code = P_IP6) {v : List Byte} (hv : v.length = 16) :
    addressStringToBytes p (addressBytesToString p v) = .ok v ∧
      addressBytesToString p v ≠ [] ∧ ∀ c ∈ addressBytesToString p v, c ≠ '/' := by
  have hne : p.Code ≠ P_IP4 := by rw [hc]; decide
  have hne2 : ¬ P_IP6 = P_IP4 := by decide
  have h1 : addressBytesToString p v = IPString v := by
    simp only [addressBytesToString, hc, or_true, if_true]
  rw [h1]
  cases h4 : To4 (some v) with
  | some p4 =>
    obtain ⟨a, b, c, d, rfl⟩ := To4_sixteen hv h4
    rw [IPString_IPv4]
    refine ⟨?_, ?_, dotted_no_slash a b c d⟩
    · simp only [addressStringToBytes, hc, hne2, if_false, if_true, ParseIP_dotted, To16_IPv4]
    · simp
  | none =>
    have h16 : To16 (some v) = some v := by
      simp [To16, hv]
    refine ⟨?_, (IPString_sixteen_no_slash v hv h4).1, (IPString_sixteen_no_slash v hv h4).2⟩
    simp only [addressStringToBytes, hc, hne2, if_false, if_true,
      ParseIP_IPString_sixteen v hv h4, h16]

theorem value_port {p : Protocol}
    (hport : p.Code = P_TCP ∨ p.Code = P_UDP ∨ p.Code = P_DCCP ∨ p.Code = P_SCTP)
    {v : List Byte} (hv : v.length = 2) :
    addressStringToBytes p (addressBytesToString p v) = .ok v ∧
      addressBytesToString p v ≠ [] ∧ ∀ c ∈ addressBytesToString p v, c ≠ '/' := by
  obtain ⟨hi, lo, rfl⟩ := length_two hv
  have hn : hi.val * 256 + lo.val < 65536 := by
    have := hi.isLt
    have := lo.isLt
    omega
  have hput : putUint16 (hi.val * 256 + lo.val) = [hi, lo] := by
    simp only [putUint16, byte_hi, byte_lo]
  have h1 := addressBytesToString_port hport hn
  rw [hput] at h1
  rw [h1]
  refine ⟨?_, uitoa_ne_nil _, uitoa_no_slash _⟩
  rw [addressStringToBytes_port hport hn, hput]

/-- Every value of the right length is read back from its text, and the text
is not empty and has no slash. -/
theorem value_round_trip {p : Protocol} (hp : p ∈ Protocols) {v : List Byte}
    (hv : v.length = p.Size / 8) :
    addressStringToBytes p (addressBytesToString p v) = .ok v ∧
      addressBytesToString p v ≠ [] ∧ ∀ c ∈ addressBytesToString p v, c ≠ '/' := by
  simp only [Protocols, List.mem_cons, List.mem_singleton, List.not_mem_nil, or_false] at hp
  rcases hp with rfl | rfl | rfl | rfl | rfl | rfl
  · exact value_ip4 rfl hv
  · exact value_port (Or.inl rfl) hv
  · exact value_port (Or.inr (Or.inl rfl)) hv
  · exact value_port (Or.inr (Or.inr (Or.inl rfl))) hv
  · exact value_ip6 rfl hv
  · exact value_port (Or.inr (Or.inr (Or.inr rfl))) hv

/-! ### Bytes to text to bytes -/

theorem Split_tokens : ∀ (sp : List Str) (tok : Str),
    (∀ c ∈ tok, c ≠ '/') → (∀ t ∈ sp, ∀ c ∈ t, c ≠ '/') →
    Split (tok ++ sp.flatMap (fun t => '/' :: t)) '/' = tok :: sp := by
  intro sp
  induction sp with
  | nil => intro tok h _; simpa using Split_no_sep h
  | cons t2 rest ih =>
    intro tok h hs
    rw [List.flatMap_cons, List.cons_append, Split_append_sep h,
      ih t2 (hs t2 (List.mem_cons_self _ _)) (fun t ht => hs t (List.mem_cons_of_mem _ ht))]

theorem TrimRight_tokens (sp : List Str)
    (h : ∀ t ∈ sp, t ≠ [] ∧ ∀ c ∈ t, c ≠ '/') :
    TrimRight (sp.flatMap (fun t => '/' :: t)) ['/'] = sp.flatMap (fun t => '/' :: t) := by
  rcases List.eq_nil_or_concat sp with rfl | ⟨init, last, rfl⟩
  · rfl
  · have hl := h last (by simp)
    have e : (init ++ [last]).flatMap (fun t => '/' :: t) =
        (init.flatMap (fun t => '/' :: t) ++ ['/']) ++ last := by simp
    rw [List.concat_eq_append, e]
    exact TrimRight_append_of_no_slash _ hl.1 hl.2

theorem name_ne_nil {p : Protocol} (hp : p ∈ Protocols) : p.Name ≠ [] := by
  simp only [Protocols, List.mem_cons, List.mem_singleton, List.not_mem_nil, or_false] at hp
  rcases hp with rfl | rfl | rfl | rfl | rfl | rfl <;> decide

/-- The tokens of a valid address: its text is these tokens, each after a
slash, and `stringToBytes` turns them back into the address. -/
theorem valid_tokens {b : List Byte} (hb : ValidAddress b) :
    ∃ sp : List Str, (∀ t ∈ sp, t ≠ [] ∧ ∀ c ∈ t, c ≠ '/') ∧
      (∀ (spare : List Byte) (s : Str) (fuel : Nat), b.length ≤ fuel →
        bytesToStringLoop spare fuel b s = .ret (s ++ sp.flatMap (fun t => '/' :: t)) none) ∧
      (∀ b0, stringToBytesLoop sp b0 = .ret (b0 ++ b) none) := by
  induction hb with
  | nil =>
    refine ⟨[], fun t ht => absurd ht (List.not_mem_nil t), fun spare s fuel _ => ?_,
      fun b0 => ?_⟩
    · rw [bytesToStringLoop_nil]; simp
    · simp [stringToBytesLoop]
  | cons p v rest hp hv _ ih =>
    obtain ⟨sp, h1, h2, h3⟩ := ih
    obtain ⟨hval, hne, hslash⟩ := value_round_trip hp hv
    refine ⟨p.Name :: addressBytesToString p v :: sp, ?_, ?_, ?_⟩
    · intro t ht
      simp only [List.mem_cons] at ht
      rcases ht with rfl | rfl | ht
      · exact ⟨name_ne_nil hp, name_no_slash hp⟩
      · exact ⟨hne, hslash⟩
      · exact h1 t ht
    · intro spare s fuel hf
      have hn := (ReadVarintCode_bounds (ReadVarintCode_CodeToVarint hp [])).1
      obtain ⟨g, rfl⟩ : ∃ g, fuel = g + 1 :=
        ⟨fuel - 1, by simp only [List.length_append, List.length_nil] at hf hn; omega⟩
      have hpos : (addressBytesToString p v).length > 0 := List.length_pos.mpr hne
      rw [bytesToStringLoop_front spare hp v rest hv s g, h2 spare _ g
        (by simp only [List.length_append, List.length_nil] at hf hn; omega)]
      simp only [hpos, if_true, List.flatMap_cons, List.append_assoc, List.cons_append]
    · intro b0
      rw [stringToBytesLoop_front hp hval, h3]
      simp

/-- C1. Bytes to text to bytes: for every valid binary address `b` (segments of
the varint of a registry code followed by exactly `size/8` bytes),
`bytesToString` succeeds with some text, and `stringToBytes` of that text
succeeds and returns exactly `b`. -/
theorem bytes_round_trip (b : List Byte) (hb : ValidAddress b) (spare : List Byte) :
    ∃ t, bytesToString b spare = .ret t none ∧ stringToBytes t = .ret b none := by
  obtain ⟨sp, h1, h2, h3⟩ := valid_tokens hb
  refine ⟨sp.flatMap (fun t => '/' :: t), ?_, ?_⟩
  · rw [bytesToString, h2 spare [] _ (Nat.le_refl _)]
    rfl
  · have hsplit : Split (sp.flatMap (fun t => '/' :: t)) '/' = [] :: sp := by
      have := Split_tokens sp [] (fun c hc => absurd hc (List.not_mem_nil c))
        (fun t ht => (h1 t ht).2)
      cases sp with
      | nil => rfl
      | cons t0 rest =>
        rw [List.flatMap_cons, List.cons_append]
        have h0 : Split ([] ++ '/' :: (t0 ++ rest.flatMap (fun t => '/' :: t))) '/' =
            [] :: Split (t0 ++ rest.flatMap (fun t => '/' :: t)) '/' :=
          Split_append_sep (fun c hc => absurd hc (List.not_mem_nil c)) _
        rw [List.nil_append] at h0
        rw [h0, Split_tokens rest t0 (h1 t0 (List.mem_cons_self _ _)).2
          (fun t ht => (h1 t (List.mem_cons_of_mem _ ht)).2)]
    simp only [stringToBytes, TrimRight_tokens sp h1, hsplit, ne_eq, not_true_eq_false,
      if_false, h3, List.nil_append]

theorem bytes_round_trip_witness :
    ValidAddress [4, 127, 0, 0, 1, 6, 0, 80] ∧
      ∃ t, bytesToString [4, 127, 0, 0, 1, 6, 0, 80] [] = .ret t none ∧
        stringToBytes t = .ret [4, 127, 0, 0, 1, 6, 0, 80] none :=
  ⟨ValidAddress.cons ⟨4, 32, "ip4".toList⟩ [127, 0, 0, 1] [6, 0, 80] (by decide) (by decide)
      (ValidAddress.cons ⟨6, 16, "tcp".toList⟩ [0, 80] [] (by decide) (by decide) .nil),
    bytes_round_trip [4, 127, 0, 0, 1, 6, 0, 80]
      (ValidAddress.cons ⟨4, 32, "ip4".toList⟩ [127, 0, 0, 1] [6, 0, 80] (by decide) (by decide)
        (ValidAddress.cons ⟨6, 16, "tcp".toList⟩ [0, 80] [] (by decide) (by decide) .nil)) []⟩

/-! ### The first token -/

theorem dropWhile_append_singleton {p : Char → Bool} {c : Char} (hc : p c = false) :
    ∀ xs : Str, (xs ++ [c]).dropWhile p = xs.dropWhile p ++ [c] := by
  intro xs
  induction xs with
  | nil => simp [List.dropWhile, hc]
  | cons x xs ih =>
    simp only [List.cons_append, List.dropWhile]
    split
    · exact ih
    · rfl

theorem TrimRight_cons {c : Char} (hc : c ≠ '/') (cs : Str) :
    TrimRight (c :: cs) ['/'] = c :: TrimRight cs ['/'] := by
  have hb : (c == '/') = false := by simpa using hc
  have hp : (fun x => (['/'] : Str).elem x) c = false := by
    simp [List.elem, hb]
  simp only [TrimRight, List.rdropWhile, List.reverse_cons]
  rw [dropWhile_append_singleton hp]
  simp

theorem Split_cons_head {c : Char} (hc : c ≠ '/') (cs : Str) :
    ∃ t ts, Split (c :: cs) '/' = (c :: t) :: ts := by
  simp only [Split, hc, if_false]
  cases Split cs '/' with
  | nil => exact ⟨[], [], rfl⟩
  | cons t ts => exact ⟨t, ts, rfl⟩

/-- C11. Invalid prefix: `stringToBytes` fails on every non-empty text whose
first character is not a slash, whatever follows. -/
theorem invalid_prefix_fails (s : Str) (hne : s ≠ []) (hfirst : s.head? ≠ some '/') :
    stringToBytes s = .ret [] (some .mustBeginWithSlash) ∧ (stringToBytes s).fails = true := by
  cases s with
  | nil => exact absurd rfl hne
  | cons c cs =>
    have hc : c ≠ '/' := by
      intro h; apply hfirst; rw [h]; rfl
    obtain ⟨t, ts, hsp⟩ := Split_cons_head hc (TrimRight cs ['/'])
    have h : stringToBytes (c :: cs) = .ret [] (some .mustBeginWithSlash) := by
      simp only [stringToBytes, TrimRight_cons hc, hsp, ne_eq, reduceCtorEq, not_false_eq_true,
        if_true]
    exact ⟨h, by rw [h]; rfl⟩

theorem invalid_prefix_fails_witness :
    "ip4/1.2.3.4".toList ≠ [] ∧ "ip4/1.2.3.4".toList.head? ≠ some '/' ∧
      stringToBytes "ip4/1.2.3.4".toList = .ret [] (some .mustBeginWithSlash) ∧
      (stringToBytes "ip4/1.2.3.4".toList).fails = true :=
  ⟨by decide, by decide,
    invalid_prefix_fails "ip4/1.2.3.4".toList (by decide) (by decide)⟩

/-! ### Successful runs of the loops -/

theorem bytesToStringLoop_step_text (spare : List Byte) (fuel : Nat) {b : List Byte}
    (s : Str) {code n : Nat} (hr : ReadVarintCode b = .ok (code, n))
    (hp : (ProtocolWithCode code).Code ≠ 0)
    (hlen : n + (ProtocolWithCode code).Size / 8 ≤ b.length) :
    bytesToStringLoop spare (fuel + 1) b s =
      bytesToStringLoop spare fuel (b.drop (n + (ProtocolWithCode code).Size / 8))
        (s ++ segmentText (ProtocolWithCode code)
          ((b.drop n).take ((ProtocolWithCode code).Size / 8))) := by
  rw [bytesToStringLoop_step spare fuel s hr hp hlen]
  congr 1
  simp only [segmentText]
  split <;> simp

/-- What a successful turn of the loop of `bytesToString` went through. -/
theorem bytesToStringLoop_ret_inv (spare : List Byte) (fuel : Nat) {b : List Byte} {s t : Str}
    (hb : b ≠ []) (h : bytesToStringLoop spare (fuel + 1) b s = .ret t none) :
    ∃ code n, ReadVarintCode b = .ok (code, n) ∧ (ProtocolWithCode code).Code ≠ 0 ∧
      n + (ProtocolWithCode code).Size / 8 ≤ b.length ∧
      bytesToStringLoop spare fuel (b.drop (n + (ProtocolWithCode code).Size / 8))
        (s ++ segmentText (ProtocolWithCode code)
          ((b.drop n).take ((ProtocolWithCode code).Size / 8))) = .ret t none := by
  cases hr : ReadVarintCode b with
  | error e =>
    rw [bytesToStringLoop_varint_error spare fuel s hb hr] at h
    cases h
  | ok cn =>
    obtain ⟨code, n⟩ := cn
    by_cases hp : (ProtocolWithCode code).Code = 0
    · rw [bytesToStringLoop_unknown spare fuel s hr hp] at h
      cases h
    · by_cases hlen : n + (ProtocolWithCode code).Size / 8 ≤ b.length
      · rw [bytesToStringLoop_step_text spare fuel s hr hp hlen] at h
        exact ⟨code, n, rfl, hp, hlen, h⟩
      · obtain ⟨e, he⟩ := bytesToStringLoop_short spare s hr hp (by omega)
        rw [he fuel] at h
        cases h

/-- What a successful turn of the loop of `bytesSplit` went through. -/
theorem bytesSplitLoop_ret_inv (spare : List Byte) (fuel : Nat) {b : List Byte}
    {ret segs : List (List Byte)}
    (hb : b ≠ []) (h : bytesSplitLoop spare (fuel + 1) b ret = .ret segs none) :
    ∃ code n, ReadVarintCode b = .ok (code, n) ∧ (ProtocolWithCode code).Code ≠ 0 ∧
      n + (ProtocolWithCode code).Size / 8 ≤ b.length ∧
      bytesSplitLoop spare fuel (b.drop (n + (ProtocolWithCode code).Size / 8))
        (ret ++ [b.take (n + (ProtocolWithCode code).Size / 8)]) = .ret segs none := by
  cases hr : ReadVarintCode b with
  | error e =>
    rw [bytesSplitLoop_varint_error spare fuel ret hb hr] at h
    cases h
  | ok cn =>
    obtain ⟨code, n⟩ := cn
    by_cases hp : (ProtocolWithCode code).Code = 0
    · rw [bytesSplitLoop_unknown spare fuel ret hr hp] at h
      cases h
    · by_cases hlen : n + (ProtocolWithCode code).Size / 8 ≤ b.length
      · rw [bytesSplitLoop_step spare fuel ret hr hp hlen] at h
        exact ⟨code, n, rfl, hp, hlen, h⟩
      · obtain ⟨e, he⟩ := bytesSplitLoop_short spare ret hr hp (by omega)
        rw [he fuel] at h
        cases h

theorem bytesToStringLoop_zero_ret (spare : List Byte) {b : List Byte} {s t : Str}
    {err : Option Error} (h : bytesToStringLoop spare 0 b s = .ret t err) :
    b = [] ∧ t = s ∧ err = none := by
  simp only [bytesToStringLoop] at h
  split at h
  · cases h
  · cases h
    exact ⟨List.length_eq_zero.mp (by omega), rfl, rfl⟩

theorem bytesSplitLoop_zero_ret (spare : List Byte) {b : List Byte}
    {ret segs : List (List Byte)} {err : Option Error}
    (h : bytesSplitLoop spare 0 b ret = .ret segs err) :
    b = [] ∧ segs = ret ∧ err = none := by
  simp only [bytesSplitLoop] at h
  split at h
  · cases h
  · cases h
    exact ⟨List.length_eq_zero.mp (by omega), rfl, rfl⟩

/-- A successful run of the loop of `bytesToString` appends a text that depends
neither on the text so far nor on what lies behind the buffer. -/
theorem bytesToStringLoop_ret_append (spare : List Byte) : ∀ (fuel : Nat) (b : List Byte)
    (s t : Str), bytesToStringLoop spare fuel b s = .ret t none →
    ∃ t0, t = s ++ t0 ∧ ∀ (spare1 : List Byte) (s1 : Str),
      bytesToStringLoop spare1 fuel b s1 = .ret (s1 ++ t0) none := by
  intro fuel
  induction fuel with
  | zero =>
    intro b s t h
    obtain ⟨hb, ht, _⟩ := bytesToStringLoop_zero_ret spare h
    subst hb ht
    exact ⟨[], by simp, fun spare1 s1 => by rw [bytesToStringLoop_nil]; simp⟩
  | succ fuel ih =>
    intro b s t h
    by_cases hb : b = []
    · subst hb
      rw [bytesToStringLoop_nil] at h
      cases h
      exact ⟨[], by simp, fun spare1 s1 => by rw [bytesToStringLoop_nil]; simp⟩
    · obtain ⟨code, n, hr, hp, hlen, h1⟩ := bytesToStringLoop_ret_inv spare fuel hb h
      obtain ⟨t0, ht0, hall⟩ := ih _ _ _ h1
      refine ⟨segmentText (ProtocolWithCode code)
        ((b.drop n).take ((ProtocolWithCode code).Size / 8)) ++ t0, ?_, fun spare1 s1 => ?_⟩
      · rw [ht0, List.append_assoc]
      · rw [bytesToStringLoop_step_text spare1 fuel s1 hr hp hlen, hall spare1, List.append_assoc]

theorem readVarintAux_append : ∀ (xs : List Byte) (sh acc cnt c n : Nat) (r : List Byte),
    readVarintAux xs sh acc cnt = .ok (c, n) →
    readVarintAux (xs ++ r) sh acc cnt = .ok (c, n) := by
  intro xs
  induction xs with
  | nil => intro sh acc cnt c n r h; simp [readVarintAux] at h
  | cons x xs ih =>
    intro sh acc cnt c n r h
    simp only [readVarintAux] at h
    rw [List.cons_append]
    simp only [readVarintAux]
    split at h
    · cases h
    · rename_i h32
      rw [if_neg h32]
      split at h
      · rename_i h128
        rw [if_pos h128]
        exact h
      · rename_i h128
        rw [if_neg h128]
        exact ih _ _ _ _ _ _ h

theorem ReadVarintCode_append {a : List Byte} {c n : Nat} (h : ReadVarintCode a = .ok (c, n))
    (r : List Byte) : ReadVarintCode (a ++ r) = .ok (c, n) :=
  readVarintAux_append a 0 0 0 c n r h

/-- After a buffer that decodes, the loop of `bytesToString` goes on with what
follows it. -/
theorem bytesToStringLoop_append (spare : List Byte) : ∀ (fuel : Nat) (a : List Byte)
    (s t : Str), bytesToStringLoop spare fuel a s = .ret t none →
    ∀ (spare1 r : List Byte) (fuel1 : Nat), (a ++ r).length ≤ fuel1 →
      bytesToStringLoop spare1 fuel1 (a ++ r) s = bytesToStringLoop spare1 fuel1 r t := by
  intro fuel
  induction fuel with
  | zero =>
    intro a s t h spare1 r fuel1 _
    obtain ⟨ha, ht, _⟩ := bytesToStringLoop_zero_ret spare h
    subst ha ht
    rfl
  | succ fuel ih =>
    intro a s t h spare1 r fuel1 hf
    by_cases ha : a = []
    · subst ha
      rw [bytesToStringLoop_nil] at h
      cases h
      rfl
    · obtain ⟨code, n, hr, hp, hlen, h1⟩ := bytesToStringLoop_ret_inv spare fuel ha h
      have hn := ReadVarintCode_bounds hr
      obtain ⟨g, rfl⟩ : ∃ g, fuel1 = g + 1 :=
        ⟨fuel1 - 1, by simp only [List.length_append] at hf; omega⟩
      have hlen2 : n + (ProtocolWithCode code).Size / 8 ≤ (a ++ r).length := by
        simp only [List.length_append]; omega
      have hd : (a ++ r).drop (n + (ProtocolWithCode code).Size / 8) =
          a.drop (n + (ProtocolWithCode code).Size / 8) ++ r :=
        List.drop_append_of_le_length hlen
      have htk : ((a ++ r).drop n).take ((ProtocolWithCode code).Size / 8) =
          (a.drop n).take ((ProtocolWithCode code).Size / 8) := by
        rw [List.drop_append_of_le_length (by omega)]
        exact List.take_append_of_le_length (by rw [List.length_drop]; omega)
      have hle : (a.drop (n + (ProtocolWithCode code).Size / 8) ++ r).length ≤ g := by
        simp only [List.length_append, List.length_drop] at hf ⊢; omega
      rw [bytesToStringLoop_step_text spare1 g s (ReadVarintCode_append hr r) hp hlen2, hd, htk,
        ih _ _ _ h1 spare1 r g hle]
      apply bytesToStringLoop_fuel
      · simp only [List.length_append, List.length_drop] at hle ⊢; omega
      · simp only [List.length_append] at hf ⊢; omega

/-! ### No partial results -/

theorem stringToBytesLoop_error_nil : ∀ (m : Nat) (sp : List Str) (b0 v : List Byte)
    (e : Error), sp.length ≤ m → stringToBytesLoop sp b0 = .ret v (some e) → v = [] := by
  intro m
  induction m with
  | zero =>
    intro sp b0 v e hm h
    have hsp : sp = [] := List.length_eq_zero.mp (by omega)
    subst hsp
    simp [stringToBytesLoop] at h
  | succ m ih =>
    intro sp b0 v e hm h
    cases sp with
    | nil => simp [stringToBytesLoop] at h
    | cons name sp1 =>
      simp only [stringToBytesLoop] at h
      split at h
      · cases h; rfl
      · split at h
        · cases sp1 with
          | nil => cases h; rfl
          | cons tok sp2 =>
            simp only at h
            split at h
            · cases h; rfl
            · exact ih sp2 _ v e (by simp only [List.length_cons] at hm; omega) h
        · exact ih sp1 _ v e (by simp only [List.length_cons] at hm; omega) h

theorem bytesToStringLoop_error_nil (spare : List Byte) : ∀ (fuel : Nat) (b : List Byte)
    (s v : Str) (e : Error), bytesToStringLoop spare fuel b s = .ret v (some e) → v = [] := by
  intro fuel
  induction fuel with
  | zero =>
    intro b s v e h
    have := (bytesToStringLoop_zero_ret spare h).2.2
    cases this
  | succ fuel ih =>
    intro b s v e h
    by_cases hb : b = []
    · subst hb
      rw [bytesToStringLoop_nil] at h
      cases h
    · cases hr : ReadVarintCode b with
      | error e1 =>
        rw [bytesToStringLoop_varint_error spare fuel s hb hr] at h
        cases h
      | ok cn =>
        obtain ⟨code, n⟩ := cn
        by_cases hp : (ProtocolWithCode code).Code = 0
        · rw [bytesToStringLoop_unknown spare fuel s hr hp] at h
          cases h; rfl
        · by_cases hlen : n + (ProtocolWithCode code).Size / 8 ≤ b.length
          · rw [bytesToStringLoop_step_text spare fuel s hr hp hlen] at h
            exact ih _ _ _ _ h
          · obtain ⟨e1, he⟩ := bytesToStringLoop_short spare s hr hp (by omega)
            rw [he fuel] at h
            cases h

theorem bytesSplitLoop_error_nil (spare : List Byte) : ∀ (fuel : Nat) (b : List Byte)
    (ret v : List (List Byte)) (e : Error),
    bytesSplitLoop spare fuel b ret = .ret v (some e) → v = [] := by
  intro fuel
  induction fuel with
  | zero =>
    intro b ret v e h
    have := (bytesSplitLoop_zero_ret spare h).2.2
    cases this
  | succ fuel ih =>
    intro b ret v e h
    by_cases hb : b = []
    · subst hb
      rw [bytesSplitLoop_nil] at h
      cases h
    · cases hr : ReadVarintCode b with
      | error e1 =>
        rw [bytesSplitLoop_varint_error spare fuel ret hb hr] at h
        cases h
      | ok cn =>
        obtain ⟨code, n⟩ := cn
        by_cases hp : (ProtocolWithCode code).Code = 0
        · rw [bytesSplitLoop_unknown spare fuel ret hr hp] at h
          cases h; rfl
        · by_cases hlen : n + (ProtocolWithCode code).Size / 8 ≤ b.length
          · rw [bytesSplitLoop_step spare fuel ret hr hp hlen] at h
            exact ih _ _ _ _ h
          · obtain ⟨e1, he⟩ := bytesSplitLoop_short spare ret hr hp (by omega)
            rw [he fuel] at h
            cases h

theorem recovered_error_nil {α : Type} {o : Outcome (List α)} {v : List α} {e : Error}
    (h : recovered [] o = .ret v (some e))
    (ho : ∀ v1 e1, o = .ret v1 (some e1) → v1 = []) : v = [] := by
  unfold recovered at h
  split at h
  · cases h; rfl
  · exact ho v e h

/-- C14. No partial results: whenever `stringToBytes`, `bytesToString` or
`bytesSplit` returns an error, the value next to it is empty; what was gathered
before the fault is not returned, also when the fault is a recovered panic. -/
theorem no_partial_results (s : Str) (b spare : List Byte) :
    (∀ v e, stringToBytes s = .ret v (some e) → v = []) ∧
      (∀ v e, bytesToString b spare = .ret v (some e) → v = []) ∧
      (∀ v e, bytesSplit b spare = .ret v (some e) → v = []) := by
  refine ⟨fun v e h => ?_, fun v e h => ?_, fun v e h => ?_⟩
  · unfold stringToBytes at h
    simp only at h
    split at h
    · cases h
    · split at h
      · cases h; rfl
      · exact stringToBytesLoop_error_nil _ _ _ _ _ (Nat.le_refl _) h
  · exact recovered_error_nil h (fun v1 e1 h1 => bytesToStringLoop_error_nil spare _ _ _ _ _ h1)
  · exact recovered_error_nil h (fun v1 e1 h1 => bytesSplitLoop_error_nil spare _ _ _ _ _ h1)

theorem no_partial_results_witness :
    stringToBytes "/ip4/127.0.0.1/tcp/65536".toList =
        .ret [] (some (.failedToParse "tcp".toList "65536".toList
          (.portTooLarge "tcp".toList))) ∧
      bytesToString [4, 127, 0, 0, 1, 6, 0] [] = .ret [] (some (.sliceBounds 2 1)) ∧
      bytesSplit [4, 127, 0, 0, 1, 6, 0] [] = .ret [] (some (.sliceBounds 3 2)) ∧
      (([] : List Byte) = [] ∧ ([] : Str) = [] ∧ ([] : List (List Byte)) = []) :=
  ⟨by decide, by decide, by decide,
    (no_partial_results "/ip4/127.0.0.1/tcp/65536".toList [4, 127, 0, 0, 1, 6, 0] []).1 []
      (.failedToParse "tcp".toList "65536".toList (.portTooLarge "tcp".toList)) (by decide),
    (no_partial_results "/ip4/127.0.0.1/tcp/65536".toList [4, 127, 0, 0, 1, 6, 0] []).2.1 []
      (.sliceBounds 2 1) (by decide),
    (no_partial_results "/ip4/127.0.0.1/tcp/65536".toList [4, 127, 0, 0, 1, 6, 0] []).2.2 []
      (.sliceBounds 3 2) (by decide)⟩

/-! ### The decoder and the splitter accept the same buffers -/

theorem loops_accept_same (spare1 spare2 : List Byte) : ∀ (fuel : Nat) (b : List Byte)
    (s : Str) (ret : List (List Byte)),
    (∃ t, bytesToStringLoop spare1 fuel b s = .ret t none) ↔
      (∃ segs, bytesSplitLoop spare2 fuel b ret = .ret segs none) := by
  intro fuel
  induction fuel with
  | zero =>
    intro b s ret
    constructor
    · rintro ⟨t, h⟩
      obtain ⟨hb, _, _⟩ := bytesToStringLoop_zero_ret spare1 h
      subst hb
      exact ⟨ret, bytesSplitLoop_nil spare2 0 ret⟩
    · rintro ⟨segs, h⟩
      obtain ⟨hb, _, _⟩ := bytesSplitLoop_zero_ret spare2 h
      subst hb
      exact ⟨s, bytesToStringLoop_nil spare1 0 s⟩
  | succ fuel ih =>
    intro b s ret
    by_cases hb : b = []
    · subst hb
      exact ⟨fun _ => ⟨ret, bytesSplitLoop_nil spare2 _ ret⟩,
        fun _ => ⟨s, bytesToStringLoop_nil spare1 _ s⟩⟩
    · constructor
      · rintro ⟨t, h⟩
        obtain ⟨code, n, hr, hp, hlen, h1⟩ := bytesToStringLoop_ret_inv spare1 fuel hb h
        rw [bytesSplitLoop_step spare2 fuel ret hr hp hlen]
        exact (ih _ _ _).mp ⟨t, h1⟩
      · rintro ⟨segs, h⟩
        obtain ⟨code, n, hr, hp, hlen, h1⟩ := bytesSplitLoop_ret_inv spare2 fuel hb h
        rw [bytesToStringLoop_step_text spare1 fuel s hr hp hlen]
        exact (ih _ _ _).mpr ⟨segs, h1⟩

theorem succeeds_iff {α : Type} (o : Outcome α) : o.succeeds = true ↔ ∃ v, o = .ret v none := by
  cases o with
  | ret v err =>
    cases err with
    | none => exact ⟨fun _ => ⟨v, rfl⟩, fun _ => rfl⟩
    | some e =>
      constructor
      · intro h; cases h
      · rintro ⟨v1, h⟩; cases h
  | panic v =>
    constructor
    · intro h; cases h
    · rintro ⟨v1, h⟩; cases h
  | outOfFuel =>
    constructor
    · intro h; cases h
    · rintro ⟨v1, h⟩; cases h

theorem recovered_ret_none_iff {α : Type} (zero : α) (o : Outcome α) (v : α) :
    recovered zero o = .ret v none ↔ o = .ret v none := by
  constructor
  · exact recovered_ret_none
  · intro h; rw [h]; rfl

/-- C19. The decoder and the splitter accept exactly the same buffers:
`bytesSplit` succeeds on `b` if and only if `bytesToString` succeeds on `b`,
whatever lies behind `b` in either call. -/
theorem split_succeeds_iff_decode_succeeds (b spare1 spare2 : List Byte) :
    (bytesSplit b spare1).succeeds = true ↔ (bytesToString b spare2).succeeds = true := by
  rw [succeeds_iff, succeeds_iff]
  simp only [bytesSplit, bytesToString, recovered_ret_none_iff]
  exact (loops_accept_same spare2 spare1 b.length b [] []).symm

/-! ### Decoding and concatenation -/

theorem bytesToString_ret_iff (b spare : List Byte) (t : Str) :
    bytesToString b spare = .ret t none ↔
      bytesToStringLoop spare b.length b [] = .ret t none := by
  rw [bytesToString, recovered_ret_none_iff]

/-- A buffer that decodes with one backing array decodes to the same text with
any other. -/
theorem bytesToString_spare {b spare : List Byte} {t : Str}
    (h : bytesToString b spare = .ret t none) (spare1 : List Byte) :
    bytesToString b spare1 = .ret t none := by
  rw [bytesToString_ret_iff] at h ⊢
  obtain ⟨t0, ht0, hall⟩ := bytesToStringLoop_ret_append spare _ _ _ _ h
  rw [hall spare1 [], ht0]

theorem bytesToString_append {a b sa sb : List Byte} {ta tb : Str}
    (ha : bytesToString a sa = .ret ta none) (hb : bytesToString b sb = .ret tb none)
    (sc : List Byte) : bytesToString (a ++ b) sc = .ret (ta ++ tb) none := by
  rw [bytesToString_ret_iff] at ha hb ⊢
  obtain ⟨t0, ht0, hall⟩ := bytesToStringLoop_ret_append sb _ _ _ _ hb
  rw [List.nil_append] at ht0
  rw [bytesToStringLoop_append sa _ _ _ _ ha sc b _ (Nat.le_refl _),
    bytesToStringLoop_fuel sc (a ++ b).length b.length b ta
      (by simp only [List.length_append]; omega) (Nat.le_refl _),
    hall sc ta, ht0]

theorem bytesToString_nil (spare : List Byte) : bytesToString [] spare = .ret [] none := by
  rw [bytesToString_ret_iff, bytesToStringLoop_nil]

theorem bytesToString_flatten : ∀ (segs : List (List Byte)),
    (∀ x ∈ segs, ∃ t, ∀ spare, bytesToString x spare = .ret t none) →
    ∃ ts : List Str,
      List.Forall₂ (fun x t => ∀ spare, bytesToString x spare = .ret t none) segs ts ∧
        ∀ spare, bytesToString segs.flatten spare = .ret ts.flatten none := by
  intro segs
  induction segs with
  | nil =>
    intro _
    exact ⟨[], List.Forall₂.nil, fun spare => bytesToString_nil spare⟩
  | cons x rest ih =>
    intro h
    obtain ⟨t, ht⟩ := h x (List.mem_cons_self _ _)
    obtain ⟨ts, hts, hall⟩ := ih (fun y hy => h y (List.mem_cons_of_mem _ hy))
    refine ⟨t :: ts, List.Forall₂.cons ht hts, fun spare => ?_⟩
    rw [List.flatten_cons, List.flatten_cons]
    exact bytesToString_append (ht []) (hall []) spare

/-- A segment as `bytesSplit` returns it decodes on its own. -/
theorem segment_decodes {x : List Byte} {code n : Nat} (hr : ReadVarintCode x = .ok (code, n))
    (hp : (ProtocolWithCode code).Code ≠ 0)
    (hlen : x.length = n + (ProtocolWithCode code).Size / 8) :
    ∃ t, ∀ spare, bytesToString x spare = .ret t none := by
  have hn := ReadVarintCode_bounds hr
  obtain ⟨g, hg⟩ : ∃ g, x.length = g + 1 := ⟨x.length - 1, by omega⟩
  have hdrop : x.drop (n + (ProtocolWithCode code).Size / 8) = [] :=
    List.drop_eq_nil_of_le (by omega)
  refine ⟨segmentText (ProtocolWithCode code)
    ((x.drop n).take ((ProtocolWithCode code).Size / 8)), fun spare => ?_⟩
  rw [bytesToString_ret_iff, hg, bytesToStringLoop_step_text spare g [] hr hp (by omega), hdrop,
    bytesToStringLoop_nil, List.nil_append]

/-- C20. Decoding distributes over concatenation and over split: when
`bytesToString` succeeds on `a` and on `b`, it succeeds on `a ++ b` with the two
texts one after the other; and when `bytesSplit` succeeds on `b`, every segment
decodes and `bytesToString` of `b` is the texts of the segments one after the
other, in order. -/
theorem decode_distributes :
    (∀ (a b sa sb sc : List Byte) (ta tb : Str), bytesToString a sa = .ret ta none →
        bytesToString b sb = .ret tb none →
        bytesToString (a ++ b) sc = .ret (ta ++ tb) none) ∧
      (∀ (b spare : List Byte) (segs : List (List Byte)), bytesSplit b spare = .ret segs none →
        ∃ ts : List Str,
          List.Forall₂ (fun x t => ∀ spare1, bytesToString x spare1 = .ret t none) segs ts ∧
            ∀ spare1, bytesToString b spare1 = .ret ts.flatten none) := by
  refine ⟨fun a b sa sb sc ta tb ha hb => bytesToString_append ha hb sc,
    fun b spare segs h => ?_⟩
  have hloop := recovered_ret_none h
  have hcat := bytesSplitLoop_concat spare _ _ _ _ hloop
  have hsegs := bytesSplitLoop_segments spare _ _ _ _ hloop
    (fun y hy => absurd hy (List.not_mem_nil y))
  obtain ⟨ts, hts, hall⟩ := bytesToString_flatten segs (fun x hx => by
    obtain ⟨code, n, hr, hp, hlen⟩ := hsegs x hx
    exact segment_decodes hr hp hlen)
  simp only [List.flatten_nil, List.nil_append] at hcat
  rw [hcat] at hall
  exact ⟨ts, hts, hall⟩

theorem decode_distributes_witness :
    bytesToString [4, 127, 0, 0, 1] [] = .ret "/ip4/127.0.0.1".toList none ∧
      bytesToString [6, 0, 80] [] = .ret "/tcp/80".toList none ∧
      bytesToString ([4, 127, 0, 0, 1] ++ [6, 0, 80]) [] =
        .ret ("/ip4/127.0.0.1".toList ++ "/tcp/80".toList) none ∧
      bytesSplit [4, 127, 0, 0, 1, 6, 0, 80] [] = .ret [[4, 127, 0, 0, 1], [6, 0, 80]] none ∧
      ∃ ts : List Str,
        List.Forall₂ (fun x t => ∀ spare1, bytesToString x spare1 = .ret t none)
          [[4, 127, 0, 0, 1], [6, 0, 80]] ts ∧
          ∀ spare1, bytesToString [4, 127, 0, 0, 1, 6, 0, 80] spare1 = .ret ts.flatten none :=
  ⟨by decide, by decide,
    decode_distributes.1 [4, 127, 0, 0, 1] [6, 0, 80] [] [] [] "/ip4/127.0.0.1".toList
      "/tcp/80".toList (by decide) (by decide),
    by decide,
    decode_distributes.2 [4, 127, 0, 0, 1, 6, 0, 80] [] [[4, 127, 0, 0, 1], [6, 0, 80]]
      (by decide)⟩

/-- C18. Scenario S1: the text of the loopback address with tcp port 80
encodes to exactly the eight bytes `04 7F 00 00 01 06 00 50`, and those bytes
decode to exactly that text. -/
theorem scenario_S1 (spare : List Byte) :
    stringToBytes "/ip4/127.0.0.1/tcp/80".toList =
        .ret [0x04, 0x7F, 0x00, 0x00, 0x01, 0x06, 0x00, 0x50] none ∧
      bytesToString [0x04, 0x7F, 0x00, 0x00, 0x01, 0x06, 0x00, 0x50] spare =
        .ret "/ip4/127.0.0.1/tcp/80".toList none := by
  have h : bytesToString [0x04, 0x7F, 0x00, 0x00, 0x01, 0x06, 0x00, 0x50] [] =
      .ret "/ip4/127.0.0.1/tcp/80".toList none := by decide
  exact ⟨by decide, bytesToString_spare h spare⟩

/-! ### The shape of decoded text -/

theorem noDoubleSlash_append {tok : Str} (h : ∀ c ∈ tok, c ≠ '/') (r : Str) :
    noDoubleSlash (tok ++ r) = noDoubleSlash r := by
  induction tok with
  | nil => rfl
  | cons c cs ih =>
    have hc : c ≠ '/' := h c (List.mem_cons_self _ _)
    rw [List.cons_append]
    simp only [noDoubleSlash, hc, decide_False, Bool.false_and, Bool.not_false, Bool.true_and]
    exact ih (fun x hx => h x (List.mem_cons_of_mem _ hx))

theorem noDoubleSlash_slash {x : Str} (h : x.head? ≠ some '/') :
    noDoubleSlash ('/' :: x) = noDoubleSlash x := by
  simp only [noDoubleSlash, h, decide_False, Bool.and_false, Bool.not_false, Bool.true_and]

theorem tokens_noDoubleSlash : ∀ (sp : List Str), (∀ t ∈ sp, t ≠ [] ∧ ∀ c ∈ t, c ≠ '/') →
    noDoubleSlash (sp.flatMap (fun t => '/' :: t)) = true := by
  intro sp
  induction sp with
  | nil => intro _; rfl
  | cons tok rest ih =>
    intro h
    obtain ⟨hne, hns⟩ := h tok (List.mem_cons_self _ _)
    have hhead : (tok ++ rest.flatMap (fun t => '/' :: t)).head? ≠ some '/' := by
      cases tok with
      | nil => exact absurd rfl hne
      | cons c cs =>
        simp only [List.cons_append, List.head?_cons, ne_eq, Option.some.injEq]
        exact hns c (List.mem_cons_self _ _)
    rw [List.flatMap_cons, List.cons_append, noDoubleSlash_slash hhead, noDoubleSlash_append hns]
    exact ih (fun t ht => h t (List.mem_cons_of_mem _ ht))

theorem tokens_noTrailingSlash (sp : List Str) (h : ∀ t ∈ sp, t ≠ [] ∧ ∀ c ∈ t, c ≠ '/') :
    noTrailingSlash (sp.flatMap (fun t => '/' :: t)) = true := by
  rcases List.eq_nil_or_concat sp with rfl | ⟨init, last, rfl⟩
  · decide
  · obtain ⟨hne, hns⟩ := h last (by simp)
    have e : (init ++ [last]).flatMap (fun t => '/' :: t) =
        (init.flatMap (fun t => '/' :: t) ++ ['/']) ++ last := by simp
    rw [List.concat_eq_append, e]
    simp only [noTrailingSlash, decide_eq_true_eq]
    rw [List.getLast?_append_of_ne_nil _ hne, List.getLast?_eq_getLast _ hne]
    intro hl
    exact hns _ (List.getLast_mem hne) (Option.some.inj hl)

theorem segmentText_tokens {p : Protocol} (hp : p ∈ Protocols) {v : List Byte}
    (hv : v.length = p.Size / 8) :
    segmentText p v = [p.Name, addressBytesToString p v].flatMap (fun t => '/' :: t) := by
  have hne := (value_round_trip hp hv).2.1
  have hpos : (addressBytesToString p v).length > 0 := List.length_pos.mpr hne
  simp [segmentText, hpos]

/-- The text of a successful run of the loop of `bytesToString` is a list of
tokens, none empty and none with a slash, each after a slash; there are none
exactly when the buffer is empty. -/
theorem bytesToStringLoop_tokens (spare : List Byte) : ∀ (fuel : Nat) (b : List Byte)
    (s t : Str), bytesToStringLoop spare fuel b s = .ret t none →
    ∃ sp : List Str, (∀ x ∈ sp, x ≠ [] ∧ ∀ c ∈ x, c ≠ '/') ∧
      t = s ++ sp.flatMap (fun x => '/' :: x) ∧ (sp = [] ↔ b = []) := by
  intro fuel
  induction fuel with
  | zero =>
    intro b s t h
    obtain ⟨hb, ht, _⟩ := bytesToStringLoop_zero_ret spare h
    subst hb ht
    exact ⟨[], fun x hx => absurd hx (List.not_mem_nil x), by simp, by simp⟩
  | succ fuel ih =>
    intro b s t h
    by_cases hb : b = []
    · subst hb
      rw [bytesToStringLoop_nil] at h
      cases h
      exact ⟨[], fun x hx => absurd hx (List.not_mem_nil x), by simp, by simp⟩
    · obtain ⟨code, n, hr, hp, hlen, h1⟩ := bytesToStringLoop_ret_inv spare fuel hb h
      obtain ⟨sp, hsp, ht, _⟩ := ih _ _ _ h1
      have hmem := (ProtocolWithCode_of_ne hp).1
      have hv : ((b.drop n).take ((ProtocolWithCode code).Size / 8)).length =
          (ProtocolWithCode code).Size / 8 := by
        rw [List.length_take, List.length_drop]; omega
      obtain ⟨_, hne, hns⟩ := value_round_trip hmem hv
      refine ⟨(ProtocolWithCode code).Name :: addressBytesToString (ProtocolWithCode code)
        ((b.drop n).take ((ProtocolWithCode code).Size / 8)) :: sp, ?_, ?_, by simp [hb]⟩
      · intro x hx
        simp only [List.mem_cons] at hx
        rcases hx with rfl | rfl | hx
        · exact ⟨name_ne_nil hmem, name_no_slash hmem⟩
        · exact ⟨hne, hns⟩
        · exact hsp x hx
      · rw [ht, segmentText_tokens hmem hv]
        simp

/-- C15. The shape of decoded text: when `bytesToString` succeeds on `b` with
the text `s`, then `s` is empty exactly when `b` is empty, and for a non-empty
`b` the text begins with a slash, does not end with a slash and has no two
slashes in a row. -/
theorem decoded_text_shape (b spare : List Byte) (s : Str)
    (h : bytesToString b spare = .ret s none) :
    (s = [] ↔ b = []) ∧
      (b ≠ [] → s.head? = some '/' ∧ noTrailingSlash s = true ∧ noDoubleSlash s = true) := by
  rw [bytesToString_ret_iff] at h
  obtain ⟨sp, hsp, ht, hiff⟩ := bytesToStringLoop_tokens spare _ _ _ _ h
  rw [List.nil_append] at ht
  subst ht
  constructor
  · constructor
    · intro hs
      apply hiff.mp
      cases sp with
      | nil => rfl
      | cons x rest => simp at hs
    · intro hb
      rw [hiff.mpr hb]
      rfl
  · intro hb
    refine ⟨?_, tokens_noTrailingSlash sp hsp, tokens_noDoubleSlash sp hsp⟩
    cases sp with
    | nil => exact absurd (hiff.mp rfl) hb
    | cons x rest => rfl

theorem decoded_text_shape_witness :
    bytesToString [4, 127, 0, 0, 1, 6, 0, 80] [] = .ret "/ip4/127.0.0.1/tcp/80".toList none ∧
      ("/ip4/127.0.0.1/tcp/80".toList = [] ↔ ([4, 127, 0, 0, 1, 6, 0, 80] : List Byte) = []) ∧
      (([4, 127, 0, 0, 1, 6, 0, 80] : List Byte) ≠ [] →
        "/ip4/127.0.0.1/tcp/80".toList.head? = some '/' ∧
          noTrailingSlash "/ip4/127.0.0.1/tcp/80".toList = true ∧
          noDoubleSlash "/ip4/127.0.0.1/tcp/80".toList = true) :=
  ⟨by decide,
    decoded_text_shape [4, 127, 0, 0, 1, 6, 0, 80] [] "/ip4/127.0.0.1/tcp/80".toList
      (by decide)⟩

/-! ### Unknown names and missing values -/

theorem ProtocolWithName_unknown {name : Str} (h : ∀ p ∈ Protocols, p.Name ≠ name) :
    (ProtocolWithName name).Code = 0 := by
  rcases ProtocolWithName_cases name with h0 | ⟨h1, h2⟩
  · rw [h0]; rfl
  · exact absurd h2 (h _ h1)

theorem stringToBytesLoop_unknown_name {name : Str} (hu : ∀ p ∈ Protocols, p.Name ≠ name) :
    ∀ (m : Nat) (sp : List Str) (b0 : List Byte), sp.length ≤ m → name ∈ nameTokens sp →
    ∃ e, stringToBytesLoop sp b0 = .ret [] (some e) := by
  intro m
  induction m with
  | zero =>
    intro sp b0 hm hn
    have hsp : sp = [] := List.length_eq_zero.mp (by omega)
    subst hsp
    simp [nameTokens] at hn
  | succ m ih =>
    intro sp b0 hm hn
    cases sp with
    | nil => simp [nameTokens] at hn
    | cons name0 sp1 =>
      simp only [stringToBytesLoop]
      by_cases hcode : (ProtocolWithName name0).Code = 0
      · rw [if_pos hcode]; exact ⟨_, rfl⟩
      · rw [if_neg hcode]
        have hne : name ≠ name0 := by
          intro h; subst h
          exact hcode (ProtocolWithName_unknown hu)
        rcases ProtocolWithName_cases name0 with h0 | ⟨hp, _⟩
        · rw [h0] at hcode; exact absurd rfl hcode
        · have hsz := (size_of_mem hp).2.1
          rw [if_pos hsz]
          cases sp1 with
          | nil => exact ⟨_, rfl⟩
          | cons tok sp2 =>
            simp only [nameTokens, hsz, if_true, List.mem_cons] at hn
            rcases hn with hn | hn
            · exact absurd hn hne
            · simp only
              cases ha : addressStringToBytes (ProtocolWithName name0) tok with
              | error err => exact ⟨_, rfl⟩
              | ok a =>
                exact ih sp2 _ (by simp only [List.length_cons] at hm; omega) hn

/-- C12. Unknown protocol name: when a token in protocol-name position is not
exactly the name of a registry protocol, `stringToBytes` fails. -/
theorem unknown_protocol_fails (t name : Str) (hname : name ∈ nameTokens (tokens t))
    (hunknown : ∀ p ∈ Protocols, p.Name ≠ name) : (stringToBytes t).fails = true := by
  unfold tokens at hname
  unfold stringToBytes
  simp only
  cases hsp : Split (TrimRight t ['/']) '/' with
  | nil => exact absurd hsp (Split_ne_nil _ _)
  | cons first sp =>
    rw [hsp] at hname
    simp only [List.tail_cons] at hname
    simp only
    split
    · rfl
    · obtain ⟨e, he⟩ := stringToBytesLoop_unknown_name hunknown sp.length sp [] (Nat.le_refl _)
        hname
      rw [he]; rfl

theorem unknown_protocol_fails_witness :
    ([] : Str) ∈ nameTokens (tokens "/ip4/1.2.3.4//tcp/80".toList) ∧
      ([] : Str) ∈ nameTokens (tokens "//tcp/80".toList) ∧
      (∀ p ∈ Protocols, p.Name ≠ []) ∧
      (stringToBytes "/ip4/1.2.3.4//tcp/80".toList).fails = true ∧
      (stringToBytes "//tcp/80".toList).fails = true :=
  ⟨by decide, by decide, by decide,
    unknown_protocol_fails "/ip4/1.2.3.4//tcp/80".toList [] (by decide) (by decide),
    unknown_protocol_fails "//tcp/80".toList [] (by decide) (by decide)⟩

theorem Split_append (a r : Str) (sep : Char) :
    Split (a ++ sep :: r) sep = Split a sep ++ Split r sep := by
  induction a with
  | nil => simp [Split]
  | cons c cs ih =>
    rw [List.cons_append]
    simp only [Split]
    split
    · rw [ih]; rfl
    · rw [ih]
      cases hs : Split cs sep with
      | nil => exact absurd hs (Split_ne_nil cs sep)
      | cons t0 ts => rfl

/-- Tokens that `stringToBytes` takes in whole leave it at the tokens that
follow. -/
theorem stringToBytesLoop_append : ∀ (m : Nat) (sp : List Str) (b0 b : List Byte),
    sp.length ≤ m → stringToBytesLoop sp b0 = .ret b none →
    ∀ extra, stringToBytesLoop (sp ++ extra) b0 = stringToBytesLoop extra b := by
  intro m
  induction m with
  | zero =>
    intro sp b0 b hm h extra
    have hsp : sp = [] := List.length_eq_zero.mp (by omega)
    subst hsp
    simp only [stringToBytesLoop, Outcome.ret.injEq, and_true] at h
    rw [List.nil_append, h]
  | succ m ih =>
    intro sp b0 b hm h extra
    cases sp with
    | nil =>
      simp only [stringToBytesLoop, Outcome.ret.injEq, and_true] at h
      rw [List.nil_append, h]
    | cons name sp1 =>
      simp only [stringToBytesLoop] at h
      split at h
      · cases h
      · rename_i hcode
        rcases ProtocolWithName_cases name with h0 | ⟨hp, _⟩
        · rw [h0] at hcode; exact absurd rfl hcode
        · have hsz := (size_of_mem hp).2.1
          rw [if_pos hsz] at h
          cases sp1 with
          | nil => cases h
          | cons tok sp2 =>
            simp only at h
            cases ha : addressStringToBytes (ProtocolWithName name) tok with
            | error e => rw [ha] at h; cases h
            | ok a =>
              rw [ha] at h
              simp only at h
              rw [List.cons_append, List.cons_append]
              simp only [stringToBytesLoop, hcode, if_false, hsz, if_true, ha]
              exact ih sp2 _ b (by simp only [List.length_cons] at hm; omega) h extra

theorem noTrailingSlash_TrimRight {t : Str} (h : noTrailingSlash t = true) :
    TrimRight t ['/'] = t := by
  apply TrimRight_eq_self
  intro hs hl
  simp only [noTrailingSlash, decide_eq_true_eq] at h
  exact h (by rw [List.getLast?_eq_getLast _ hs, hl])

/-- C13. Missing value: when `stringToBytes` accepts a text `t` without a
trailing slash, then `t` followed by a slash and the name of a registry protocol
with a value is refused, with or without one more slash at the end: ending on a
name whose value is absent is an error. -/
theorem missing_value_fails (t : Str) (b : List Byte) (h : stringToBytes t = .ret b none)
    (hslash : noTrailingSlash t = true) (p : Protocol) (hp : p ∈ Protocols)
    (hsz : 0 < p.Size) :
    stringToBytes (t ++ '/' :: p.Name) = .ret [] (some (.requiresAddress [])) ∧
      stringToBytes (t ++ '/' :: p.Name ++ ['/']) = .ret [] (some (.requiresAddress [])) := by
  have h1 : stringToBytes (t ++ '/' :: p.Name) = .ret [] (some (.requiresAddress [])) := by
    have htrim : TrimRight (t ++ '/' :: p.Name) ['/'] = t ++ '/' :: p.Name := by
      have := TrimRight_append_of_no_slash (t ++ ['/']) (name_ne_nil hp) (name_no_slash hp)
      simpa using this
    unfold stringToBytes at h ⊢
    simp only [htrim, Split_append, Split_no_sep (name_no_slash hp)]
    simp only [noTrailingSlash_TrimRight hslash] at h
    cases hsp : Split t '/' with
    | nil => exact absurd hsp (Split_ne_nil t '/')
    | cons first sp =>
      rw [hsp] at h
      simp only at h
      split at h
      · cases h
      · rename_i hfirst
        simp only [List.cons_append]
        rw [if_neg hfirst, stringToBytesLoop_append sp.length sp [] b (Nat.le_refl _) h]
        simp only [stringToBytesLoop, ProtocolWithName_of_mem hp, (size_of_mem hp).2.2,
          if_false, hsz, if_true]
  refine ⟨h1, ?_⟩
  have h2 := TrimRight_slashes (t ++ '/' :: p.Name) 1
  have e : stringToBytes (t ++ '/' :: p.Name ++ ['/']) = stringToBytes (t ++ '/' :: p.Name) := by
    unfold stringToBytes
    simp only [List.replicate_one, List.append_assoc, List.cons_append] at h2 ⊢
    rw [h2]
  rw [e, h1]

theorem missing_value_fails_witness :
    stringToBytes "/ip4/127.0.0.1".toList = .ret [4, 127, 0, 0, 1] none ∧
      noTrailingSlash "/ip4/127.0.0.1".toList = true ∧
      (⟨6, 16, "tcp".toList⟩ : Protocol) ∈ Protocols ∧
      stringToBytes "/ip4/127.0.0.1/tcp".toList = .ret [] (some (.requiresAddress [])) ∧
      stringToBytes "/ip4/127.0.0.1/tcp/".toList = .ret [] (some (.requiresAddress [])) :=
  ⟨by decide, by decide, by decide,
    missing_value_fails "/ip4/127.0.0.1".toList [4, 127, 0, 0, 1] (by decide) (by decide)
      ⟨6, 16, "tcp".toList⟩ (by decide) (by decide)⟩

/-! ### What the encoder returns -/

theorem CodeToVarint_ne_nil {p : Protocol} (hp : p ∈ Protocols) : CodeToVarint p.Code ≠ [] := by
  have h := (ReadVarintCode_bounds (ReadVarintCode_CodeToVarint hp [])).1
  intro h0
  rw [h0] at h
  simp at h

/-- What `stringToBytes` appends for the tokens `sp` is a valid binary address,
not empty unless there are no tokens, and `bytesSplit` cuts it into as many
segments as there are tokens in name position. -/
theorem stringToBytesLoop_valid : ∀ (m : Nat) (sp : List Str) (b0 b : List Byte),
    sp.length ≤ m → stringToBytesLoop sp b0 = .ret b none →
    ∃ b1, b = b0 ++ b1 ∧ ValidAddress b1 ∧ (sp ≠ [] → b1 ≠ []) ∧
      ∀ (spare : List Byte) (ret : List (List Byte)) (fuel : Nat), b1.length ≤ fuel →
        ∃ segs, bytesSplitLoop spare fuel b1 ret = .ret (ret ++ segs) none ∧
          segs.length = (nameTokens sp).length := by
  intro m
  induction m with
  | zero =>
    intro sp b0 b hm h
    have hsp : sp = [] := List.length_eq_zero.mp (by omega)
    subst hsp
    simp only [stringToBytesLoop, Outcome.ret.injEq, and_true] at h
    refine ⟨[], by simp [h], .nil, fun h0 => absurd rfl h0, fun spare ret fuel _ => ?_⟩
    exact ⟨[], by rw [bytesSplitLoop_nil]; simp, rfl⟩
  | succ m ih =>
    intro sp b0 b hm h
    cases sp with
    | nil =>
      simp only [stringToBytesLoop, Outcome.ret.injEq, and_true] at h
      refine ⟨[], by simp [h], .nil, fun h0 => absurd rfl h0, fun spare ret fuel _ => ?_⟩
      exact ⟨[], by rw [bytesSplitLoop_nil]; simp, rfl⟩
    | cons name sp1 =>
      simp only [stringToBytesLoop] at h
      split at h
      · cases h
      · rename_i hcode
        rcases ProtocolWithName_cases name with h0 | ⟨hp, _⟩
        · rw [h0] at hcode; exact absurd rfl hcode
        · have hsz := (size_of_mem hp).2.1
          rw [if_pos hsz] at h
          cases sp1 with
          | nil => cases h
          | cons tok sp2 =>
            simp only at h
            cases ha : addressStringToBytes (ProtocolWithName name) tok with
            | error e => rw [ha] at h; cases h
            | ok a =>
              rw [ha] at h
              simp only at h
              obtain ⟨b2, hb2, hvalid, _, hsplit⟩ := ih sp2 _ b
                (by simp only [List.length_cons] at hm; omega) h
              have hlen := addressStringToBytes_length hp ha
              have hvne := CodeToVarint_ne_nil hp
              refine ⟨CodeToVarint (ProtocolWithName name).Code ++ a ++ b2,
                by rw [hb2]; simp, ValidAddress.cons _ a b2 hp hlen hvalid,
                fun _ => by simp [hvne], fun spare ret fuel hf => ?_⟩
              have hpos := List.length_pos.mpr hvne
              obtain ⟨g, rfl⟩ : ∃ g, fuel = g + 1 :=
                ⟨fuel - 1, by simp only [List.length_append] at hf; omega⟩
              obtain ⟨segs, hs1, hs2⟩ := hsplit spare
                (ret ++ [CodeToVarint (ProtocolWithName name).Code ++ a]) g
                (by simp only [List.length_append] at hf; omega)
              refine ⟨(CodeToVarint (ProtocolWithName name).Code ++ a) :: segs, ?_, ?_⟩
              · rw [bytesSplitLoop_front spare hp a b2 hlen ret g, hs1]
                simp
              · simp only [nameTokens, hsz, if_true, List.length_cons, hs2]

/-- C16. The empty address: `stringToBytes` succeeds with no bytes on the empty
text and on every text of slashes only, and it returns no bytes with a nil
error only for such texts. -/
theorem empty_address :
    (∀ k, stringToBytes (List.replicate k '/') = .ret [] none) ∧
      (∀ t, stringToBytes t = .ret [] none → ∃ k, t = List.replicate k '/') := by
  constructor
  · intro k
    have h := TrimRight_slashes [] k
    rw [List.nil_append] at h
    have h0 : TrimRight [] ['/'] = [] := rfl
    simp only [stringToBytes, h, h0, Split, ne_eq, not_true_eq_false, if_false,
      stringToBytesLoop]
  · intro t h
    unfold stringToBytes at h
    simp only at h
    have hflat := Split_flatMap (TrimRight t ['/']) '/'
    cases hsp : Split (TrimRight t ['/']) '/' with
    | nil => exact absurd hsp (Split_ne_nil _ _)
    | cons first sp =>
      rw [hsp] at h hflat
      simp only at h
      split at h
      · cases h
      · rename_i hfirst
        simp only [ne_eq, Decidable.not_not] at hfirst
        subst hfirst
        obtain ⟨b1, hb1, _, hne, _⟩ := stringToBytesLoop_valid sp.length sp [] [] (Nat.le_refl _) h
        have hsp0 : sp = [] := by
          by_contra hc
          rw [List.nil_append] at hb1
          exact hne hc hb1.symm
        subst hsp0
        simp only [List.flatMap_cons, List.flatMap_nil, List.append_nil, List.cons.injEq,
          true_and] at hflat
        have hall : ∀ x ∈ t, x = '/' := by
          have h1 : List.rdropWhile (fun c => (['/'] : Str).elem c) t = [] := hflat.symm
          rw [List.rdropWhile_eq_nil_iff] at h1
          intro x hx
          have hx1 := h1 x hx
          by_contra hne
          have hb : (x == '/') = false := by simpa using hne
          simp [List.elem, hb] at hx1
        exact ⟨t.length, List.eq_replicate_iff.mpr ⟨rfl, hall⟩⟩

theorem empty_address_witness :
    stringToBytes "".toList = .ret [] none ∧ stringToBytes "/".toList = .ret [] none ∧
      stringToBytes "///".toList = .ret [] none ∧ ∃ k, "///".toList = List.replicate k '/' :=
  ⟨empty_address.1 0, empty_address.1 1, empty_address.1 3,
    empty_address.2 "///".toList (by decide)⟩

/-- C17. The encoder returns a valid binary address: when `stringToBytes`
succeeds on `t` with the bytes `b`, then `b` is segments of a registry varint
followed by exactly `size/8` bytes, `bytesToString` and `bytesSplit` succeed on
`b`, and `bytesSplit` returns as many segments as `t` has tokens in
protocol-name position. -/
theorem encoder_output_valid (t : Str) (b : List Byte) (h : stringToBytes t = .ret b none) :
    ValidAddress b ∧ (∀ spare, (bytesToString b spare).succeeds = true) ∧
      ∀ spare, ∃ segs, bytesSplit b spare = .ret segs none ∧
        segs.length = (nameTokens (tokens t)).length := by
  unfold stringToBytes at h
  simp only at h
  unfold tokens
  cases hsp : Split (TrimRight t ['/']) '/' with
  | nil => exact absurd hsp (Split_ne_nil _ _)
  | cons first sp =>
    rw [hsp] at h
    simp only at h
    split at h
    · cases h
    · obtain ⟨b1, hb1, hvalid, _, hsplit⟩ := stringToBytesLoop_valid sp.length sp [] b
        (Nat.le_refl _) h
      rw [List.nil_append] at hb1
      subst hb1
      obtain ⟨toks, _, hdec, _⟩ := valid_tokens hvalid
      refine ⟨hvalid, fun spare => ?_, fun spare => ?_⟩
      · rw [bytesToString, hdec spare [] _ (Nat.le_refl _)]
        rfl
      · obtain ⟨segs, hs1, hs2⟩ := hsplit spare [] b.length (Nat.le_refl _)
        exact ⟨segs, by rw [bytesSplit, hs1]; rfl, by simpa using hs2⟩

theorem encoder_output_valid_witness :
    stringToBytes "/ip4/127.0.0.1/tcp/80/".toList = .ret [4, 127, 0, 0, 1, 6, 0, 80] none ∧
      (nameTokens (tokens "/ip4/127.0.0.1/tcp/80/".toList)).length = 2 ∧
      ValidAddress [4, 127, 0, 0, 1, 6, 0, 80] ∧
      (∀ spare, (bytesToString [4, 127, 0, 0, 1, 6, 0, 80] spare).succeeds = true) ∧
      ∀ spare, ∃ segs, bytesSplit [4, 127, 0, 0, 1, 6, 0, 80] spare = .ret segs none ∧
        segs.length = (nameTokens (tokens "/ip4/127.0.0.1/tcp/80/".toList)).length :=
  ⟨by decide, by decide,
    encoder_output_valid "/ip4/127.0.0.1/tcp/80/".toList [4, 127, 0, 0, 1, 6, 0, 80]
      (by decide)⟩

/-! ### Text to bytes to text, for canonical spellings -/

theorem Atoi_uitoa_large (n : Nat) (h : 2 ^ 63 ≤ n) : Atoi (uitoa n) = .error .outOfRange := by
  cases hs : uitoa n with
  | nil => exact absurd hs (uitoa_ne_nil n)
  | cons c cs =>
    obtain ⟨d, hd, hc⟩ := uitoa_digits n c (by rw [hs]; exact List.mem_cons_self _ _)
    have h1 : c ≠ '-' := by rw [hc]; exact (digitChar_ne hd).2.1
    have h2 : c ≠ '+' := by rw [hc]; exact (digitChar_ne hd).2.2.1
    have hp := parseDigits_uitoa n
    rw [hs] at hp
    have hge : n ≥ 2 ^ 63 := h
    simp only [Atoi, h1, h2, or_self, if_false, hp, decide_False, Bool.false_eq_true,
      reduceCtorEq, hge, if_true]

/-- A port written as the unpadded decimal of `n` is refused, or it is read as
`n` and `n` is written back the same way. -/
theorem port_spelling_round_trip {p : Protocol}
    (hport : p.Code = P_TCP ∨ p.Code = P_UDP ∨ p.Code = P_DCCP ∨ p.Code = P_SCTP) (n : Nat) :
    (∃ e, addressStringToBytes p (uitoa n) = .error e) ∨
      (∃ a, addressStringToBytes p (uitoa n) = .ok a ∧ addressBytesToString p a = uitoa n) := by
  by_cases hn : n < 65536
  · exact Or.inr ⟨putUint16 n, addressStringToBytes_port hport hn,
      addressBytesToString_port hport hn⟩
  · refine Or.inl ?_
    have h4 : p.Code ≠ P_IP4 := by
      rcases hport with h | h | h | h <;> rw [h] <;> decide
    have h6 : p.Code ≠ P_IP6 := by
      rcases hport with h | h | h | h <;> rw [h] <;> decide
    by_cases hbig : n < 2 ^ 63
    · have hge : (n : Int) ≥ 65536 := by omega
      exact ⟨.portTooLarge p.Name, by
        simp only [addressStringToBytes, h4, h6, if_false, hport, if_true,
          Atoi_uitoa n hbig, hge]⟩
    · exact ⟨.port p.Name .outOfRange, by
        simp only [addressStringToBytes, h4, h6, if_false, hport, if_true,
          Atoi_uitoa_large n (by omega)]⟩

/-- A value token with the canonical spelling of its registry protocol is
refused, or it comes back unchanged from parsing and rendering. -/
theorem canonicalSpelling_round_trip {p : Protocol} (hp : p ∈ Protocols) {tok : Str}
    (h : canonicalSpelling p tok) :
    (∃ e, addressStringToBytes p tok = .error e) ∨
      (∃ a, addressStringToBytes p tok = .ok a ∧ addressBytesToString p a = tok) := by
  unfold canonicalSpelling at h
  split at h
  · rename_i hip
    obtain ⟨v, hv, rfl⟩ := h
    have hr : addressBytesToString p v = IPString v := by
      simp only [addressBytesToString, hip, if_true]
    have hval := (value_round_trip hp hv).1
    rw [hr] at hval
    exact Or.inr ⟨v, hval, hr⟩
  · split at h
    · rename_i hport
      obtain ⟨n, rfl⟩ := h
      rw [← uitoa_eq_toDigits]
      exact port_spelling_round_trip hport n
    · rename_i hip hport
      exfalso
      simp only [Protocols, List.mem_cons, List.mem_singleton, List.not_mem_nil, or_false] at hp
      rcases hp with rfl | rfl | rfl | rfl | rfl | rfl <;>
        first | (exact hip (by decide)) | (exact hport (by decide))

/-- Canonical spellings come back unchanged from parsing and rendering. -/
theorem valuesCanonical_of_spelled : ∀ (m : Nat) (sp : List Str), sp.length ≤ m →
    valuesSpelled sp → valuesCanonical sp = true := by
  intro m
  induction m with
  | zero =>
    intro sp hm _
    have hsp : sp = [] := List.length_eq_zero.mp (by omega)
    subst hsp
    rfl
  | succ m ih =>
    intro sp hm h
    cases sp with
    | nil => rfl
    | cons name sp1 =>
      by_cases hsz : (ProtocolWithName name).Size > 0
      · cases sp1 with
        | nil => simp only [valuesCanonical, hsz, if_true]
        | cons tok sp2 =>
          simp only [valuesSpelled, hsz, if_true] at h
          have hp : ProtocolWithName name ∈ Protocols := by
            rcases ProtocolWithName_cases name with h0 | ⟨h1, _⟩
            · rw [h0] at hsz; exact absurd hsz (by decide)
            · exact h1
          have hrest := ih sp2 (by simp only [List.length_cons] at hm; omega) h.2
          simp only [valuesCanonical, hsz, if_true, hrest, Bool.and_true]
          rcases canonicalSpelling_round_trip hp h.1 with ⟨e, he⟩ | ⟨a, ha, hr⟩
          · rw [he]
          · rw [ha]
            simp only [hr, decide_True]
      · cases sp1 with
        | nil =>
          simp only [valuesCanonical, hsz, if_false]
        | cons tok sp2 =>
          simp only [valuesSpelled, hsz, if_false] at h
          simp only [valuesCanonical, hsz, if_false]
          exact ih (tok :: sp2) (by simp only [List.length_cons] at hm ⊢; omega) h

/-- C2, amended. Text to bytes to text: for every text that `stringToBytes`
accepts, that is in the canonical form of the spec (no trailing slash, no
double slash) and in which every value token has the canonical spelling of its
protocol (a port as the unpadded unsigned decimal of a number, an ip4 or ip6
value as `net.IP.String` prints an address of 4 or 16 bytes), `bytesToString`
of the bytes returns exactly that text. -/
theorem text_round_trip (t : Str) (b : List Byte) (h : stringToBytes t = .ret b none)
    (hslash : noTrailingSlash t = true) (_hdouble : noDoubleSlash t = true)
    (hvalues : valuesSpelled (Split t '/').tail) (spare : List Byte) :
    bytesToString b spare = .ret t none := by
  have htrim : TrimRight t ['/'] = t := noTrailingSlash_TrimRight hslash
  unfold stringToBytes at h
  simp only [htrim] at h
  have hflat := Split_flatMap t '/'
  cases hsp : Split t '/' with
  | nil => exact absurd hsp (Split_ne_nil t '/')
  | cons first sp =>
    rw [hsp] at h hflat hvalues
    simp only [List.tail_cons] at hvalues
    simp only at h
    split at h
    · cases h
    · rename_i hfirst
      simp only [ne_eq, Decidable.not_not] at hfirst
      subst hfirst
      obtain ⟨b1, hb1, hloop⟩ := stringToBytesLoop_decodes spare sp.length sp [] b le_rfl h
        (valuesCanonical_of_spelled sp.length sp le_rfl hvalues)
      simp only [List.flatMap_cons, List.cons_append, List.nil_append, List.cons.injEq,
        true_and] at hflat
      rw [List.nil_append] at hb1
      subst hb1
      rw [bytesToString, hloop [] _ le_rfl, hflat]
      rfl

theorem text_round_trip_witness :
    stringToBytes "/ip6/::1/udp/1234".toList =
        .ret [41, 0, 0, 0, 0, 0, 0, 0, 0, 0, 0, 0, 0, 0, 0, 0, 1, 17, 4, 210] none ∧
      noTrailingSlash "/ip6/::1/udp/1234".toList = true ∧
      noDoubleSlash "/ip6/::1/udp/1234".toList = true ∧
      valuesSpelled (Split "/ip6/::1/udp/1234".toList '/').tail ∧
      bytesToString [41, 0, 0, 0, 0, 0, 0, 0, 0, 0, 0, 0, 0, 0, 0, 0, 1, 17, 4, 210] [] =
        .ret "/ip6/::1/udp/1234".toList none := by
  have hsp : (Split "/ip6/::1/udp/1234".toList '/').tail =
      ["ip6".toList, "::1".toList, "udp".toList, "1234".toList] := by decide
  have hv : valuesSpelled (Split "/ip6/::1/udp/1234".toList '/').tail := by
    rw [hsp]
    have h6 : canonicalSpelling (ProtocolWithName "ip6".toList) "::1".toList := by
      unfold canonicalSpelling
      rw [if_pos (by decide)]
      exact ⟨[0, 0, 0, 0, 0, 0, 0, 0, 0, 0, 0, 0, 0, 0, 0, 1], by decide, by decide⟩
    have hu : canonicalSpelling (ProtocolWithName "udp".toList) "1234".toList := by
      unfold canonicalSpelling
      rw [if_neg (by decide), if_pos (by decide)]
      exact ⟨1234, by decide⟩
    have s1 : (ProtocolWithName "ip6".toList).Size > 0 := by decide
    have s2 : (ProtocolWithName "udp".toList).Size > 0 := by decide
    simp only [valuesSpelled, s1, s2, if_true]
    exact ⟨h6, hu, trivial⟩
  exact ⟨by decide, by decide, by decide, hv,
    text_round_trip "/ip6/::1/udp/1234".toList
      [41, 0, 0, 0, 0, 0, 0, 0, 0, 0, 0, 0, 0, 0, 0, 0, 1, 17, 4, 210] (by decide) (by decide)
      (by decide) hv []⟩

/-- An ip6 value written without the ellipsis is accepted, and is decoded with
the ellipsis: the spelling of ip4 and ip6 values matters to the round trip as
that of ports does. -/
theorem ip6_spelling_matters :
    stringToBytes "/ip6/0:0:0:0:0:0:0:1".toList =
        .ret [41, 0, 0, 0, 0, 0, 0, 0, 0, 0, 0, 0, 0, 0, 0, 0, 1] none ∧
      bytesToString [41, 0, 0, 0, 0, 0, 0, 0, 0, 0, 0, 0, 0, 0, 0, 0, 1] [] =
        .ret "/ip6/::1".toList none := by
  constructor <;> decide

end Multiaddr
